import Mathlib

/-!
# go-lang-logo: lexer, program builder, interpreter and compiler

A shallow embedding of `logo/lexer.go`, `logo/runtime.go` and `logo/compiler.go`.

Conventions of the embedding.

* A Go `string` / `[]rune` is a `List Char`.
* Go `int` is a 64-bit two's complement integer: it is an `Int`, and arithmetic
  on data values goes through `wrapInt64`.  `int32` fields go through
  `wrapInt32`, the `uint32` line counter through `% 2 ^ 32`.
* A Go function that mutates its receiver and may fail returns the receiver
  after the call together with the failure, if any.  `panic` and a returned
  `error` are both a `Fault`; `Outcome` tells them apart at the level of
  `Run` and `Compile`.
* The logging helpers (`dbg`, `trace`) and the flags that switch them on have
  no effect on any other field and are left out.
-/

namespace Logo

/-! ## Machine integers -/

/-- Value of a Go `int` (64 bits, two's complement) holding the mathematical
integer `x`: the representative of `x` modulo 2^64 from -2^63 up to 2^63 - 1. -/
def wrapInt64 (x : Int) : Int :=
  (x + 9223372036854775808) % 18446744073709551616 - 9223372036854775808

/-- Value of a Go `int32` holding the mathematical integer `x`: the
representative of `x` modulo 2^32 from -2^31 up to 2^31 - 1. -/
def wrapInt32 (x : Int) : Int := (x + 2147483648) % 4294967296 - 2147483648

/-- Value of a Go `uint32` holding the natural number `x`: `x` modulo 2^32. -/
def wrapUint32 (x : Nat) : Nat := x % 4294967296

/-! ## Tokens and faults -/

/-- The token kinds of `lexer.go`, in the order of their `iota` values. -/
inductive Token where
  | TkEOF
  | TkLiteral
  | TkIdent
  | TkString
  | TkNumber
  | TkComment
  | TkEOL
  deriving DecidableEq, Repr

/-- The integer value of a token kind, as printed by `%d`. -/
def Token.code : Token → Nat
  | .TkEOF => 0
  | .TkLiteral => 1
  | .TkIdent => 2
  | .TkString => 3
  | .TkNumber => 4
  | .TkComment => 5
  | .TkEOL => 6

/-- The messages passed to `syntaxError` in `runtime.go` and `compiler.go`,
with the values substituted into their format strings. -/
inductive SyntaxMsg where
  /-- "invalid parameter type, expected %d got %d in line %d" -/
  | invalidParameterType (expected got : Token) (line : Nat)
  /-- "unexpected token %d in line %d" -/
  | unexpectedToken (got : Token) (line : Nat)
  /-- "unknown keyword in line %d" -/
  | unknownKeyword (line : Nat)
  /-- "unrecognized color in line %d" -/
  | unrecognizedColor (line : Nat)
  /-- "invalid parameter in line %d" -/
  | invalidParameter (line : Nat)
  /-- "the count is too small or too large number in line %d" -/
  | countOutOfRange (line : Nat)
  deriving DecidableEq, Repr

/-- Every error value the three files create, and the Go run-time panic of an
index outside a slice or array. -/
inductive Fault where
  /-- lexer: "parse error at line %d" -/
  | parseError (line : Nat)
  /-- lexer: "unknown character 0x%02x at line %d" -/
  | unknownCharacter (c : Char) (line : Nat)
  /-- builder: "invalid token %d in line %d" -/
  | invalidToken (tok : Token) (line : Nat)
  /-- engine: "unexpected end of program" -/
  | unexpectedEndOfProgram
  /-- engine: "syntax error: %s" -/
  | syntaxError (msg : SyntaxMsg)
  /-- interpreter: "stack overflow" -/
  | stackOverflow
  /-- interpreter: "stack empty" -/
  | stackEmpty
  /-- Go run time: index out of range -/
  | indexOutOfRange
  deriving DecidableEq, Repr

/-- How a call of `Run` or `Compile` ends: it returns `nil`, it returns an
error, or it panics.  `outOfFuel` is the embedding's own verdict when the
bound given to a loop was too small; no Go execution corresponds to it. -/
inductive Outcome where
  | done
  | returned (e : Fault)
  | panicked (e : Fault)
  | outOfFuel
  deriving DecidableEq, Repr

/-! ## Lexer (`lexer.go`) -/

/-- The lexer state. `Literal` is a rune, zero when unset. -/
structure Lexer where
  Expr : List Char
  Position : Nat
  Line : Nat
  String : List Char
  Number : Int
  Literal : Char
  CommentSymbol : Char
  deriving DecidableEq, Repr

/-- The constructor `NewLexer`. -/
def NewLexer (expr : List Char) : Lexer :=
  { Expr := expr, Position := 0, Line := 1, String := [], Number := 0,
    Literal := Char.ofNat 0, CommentSymbol := '#' }

namespace Lexer

/-- The input from the scan position on: `l.Expr[l.Position:]`, empty at or past the end. -/
def rest (l : Lexer) : List Char := l.Expr.drop l.Position

/-- The rune `l.Expr[l.Position]`, when the position is inside the input. -/
def cur (l : Lexer) : Option Char := l.rest.head?

def isEof (l : Lexer) : Bool := decide (l.Position ≥ l.Expr.length)

/-- The test of `isWhiteSpace` on one rune. -/
def whiteSpaceRune (c : Char) : Bool := c == ' ' || c == '\t'

/-- The test of `isEol` on one rune. -/
def eolRune (c : Char) : Bool := c == '\n'

/-- The test of `isQuote` on one rune: a double or a single quote. -/
def quoteRune (c : Char) : Bool := c == Char.ofNat 34 || c == Char.ofNat 39

/-- The keys of the map `LITERALS`. -/
def LITERALS : List Char := "!@#$%^&*()[]\x7b\x7d:;.,<>/?+-".toList

/-- The test of `isLiteral` on one rune. -/
def literalRune (c : Char) : Bool := LITERALS.contains c

/-- The test of `isNumeric` on one rune. -/
def numericRune (c : Char) : Bool := decide ('0'.toNat ≤ c.toNat) && decide (c.toNat ≤ '9'.toNat)

/-- The test of `isAlpha` on one rune. -/
def alphaRune (c : Char) : Bool :=
  (decide ('A'.toNat ≤ c.toNat) && decide (c.toNat ≤ 'Z'.toNat)) ||
  (decide ('a'.toNat ≤ c.toNat) && decide (c.toNat ≤ 'z'.toNat))

/-- Lifts a test on the current rune to the lexer: false at end of input. -/
def test (l : Lexer) (p : Char → Bool) : Bool :=
  match l.cur with
  | some c => p c
  | none => false

def isWhiteSpace (l : Lexer) : Bool := l.test whiteSpaceRune
def isEol (l : Lexer) : Bool := l.test eolRune
def isQuote (l : Lexer) : Bool := l.test quoteRune
def isLiteral (l : Lexer) : Bool := l.test literalRune
def isNumeric (l : Lexer) : Bool := l.test numericRune
def isAlpha (l : Lexer) : Bool := l.test alphaRune

/-- The lexer after `n` executions of `l.Position += 1`. -/
def advance (l : Lexer) (n : Nat) : Lexer := { l with Position := l.Position + n }

/-- The runes a loop `for cond() { sb.WriteRune(l.Expr[l.Position]); l.Position += 1 }`
consumes, where `cond` is false at end of input and otherwise tests the
current rune with `p`: the longest run of runes satisfying `p` from the scan
position on. -/
def run (l : Lexer) (p : Char → Bool) : List Char := l.rest.takeWhile p

/-- The loop condition of the comment branch, `!isEof() && !isEol()`, on one rune. -/
def commentRune (c : Char) : Bool := !eolRune c

/-- The loop condition of the string branch, `!isEof() && !isQuote()`, on one rune. -/
def stringRune (c : Char) : Bool := !quoteRune c

/-- The loop condition of the identifier branch,
`!isWhiteSpace() && !isLiteral() && !isEol() && !isEof()`, on one rune. -/
def identRune (c : Char) : Bool := !whiteSpaceRune c && !literalRune c && !eolRune c

/-- One round of the number loop: `number = number*10 + int(rune - '0')`. -/
def addDigit (number : Int) (c : Char) : Int :=
  wrapInt64 (wrapInt64 (number * 10) + wrapInt32 ((c.toNat : Int) - ('0'.toNat : Int)))

/-- The value the number loop accumulates over a run of digits, starting from `number`. -/
def accumulate (number : Int) (digits : List Char) : Int := digits.foldl addDigit number

/-- The method `NextToken`: the lexer after the call, the token and the error. -/
def NextToken (l0 : Lexer) : Lexer × Token × Option Fault :=
  let l := { l0 with String := [], Number := 0, Literal := Char.ofNat 0 }
  if l.isEol then
    ({ l with Position := l.Position + 1, Line := wrapUint32 (l.Line + 1), Literal := '\n' },
      .TkEOL, none)
  else
    let l := l.advance (l.run whiteSpaceRune).length
    match l.cur with
    | none => (l, .TkEOF, none)
    | some c =>
      if c = l.CommentSymbol then
        let text := l.run commentRune
        ({ l.advance text.length with String := text }, .TkComment, none)
      else if l.isLiteral then
        ({ l with Literal := c, Position := l.Position + 1 }, .TkLiteral, none)
      else if l.isQuote then
        let l1 := l.advance 1
        let text := l1.run stringRune
        ({ (l1.advance text.length).advance 1 with String := text }, .TkString, none)
      else if l.isNumeric then
        let digits := l.run numericRune
        let number := accumulate 0 digits
        let l1 := l.advance digits.length
        if !l1.isWhiteSpace && !l1.isEol && !l1.isEof then
          (l1, .TkEOF, some (.parseError l1.Line))
        else
          ({ l1 with Number := number }, .TkNumber, none)
      else
        let text := if l.isAlpha then l.run identRune else []
        let l1 := l.advance text.length
        if text.length ≠ 0 then
          ({ l1 with String := text }, .TkIdent, none)
        else
          (l1, .TkEOF, some (.unknownCharacter c l1.Line))

end Lexer

/-! ## Program steps and the build pass -/

/-- The struct `ProgramStep` of `runtime.go`. -/
structure ProgramStep where
  Token : Token
  Line : Nat
  String : List Char
  Number : Int
  Literal : Char
  deriving DecidableEq, Repr

/-- The step both build passes append for an identifier token:
`ProgramStep{Token: token, String: l.String, Line: l.Line}`. -/
def identStep (l : Lexer) : ProgramStep :=
  { Token := .TkIdent, Line := l.Line, String := l.String, Number := 0, Literal := Char.ofNat 0 }

/-- The step both build passes append for a number token:
`ProgramStep{Token: token, Number: l.Number, Line: l.Line}`. -/
def numberStep (l : Lexer) : ProgramStep :=
  { Token := .TkNumber, Line := l.Line, String := [], Number := l.Number, Literal := Char.ofNat 0 }

/-- The first loop of `Runtime.Run`: it calls `NextToken` until end of file
or an error, appending to `r.Program`.  The result is the program built so
far and how the loop ended: `done` at `TkEOF`, `returned e` where `Run`
returns `e`.  `fuel` bounds the number of rounds. -/
def runtimeBuildLoop : Nat → Lexer → List ProgramStep → List ProgramStep × Outcome
  | 0, _, prog => (prog, .outOfFuel)
  | fuel + 1, l, prog =>
    match l.NextToken with
    | (_, _, some err) => (prog, .returned err)
    | (l1, token, none) =>
      if token = .TkEOF then (prog, .done)
      else
        match token with
        | .TkIdent => runtimeBuildLoop fuel l1 (prog ++ [identStep l1])
        | .TkNumber => runtimeBuildLoop fuel l1 (prog ++ [numberStep l1])
        | .TkLiteral => runtimeBuildLoop fuel l1 prog
        | .TkEOL => runtimeBuildLoop fuel l1 prog
        | .TkComment => runtimeBuildLoop fuel l1 prog
        | _ => (prog, .returned (.invalidToken token l1.Line))

/-- The first loop of `Compiler.Compile`, the same text as in `Runtime.Run`. -/
def compilerBuildLoop : Nat → Lexer → List ProgramStep → List ProgramStep × Outcome
  | 0, _, prog => (prog, .outOfFuel)
  | fuel + 1, l, prog =>
    match l.NextToken with
    | (_, _, some err) => (prog, .returned err)
    | (l1, token, none) =>
      if token = .TkEOF then (prog, .done)
      else
        match token with
        | .TkIdent => compilerBuildLoop fuel l1 (prog ++ [identStep l1])
        | .TkNumber => compilerBuildLoop fuel l1 (prog ++ [numberStep l1])
        | .TkLiteral => compilerBuildLoop fuel l1 prog
        | .TkEOL => compilerBuildLoop fuel l1 prog
        | .TkComment => compilerBuildLoop fuel l1 prog
        | _ => (prog, .returned (.invalidToken token l1.Line))

/-- The build pass of `Runtime.Run` on a source text.  Every round but the
last consumes at least one rune, so one round more than the text has runes is
enough (`runtimeBuild_fuel`). -/
def runtimeBuild (program : List Char) : List ProgramStep × Outcome :=
  runtimeBuildLoop (program.length + 1) (NewLexer program) []

/-- The build pass of `Compiler.Compile` on a source text. -/
def compilerBuild (program : List Char) : List ProgramStep × Outcome :=
  compilerBuildLoop (program.length + 1) (NewLexer program) []

/-! ## Upper-casing and the lookup tables -/

/-- The rune map of `strings.ToUpper`, as far as this program can observe it.
ASCII letters `a`-`z` go to `A`-`Z`; the dotless i (U+0131) and the long s
(U+017F) are the two runes outside ASCII whose upper case is an ASCII letter
(`I` and `S`).  Every other rune outside ASCII goes to a rune outside ASCII
and is left as it is here: the program compares upper-cased text with ASCII
constants only. -/
def toUpperRune (c : Char) : Char :=
  if 'a'.toNat ≤ c.toNat ∧ c.toNat ≤ 'z'.toNat then Char.ofNat (c.toNat - 32)
  else if c.toNat = 0x131 then 'I'
  else if c.toNat = 0x17F then 'S'
  else c

/-- The function `strings.ToUpper`. -/
def ToUpper (s : List Char) : List Char := s.map toUpperRune

/-- The type `Color` with its eight constants. -/
inductive Color where
  | Black | White | Red | Green | Blue | Yellow | Gray | Magenta
  deriving DecidableEq, Repr

/-- The map `COLORS` of `runtime.go`. -/
def COLORS : List (List Char × Color) :=
  [("BLACK".toList, .Black), ("WHITE".toList, .White), ("RED".toList, .Red),
   ("GREEN".toList, .Green), ("BLUE".toList, .Blue), ("YELLOW".toList, .Yellow),
   ("GRAY".toList, .Gray), ("MAGENTA".toList, .Magenta)]

/-- The map `colors` of `compiler.go`. -/
def colors : List (List Char × List Char) :=
  [("BLACK".toList, "black".toList), ("WHITE".toList, "white".toList),
   ("RED".toList, "red".toList), ("GREEN".toList, "green".toList),
   ("BLUE".toList, "blue".toList), ("YELLOW".toList, "yellow".toList),
   ("GRAY".toList, "gray".toList), ("MAGENTA".toList, "magenta".toList)]

/-- The ten commands: the keys of `KEYWORDS` and of `keywords`. -/
inductive Keyword where
  | HOME | PAPER | INK | PEN | REPEAT | LOOP | FORWARD | BACK | LEFT | RIGHT
  deriving DecidableEq, Repr

/-- The keys of the maps `KEYWORDS` (`runtime.go`) and `keywords` (`compiler.go`). -/
def KEYWORDS : List (List Char × Keyword) :=
  [("HOME".toList, .HOME), ("PAPER".toList, .PAPER), ("INK".toList, .INK),
   ("PEN".toList, .PEN), ("REPEAT".toList, .REPEAT), ("LOOP".toList, .LOOP),
   ("FORWARD".toList, .FORWARD), ("BACK".toList, .BACK), ("LEFT".toList, .LEFT),
   ("RIGHT".toList, .RIGHT)]

/-- Lookup in a Go map given as the list of its entries (the keys are distinct). -/
def mapGet {α : Type} (m : List (List Char × α)) (key : List Char) : Option α :=
  match m with
  | [] => none
  | (k, v) :: rest => if key = k then some v else mapGet rest key

/-- Result of a Go function that returns a value or panics. -/
inductive Res (α : Type) where
  | ok (a : α)
  | fail (e : Fault)
  deriving DecidableEq, Repr

/-- The element `prog[pc]` of the instruction sequence, when `pc` is a valid index. -/
def fetch (prog : List ProgramStep) (pc : Int) : Option ProgramStep :=
  if 0 ≤ pc then prog[pc.toNat]? else none

/-! ## Interpreter (`runtime.go`) -/

/-- The struct `Position`: two `int32` coordinates. -/
structure Position where
  X : Int
  Y : Int
  deriving DecidableEq, Repr

/-- One call on the `DrawingStub` of the runtime. -/
inductive StubCall where
  | Clear
  | DrawLine (x1 y1 x2 y2 : Int)
  deriving DecidableEq, Repr

/-- The four floating-point computations of `forwardCmd` and `backCmd`, taken
as given: each maps the step and the angle (in degrees) to an `int32`.

* `forwardDx step angle` is `int32(math.Round(float64(step) * math.Cos(r.DegToRad(angle))))`,
* `forwardDy step angle` is `int32(math.Round(float64(step) * math.Sin(r.DegToRad(angle))))`,
* `backDx step angle` is `int32(float64(step) * math.Cos(r.DegToRad(angle)))`,
* `backDy step angle` is `int32(float64(step) * math.Sin(r.DegToRad(angle)))`. -/
structure FloatOps where
  forwardDx : Int → Int → Int
  forwardDy : Int → Int → Int
  backDx : Int → Int → Int
  backDy : Int → Int → Int

/-- The struct `Runtime`.  `Stack` is the array `[256]int`, read and written
at the indices 0 to 255 only.  `Calls` is the log of the calls made on
`r.Stub`, oldest first; the two stubs of the repository (`NullDraw`,
`Visual`) do not change the runtime they are handed. -/
structure Runtime where
  Program : List ProgramStep
  PC : Int
  Stack : Int → Int
  SP : Int
  Head : Position
  Angle : Int
  PenDown : Bool
  Paper : Color
  Ink : Color
  Calls : List StubCall

/-- The constructor `NewRuntime`; the fields it does not name are zero. -/
def NewRuntime : Runtime :=
  { Program := [], PC := 0, Stack := fun _ => 0, SP := 0, Head := { X := 320, Y := 240 },
    Angle := 0, PenDown := false, Paper := .Black, Ink := .White, Calls := [] }

namespace Runtime

def isEOP (r : Runtime) : Bool := decide (r.PC = (r.Program.length : Int))

/-- The methods `expectToken` and `next`. -/
def next (r : Runtime) : Runtime × Res ProgramStep :=
  if r.isEOP then (r, .fail .unexpectedEndOfProgram)
  else
    match fetch r.Program r.PC with
    | none => (r, .fail .indexOutOfRange)
    | some token => ({ r with PC := r.PC + 1 }, .ok token)

/-- The method `getParam`. -/
def getParam (r : Runtime) (expected : Token) : Runtime × Res ProgramStep :=
  match r.next with
  | (r1, .fail e) => (r1, .fail e)
  | (r1, .ok param) =>
    if param.Token ≠ expected then
      (r1, .fail (.syntaxError (.invalidParameterType expected param.Token param.Line)))
    else (r1, .ok param)

/-- The method `push`. -/
def push (r : Runtime) (val : Int) : Runtime × Option Fault :=
  if r.SP = 256 then (r, some .stackOverflow)
  else if 0 ≤ r.SP ∧ r.SP < 256 then
    ({ r with Stack := Function.update r.Stack r.SP val, SP := r.SP + 1 }, none)
  else (r, some .indexOutOfRange)

/-- The method `pop`. -/
def pop (r : Runtime) : Runtime × Res Int :=
  if r.SP = 0 then (r, .fail .stackEmpty)
  else
    let r1 := { r with SP := wrapInt64 (r.SP - 1) }
    if 0 ≤ r1.SP ∧ r1.SP < 256 then (r1, .ok (r1.Stack r1.SP))
    else (r1, .fail .indexOutOfRange)

/-- The method `getColor`. -/
def getColor (r : Runtime) : Runtime × Res Color :=
  match r.getParam .TkIdent with
  | (r1, .fail e) => (r1, .fail e)
  | (r1, .ok token) =>
    match mapGet COLORS (ToUpper token.String) with
    | some value => (r1, .ok value)
    | none => (r1, .fail (.syntaxError (.unrecognizedColor token.Line)))

end Runtime

open Runtime

def homeCmd (r : Runtime) : Runtime × Option Fault :=
  ({ r with Head := { X := 320, Y := 240 }, Calls := r.Calls ++ [.Clear] }, none)

def paperCmd (r : Runtime) : Runtime × Option Fault :=
  match r.getColor with
  | (r1, .fail e) => (r1, some e)
  | (r1, .ok c) => ({ r1 with Paper := c }, none)

def inkCmd (r : Runtime) : Runtime × Option Fault :=
  match r.getColor with
  | (r1, .fail e) => (r1, some e)
  | (r1, .ok c) => ({ r1 with Ink := c }, none)

def penCmd (r : Runtime) : Runtime × Option Fault :=
  match r.getParam .TkIdent with
  | (r1, .fail e) => (r1, some e)
  | (r1, .ok token) =>
    let value := ToUpper token.String
    if value = "UP".toList ∨ value = "DOWN".toList then
      ({ r1 with PenDown := decide (value = "DOWN".toList) }, none)
    else (r1, some (.syntaxError (.invalidParameter token.Line)))

def forwardCmd (M : FloatOps) (r : Runtime) : Runtime × Option Fault :=
  match r.getParam .TkNumber with
  | (r1, .fail e) => (r1, some e)
  | (r1, .ok token) =>
    let step := token.Number
    let dx := M.forwardDx step r1.Angle
    let dy := M.forwardDy step r1.Angle
    let r2 :=
      if r1.PenDown then
        { r1 with Calls := r1.Calls ++
            [.DrawLine r1.Head.X r1.Head.Y (wrapInt32 (r1.Head.X + dx)) (wrapInt32 (r1.Head.Y + dy))] }
      else r1
    ({ r2 with Head := { X := wrapInt32 (r2.Head.X + dx), Y := wrapInt32 (r2.Head.Y + dy) } }, none)

def backCmd (M : FloatOps) (r : Runtime) : Runtime × Option Fault :=
  match r.getParam .TkNumber with
  | (r1, .fail e) => (r1, some e)
  | (r1, .ok token) =>
    let step := token.Number
    let dx := M.backDx step r1.Angle
    let dy := M.backDy step r1.Angle
    let r2 :=
      if r1.PenDown then
        { r1 with Calls := r1.Calls ++
            [.DrawLine r1.Head.X r1.Head.Y (wrapInt32 (r1.Head.X - dx)) (wrapInt32 (r1.Head.Y - dy))] }
      else r1
    ({ r2 with Head := { X := wrapInt32 (r2.Head.X - dx), Y := wrapInt32 (r2.Head.Y - dy) } }, none)

def leftCmd (r : Runtime) : Runtime × Option Fault :=
  match r.getParam .TkNumber with
  | (r1, .fail e) => (r1, some e)
  | (r1, .ok token) => ({ r1 with Angle := (wrapInt64 (r1.Angle + token.Number)).tmod 360 }, none)

def rightCmd (r : Runtime) : Runtime × Option Fault :=
  match r.getParam .TkNumber with
  | (r1, .fail e) => (r1, some e)
  | (r1, .ok token) => ({ r1 with Angle := (wrapInt64 (r1.Angle - token.Number)).tmod 360 }, none)

def repeatCmd (r : Runtime) : Runtime × Option Fault :=
  match r.getParam .TkNumber with
  | (r1, .fail e) => (r1, some e)
  | (r1, .ok token) =>
    if token.Number ≤ 0 ∨ token.Number ≥ 65536 then
      (r1, some (.syntaxError (.countOutOfRange token.Line)))
    else
      match r1.push r1.PC with
      | (r2, some e) => (r2, some e)
      | (r2, none) => r2.push token.Number

def loopCmd (r : Runtime) : Runtime × Option Fault :=
  match r.pop with
  | (r1, .fail e) => (r1, some e)
  | (r1, .ok popped) =>
    let value := wrapInt64 (popped - 1)
    if value > 0 then
      match r1.pop with
      | (r2, .fail e) => (r2, some e)
      | (r2, .ok pc) =>
        match r2.push pc with
        | (r3, some e) => (r3, some e)
        | (r3, none) =>
          match r3.push value with
          | (r4, some e) => (r4, some e)
          | (r4, none) => ({ r4 with PC := pc }, none)
    else
      match r1.pop with
      | (r2, .fail e) => (r2, some e)
      | (r2, .ok _) => (r2, none)

/-- The handler the map `KEYWORDS` holds for a command. -/
def command (M : FloatOps) : Keyword → Runtime → Runtime × Option Fault
  | .HOME => homeCmd
  | .PAPER => paperCmd
  | .INK => inkCmd
  | .PEN => penCmd
  | .REPEAT => repeatCmd
  | .LOOP => loopCmd
  | .FORWARD => forwardCmd M
  | .BACK => backCmd M
  | .LEFT => leftCmd
  | .RIGHT => rightCmd

namespace Runtime

/-- One round of the second loop of `Run`, up to the test `r.isEOP()`:
fetch a step, require an identifier, look the command up and call it. -/
def dispatch (M : FloatOps) (r : Runtime) : Runtime × Option Fault :=
  match r.next with
  | (r1, .fail e) => (r1, some e)
  | (r1, .ok p) =>
    if p.Token ≠ .TkIdent then (r1, some (.syntaxError (.unexpectedToken p.Token p.Line)))
    else
      match mapGet KEYWORDS (ToUpper p.String) with
      | some fn => command M fn r1
      | none => (r1, some (.syntaxError (.unknownKeyword p.Line)))

/-- The second loop of `Run`: dispatch, then stop when the program counter is
at the end.  `fuel` bounds the number of rounds. -/
def runLoop (M : FloatOps) : Nat → Runtime → Runtime × Outcome
  | 0, r => (r, .outOfFuel)
  | fuel + 1, r =>
    match r.dispatch M with
    | (r1, some e) => (r1, .panicked e)
    | (r1, none) => if r1.isEOP then (r1, .done) else runLoop M fuel r1

/-- The method `Run`: the runtime after the call and how the call ended.
`fuel` bounds the rounds of the dispatch loop. -/
def Run (M : FloatOps) (fuel : Nat) (r : Runtime) (program : List Char) : Runtime × Outcome :=
  match runtimeBuild program with
  | (prog, .done) => runLoop M fuel { r with Program := prog, PC := 0 }
  | (prog, failed) => ({ r with Program := prog }, failed)

/-- The runtime after `k` rounds of dispatch in succession, and the fault
that stopped them early, if any. -/
def steps (M : FloatOps) : Nat → Runtime → Runtime × Option Fault
  | 0, r => (r, none)
  | k + 1, r =>
    match r.dispatch M with
    | (r1, some e) => (r1, some e)
    | (r1, none) => steps M k r1

end Runtime

/-! ## Compiler (`compiler.go`) -/

/-- The text `fmt.Sprintf("%d", n)`. -/
def fmtInt : Int → List Char
  | .ofNat k => Nat.toDigits 10 k
  | .negSucc k => '-' :: Nat.toDigits 10 (k + 1)

/-- The text `fmt.Sprintf("%t", b)`. -/
def fmtBool (b : Bool) : List Char := if b then "true".toList else "false".toList

/-- The struct `Compiler`.  `writer` is the text written so far to the
`bufio.Writer`, an append-only sink whose `WriteString` does not fail. -/
structure Compiler where
  Program : List ProgramStep
  writer : List Char
  PC : Int
  vidx : Int
  deriving DecidableEq, Repr

/-- The constructor `NewCompiler`, on a writer that holds `written` so far. -/
def NewCompiler (written : List Char) : Compiler :=
  { Program := [], writer := written, PC := 0, vidx := 0 }

namespace Compiler

def isEOP (c : Compiler) : Bool := decide (c.PC = (c.Program.length : Int))

/-- The methods `expectToken` and `next`. -/
def next (c : Compiler) : Compiler × Res ProgramStep :=
  if c.isEOP then (c, .fail .unexpectedEndOfProgram)
  else
    match fetch c.Program c.PC with
    | none => (c, .fail .indexOutOfRange)
    | some token => ({ c with PC := c.PC + 1 }, .ok token)

/-- The method `getParam`. -/
def getParam (c : Compiler) (expected : Token) : Compiler × Res ProgramStep :=
  match c.next with
  | (c1, .fail e) => (c1, .fail e)
  | (c1, .ok param) =>
    if param.Token ≠ expected then
      (c1, .fail (.syntaxError (.invalidParameterType expected param.Token param.Line)))
    else (c1, .ok param)

/-- The method `getColor`. -/
def getColor (c : Compiler) : Compiler × Res (List Char) :=
  match c.getParam .TkIdent with
  | (c1, .fail e) => (c1, .fail e)
  | (c1, .ok token) =>
    match mapGet colors (ToUpper token.String) with
    | some value => (c1, .ok value)
    | none => (c1, .fail (.syntaxError (.unrecognizedColor token.Line)))

/-- The method `nextVar`. -/
def nextVar (c : Compiler) : Compiler × List Char :=
  let c1 := { c with vidx := wrapInt64 (c.vidx + 1) }
  (c1, 'v' :: fmtInt c1.vidx)

/-- The method `emit`, applied to the formatted text. -/
def emit (c : Compiler) (text : List Char) : Compiler := { c with writer := c.writer ++ text }

end Compiler

open Compiler

def compileHomeCmd (c : Compiler) : Compiler × Option Fault :=
  (c.emit "home();".toList, none)

def compilePaperCmd (c : Compiler) : Compiler × Option Fault :=
  match c.getColor with
  | (c1, .fail e) => (c1, some e)
  | (c1, .ok color) => (c1.emit ("paper = ".toList ++ [Char.ofNat 39] ++ color ++ [Char.ofNat 39, ';']), none)

def compileInkCmd (c : Compiler) : Compiler × Option Fault :=
  match c.getColor with
  | (c1, .fail e) => (c1, some e)
  | (c1, .ok color) => (c1.emit ("ink = ".toList ++ [Char.ofNat 39] ++ color ++ [Char.ofNat 39, ';']), none)

def compilePenCmd (c : Compiler) : Compiler × Option Fault :=
  match c.getParam .TkIdent with
  | (c1, .fail e) => (c1, some e)
  | (c1, .ok token) =>
    let value := ToUpper token.String
    if value = "UP".toList ∨ value = "DOWN".toList then
      (c1.emit ("pendown = ".toList ++ fmtBool (decide (value = "DOWN".toList)) ++ ";".toList), none)
    else (c1, some (.syntaxError (.invalidParameter token.Line)))

/-- The shape shared by `compileForwardCmd`, `compileBackCmd`, `compileLeftCmd`
and `compileRightCmd`: `c.emit("<name>(%d);", c.getParam(TkNumber).Number)`. -/
def compileCall (name : List Char) (c : Compiler) : Compiler × Option Fault :=
  match c.getParam .TkNumber with
  | (c1, .fail e) => (c1, some e)
  | (c1, .ok token) => (c1.emit (name ++ "(".toList ++ fmtInt token.Number ++ ");".toList), none)

def compileForwardCmd (c : Compiler) : Compiler × Option Fault := compileCall "forward".toList c

def compileBackCmd (c : Compiler) : Compiler × Option Fault := compileCall "back".toList c

def compileLeftCmd (c : Compiler) : Compiler × Option Fault := compileCall "left".toList c

def compileRightCmd (c : Compiler) : Compiler × Option Fault := compileCall "right".toList c

def compileRepeatCmd (c : Compiler) : Compiler × Option Fault :=
  match c.getParam .TkNumber with
  | (c1, .fail e) => (c1, some e)
  | (c1, .ok token) =>
    if token.Number ≤ 0 ∨ token.Number ≥ 65536 then
      (c1, some (.syntaxError (.countOutOfRange token.Line)))
    else
      match c1.nextVar with
      | (c2, varName) =>
        (c2.emit ("for(let ".toList ++ varName ++ "=0;".toList ++ varName ++ "<".toList ++
          fmtInt token.Number ++ ";++".toList ++ varName ++ ")\x7b".toList), none)

def compileLoopCmd (c : Compiler) : Compiler × Option Fault :=
  (c.emit "\x7d".toList, none)

/-- The handler the map `keywords` holds for a command. -/
def compileCommand : Keyword → Compiler → Compiler × Option Fault
  | .HOME => compileHomeCmd
  | .PAPER => compilePaperCmd
  | .INK => compileInkCmd
  | .PEN => compilePenCmd
  | .REPEAT => compileRepeatCmd
  | .LOOP => compileLoopCmd
  | .FORWARD => compileForwardCmd
  | .BACK => compileBackCmd
  | .LEFT => compileLeftCmd
  | .RIGHT => compileRightCmd

namespace Compiler

/-- One round of the second loop of `Compile`, up to the test `c.isEOP()`. -/
def dispatch (c : Compiler) : Compiler × Option Fault :=
  match c.next with
  | (c1, .fail e) => (c1, some e)
  | (c1, .ok p) =>
    if p.Token ≠ .TkIdent then (c1, some (.syntaxError (.unexpectedToken p.Token p.Line)))
    else
      match mapGet KEYWORDS (ToUpper p.String) with
      | some fn => compileCommand fn c1
      | none => (c1, some (.syntaxError (.unknownKeyword p.Line)))

/-- The second loop of `Compile`.  `fuel` bounds the number of rounds. -/
def compileLoop : Nat → Compiler → Compiler × Outcome
  | 0, c => (c, .outOfFuel)
  | fuel + 1, c =>
    match c.dispatch with
    | (c1, some e) => (c1, .panicked e)
    | (c1, none) => if c1.isEOP then (c1, .done) else compileLoop fuel c1

/-- The method `Compile`: the compiler after the call and how the call ended.
Every round of the second loop moves the program counter forward, so one
round per step of the program is enough. -/
def Compile (c : Compiler) (program : List Char) : Compiler × Outcome :=
  match compilerBuild program with
  | (prog, .done) => compileLoop (prog.length + 1) { c with Program := prog, PC := 0 }
  | (prog, failed) => ({ c with Program := prog }, failed)

end Compiler

/-! ## Auxiliary definitions for the statements -/

/-- An identifier step as the build pass makes it, with the given text and line. -/
def mkIdent (text : List Char) (line : Nat) : ProgramStep :=
  { Token := .TkIdent, Line := line, String := text, Number := 0, Literal := Char.ofNat 0 }

/-- A number step as the build pass makes it, with the given value and line. -/
def mkNumber (n : Int) (line : Nat) : ProgramStep :=
  { Token := .TkNumber, Line := line, String := [], Number := n, Literal := Char.ofNat 0 }

/-- The commands whose handler starts by fetching a parameter: all but `HOME` and `LOOP`. -/
def Keyword.takesParam : Keyword → Bool
  | .HOME => false
  | .LOOP => false
  | _ => true

/-- A sample instance of the floating-point operations, exact on the
horizontal axis (angle 0, where the cosine is 1 and the sine is 0) for steps
that an `int32` holds. -/
def axisFloatOps : FloatOps :=
  { forwardDx := fun step _ => step, forwardDy := fun _ _ => 0,
    backDx := fun step _ => step, backDy := fun _ _ => 0 }

/-- A sample state: the fresh runtime with the pen down, about to run `forward 10`. -/
def sampleMoveState : Runtime :=
  { NewRuntime with Program := [mkIdent "forward".toList 1, mkNumber 10 1], PenDown := true }

/-- A sample state: the fresh runtime about to run `Pen Down`. -/
def samplePenState : Runtime :=
  { NewRuntime with Program := [mkIdent "Pen".toList 1, mkIdent "Down".toList 1] }

/-! ## The build pass as the specification words it -/

/-- The token stream of a lexer: the tokens that successive calls of
`NextToken` return, each with the lexer as it stands after the call, up to
the end of file or the first error.  `fuel` bounds the number of calls. -/
def tokenStream : Nat → Lexer → List (Token × Lexer)
  | 0, _ => []
  | fuel + 1, l =>
    match l.NextToken with
    | (_, _, some _) => []
    | (l1, token, none) => if token = .TkEOF then [] else (token, l1) :: tokenStream fuel l1

/-- The step kept for an element of the token stream: an identifier or a
number gives a step with the kind, the payload and the line of the lexer at
that token; every other token gives nothing. -/
def keepStep : Token × Lexer → Option ProgramStep
  | (.TkIdent, l) =>
    some { Token := .TkIdent, Line := l.Line, String := l.String, Number := 0, Literal := Char.ofNat 0 }
  | (.TkNumber, l) =>
    some { Token := .TkNumber, Line := l.Line, String := [], Number := l.Number, Literal := Char.ofNat 0 }
  | _ => none

/-- The value of a run of decimal digits read as a decimal numeral, starting
from the value `n` of the digits read before it. -/
def decimalFrom (n : Nat) (digits : List Char) : Nat :=
  digits.foldl (fun v c => v * 10 + (c.toNat - '0'.toNat)) n

/-- The value of a run of decimal digits read as a decimal numeral. -/
def decimalValue (digits : List Char) : Nat := decimalFrom 0 digits

/-- The program that the build pass makes of the text `REPEAT 65536 HOME LOOP`. -/
def sampleRepeatProgram : List ProgramStep :=
  [mkIdent "REPEAT".toList 1, mkNumber 65536 1, mkIdent "HOME".toList 1, mkIdent "LOOP".toList 1]

/-! ## Source positions of program steps -/

/-- The step `s` is a token that starts at index `a` of the source text: an
identifier step has a non-empty text that the source holds from `a` on; a
number step has the wrapped value of a non-empty run of digits that the
source holds from `a` on. -/
def occursAt (src : List Char) (s : ProgramStep) (a : Nat) : Prop :=
  (s.Token = .TkIdent → s.String ≠ [] ∧ s.String <+: src.drop a) ∧
  (s.Token = .TkNumber → ∃ digits, digits ≠ [] ∧ digits <+: src.drop a ∧
    (∀ d ∈ digits, Lexer.numericRune d = true) ∧ s.Number = wrapInt64 (decimalValue digits))

/-- The line of index `a` of a source text, counted from 1: one more than
the number of newline characters before `a`. -/
def lineOf (src : List Char) (a : Nat) : Nat := 1 + (src.take a).count '\n'

/-- The program that the build pass makes of the two-line text `HOME`, `PAPER PURPLE`. -/
def samplePurpleProgram : List ProgramStep :=
  [mkIdent "HOME".toList 1, mkIdent "PAPER".toList 2, mkIdent "PURPLE".toList 2]

/-! ## Loops: what is observed, rounds inside the program, sample programs -/

/-- The turtle state of a runtime together with the log of the calls made on
the drawing stub: everything a run shows besides the program counter and the
stack. -/
structure Observed where
  Head : Position
  Angle : Int
  PenDown : Bool
  Paper : Color
  Ink : Color
  Calls : List StubCall
  deriving DecidableEq, Repr

/-- What a runtime shows. -/
def Runtime.observed (r : Runtime) : Observed :=
  { Head := r.Head, Angle := r.Angle, PenDown := r.PenDown, Paper := r.Paper, Ink := r.Ink,
    Calls := r.Calls }

/-- The runtime after `k` rounds of the dispatch loop of `Run`, none of which
panics and none of which ends the loop (after each the program counter is
short of the end); `none` when a round panics or ends the loop. -/
def Runtime.rounds (M : FloatOps) : Nat → Runtime → Option Runtime
  | 0, r => some r
  | k + 1, r =>
    match r.dispatch M with
    | (r1, none) => if r1.isEOP then none else Runtime.rounds M k r1
    | (_, some _) => none

/-- One command other than `REPEAT` and `LOOP` with a parameter it accepts:
`HOME`; `PAPER` or `INK` and a colour name; `PEN` and `UP` or `DOWN`;
`FORWARD`, `BACK`, `LEFT` or `RIGHT` and a number.  Names are taken in any
letter case. -/
def simpleCommand : List ProgramStep → Bool
  | [p] => decide (p.Token = .TkIdent) && decide (ToUpper p.String = "HOME".toList)
  | [p, q] =>
    decide (p.Token = .TkIdent) &&
      ((decide (ToUpper p.String = "PAPER".toList ∨ ToUpper p.String = "INK".toList) &&
          decide (q.Token = .TkIdent) && (mapGet COLORS (ToUpper q.String)).isSome) ||
        (decide (ToUpper p.String = "PEN".toList) && decide (q.Token = .TkIdent) &&
          decide (ToUpper q.String = "UP".toList ∨ ToUpper q.String = "DOWN".toList)) ||
        (decide (ToUpper p.String = "FORWARD".toList ∨ ToUpper p.String = "BACK".toList ∨
            ToUpper p.String = "LEFT".toList ∨ ToUpper p.String = "RIGHT".toList) &&
          decide (q.Token = .TkNumber)))
  | _ => false

/-- The steps `REPEAT n` for each count `n` of a list, in order. -/
def repeats : List Int → List ProgramStep
  | [] => []
  | n :: ns => mkIdent "REPEAT".toList 1 :: mkNumber n 1 :: repeats ns

/-- The program that opens one `REPEAT` per count of the list, each inside
the one before it, and closes each with its own `LOOP`:
`REPEAT n1 REPEAT n2 ... REPEAT nk LOOP ... LOOP`. -/
def nestProgram (counts : List Int) : List ProgramStep :=
  repeats counts ++ List.replicate counts.length (mkIdent "LOOP".toList 1)

/-- A sample state: the fresh runtime with the pen down, about to run
`REPEAT 3 FORWARD 10 LOOP`. -/
def sampleLoopState : Runtime :=
  { NewRuntime with
    Program := [mkIdent "REPEAT".toList 1, mkNumber 3 1, mkIdent "FORWARD".toList 1,
      mkNumber 10 1, mkIdent "LOOP".toList 1],
    PenDown := true }

/-- A sample state: the fresh runtime about to run `REPEAT 2 REPEAT 3 LOOP LOOP`. -/
def sampleNestState : Runtime := { NewRuntime with Program := nestProgram [2, 3] }

/-- A sample state: the fresh runtime about to run 129 nested loops of one round each. -/
def sampleDeepState : Runtime := { NewRuntime with Program := nestProgram (List.replicate 129 1) }

/-! ## Lexer errors during the build pass, and sample float operations -/

/-- The error the lexer reports to the build pass: the error of the first
failing call among the successive calls of `NextToken` that the build pass
makes; `none` when the end of file, or a string token (on which the build
pass stops with an error of its own), comes first.  `fuel` bounds the number
of calls. -/
def lexerError : Nat → Lexer → Option Fault
  | 0, _ => none
  | fuel + 1, l =>
    match l.NextToken with
    | (_, _, some err) => some err
    | (l1, token, none) =>
      if token = .TkEOF ∨ token = .TkString then none else lexerError fuel l1

/-- Sample float operations with the values that step 1 at angle 45 gives:
the product 1 * cos(45 degrees) = 1 * sin(45 degrees) is about 0.7071, which
`math.Round` takes to 1 (`forwardCmd`) and the conversion to `int32`
truncates to 0 (`backCmd`). -/
def diagonalFloatOps : FloatOps :=
  { forwardDx := fun _ _ => 1, forwardDy := fun _ _ => 1,
    backDx := fun _ _ => 0, backDy := fun _ _ => 0 }

/-! ## Sample states for turns and loop frames -/

/-- A sample state: the fresh runtime at angle 350, about to run `left 20`. -/
def sampleTurnState : Runtime :=
  { NewRuntime with Program := [mkIdent "left".toList 1, mkNumber 20 1], Angle := 350 }

/-- The state that two rounds of the dispatch loop reach from
`sampleLoopState`, the fresh runtime with the pen down about to run
`REPEAT 3 FORWARD 10 LOOP`: one line drawn, the program counter on the
`LOOP`, and one frame on the stack, the saved index 2 beneath the count 3. -/
def sampleAtLoopState : Runtime :=
  { sampleLoopState with
    PC := 4,
    Stack := Function.update (Function.update (fun _ => 0) 0 2) 1 3,
    SP := 2,
    Head := { X := 330, Y := 240 },
    Calls := [.DrawLine 320 240 330 240] }

/-! ## The emitted text as the specification words it -/

/-- A statement of the emitted text. -/
inductive Statement where
  | home
  | forward (n : Int)
  | back (n : Int)
  | left (n : Int)
  | right (n : Int)
  | paper (colour : List Char)
  | ink (colour : List Char)
  | pen (down : Bool)
  | repeatN (n : Int)
  | loop
  deriving DecidableEq, Repr

/-- The lowercase name of a colour. -/
def colourName : Color → List Char
  | .Black => "black".toList
  | .White => "white".toList
  | .Red => "red".toList
  | .Green => "green".toList
  | .Blue => "blue".toList
  | .Yellow => "yellow".toList
  | .Gray => "gray".toList
  | .Magenta => "magenta".toList

/-- The statement of a command without parameter: `HOME` or `LOOP`. -/
def plainStatement : Keyword → Option Statement
  | .HOME => some .home
  | .LOOP => some .loop
  | _ => none

/-- The statement of a command with its parameter step `q`: a number for the
moves, the turns and `REPEAT` (from 1 to 65535), a colour name for `PAPER`
and `INK`, `UP` or `DOWN` for `PEN`, names in any letter case. -/
def paramStatement (kw : Keyword) (q : ProgramStep) : Option Statement :=
  match kw with
  | .FORWARD => if q.Token = .TkNumber then some (.forward q.Number) else none
  | .BACK => if q.Token = .TkNumber then some (.back q.Number) else none
  | .LEFT => if q.Token = .TkNumber then some (.left q.Number) else none
  | .RIGHT => if q.Token = .TkNumber then some (.right q.Number) else none
  | .PAPER =>
    if q.Token = .TkIdent then
      (mapGet COLORS (ToUpper q.String)).map (fun col => .paper (colourName col))
    else none
  | .INK =>
    if q.Token = .TkIdent then
      (mapGet COLORS (ToUpper q.String)).map (fun col => .ink (colourName col))
    else none
  | .PEN =>
    if q.Token = .TkIdent then
      if ToUpper q.String = "UP".toList then some (.pen false)
      else if ToUpper q.String = "DOWN".toList then some (.pen true)
      else none
    else none
  | .REPEAT =>
    if q.Token = .TkNumber ∧ 1 ≤ q.Number ∧ q.Number ≤ 65535 then some (.repeatN q.Number)
    else none
  | .HOME => none
  | .LOOP => none

/-- The commands of an instruction sequence read from left to right, one
statement per command; `none` when a step that should be a command name is
not one, or a parameter is missing or not acceptable. -/
def commandsOf : List ProgramStep → Option (List Statement)
  | [] => some []
  | p :: rest =>
    if p.Token ≠ .TkIdent then none
    else
      match mapGet KEYWORDS (ToUpper p.String) with
      | none => none
      | some kw =>
        if kw.takesParam then
          match rest with
          | [] => none
          | q :: rest1 =>
            match paramStatement kw q with
            | none => none
            | some s => (commandsOf rest1).map (fun stmts => s :: stmts)
        else
          match plainStatement kw with
          | none => none
          | some s => (commandsOf rest).map (fun stmts => s :: stmts)

/-- The number of `REPEAT`s up to and including the statement, `k` being the
number before it. -/
def Statement.bump : Statement → Nat → Nat
  | .repeatN _, k => k + 1
  | _, k => k

/-- The text of a statement; `k` is the index of the loop variable when the
statement is a `REPEAT`. -/
def statementText (k : Nat) : Statement → List Char
  | .home => "home();".toList
  | .forward n => "forward(".toList ++ fmtInt n ++ ");".toList
  | .back n => "back(".toList ++ fmtInt n ++ ");".toList
  | .left n => "left(".toList ++ fmtInt n ++ ");".toList
  | .right n => "right(".toList ++ fmtInt n ++ ");".toList
  | .paper c => "paper = ".toList ++ [Char.ofNat 39] ++ c ++ [Char.ofNat 39, ';']
  | .ink c => "ink = ".toList ++ [Char.ofNat 39] ++ c ++ [Char.ofNat 39, ';']
  | .pen down => "pendown = ".toList ++ (if down then "true".toList else "false".toList) ++
      ";".toList
  | .repeatN n => "for(let v".toList ++ Nat.toDigits 10 k ++ "=0;v".toList ++
      Nat.toDigits 10 k ++ "<".toList ++ fmtInt n ++ ";++v".toList ++ Nat.toDigits 10 k ++
      ")\x7b".toList
  | .loop => "\x7d".toList

/-- The text of a list of statements, `k` being the number of `REPEAT`s
before the list: the texts of the statements one after the other, the k-th
`REPEAT` of the whole text with the loop variable `vk`. -/
def programText : Nat → List Statement → List Char
  | _, [] => []
  | k, s :: rest => statementText (s.bump k) s ++ programText (s.bump k) rest

/-! ## Halting of the dispatch loop -/

/-- The dispatch loop of `Run` started in the state `r` ends, by reaching
the end of the program or by a panic, within some number of rounds. -/
def Halts (M : FloatOps) (r : Runtime) : Prop :=
  ∃ fuel, (r.runLoop M fuel).2 ≠ .outOfFuel

/-- A bound on the number of jumps that `LOOP` can still make for a frame
whose count is `c`: `c` itself for a count from 1 on; for any other count,
which the decrement of `loopCmd` may wrap to a positive value, one more than
that value. -/
def jumpsLeft (c : Int) : Nat :=
  if 1 ≤ c ∧ c ≤ 9223372036854775807 then c.toNat else (wrapInt64 (c - 1)).toNat + 1

/-- The stack holds well-formed frames: the depth is even and at most 256;
the slots pair up from the bottom as a saved index (even slot) under a count
(odd slot); every count is from 1 to 65535; every saved index is at least 0,
not past the program counter and not past the end of the program; and the
saved indices do not decrease from the bottom to the top. -/
def FramesOk (r : Runtime) : Prop :=
  0 ≤ r.SP ∧ r.SP ≤ 256 ∧ r.SP % 2 = 0 ∧
  (∀ j : Int, 0 ≤ j → 2 * j + 1 < r.SP →
    1 ≤ r.Stack (2 * j + 1) ∧ r.Stack (2 * j + 1) ≤ 65535 ∧
    0 ≤ r.Stack (2 * j) ∧ r.Stack (2 * j) ≤ r.PC ∧
    r.Stack (2 * j) ≤ (r.Program.length : Int)) ∧
  (∀ j k : Int, 0 ≤ j → j ≤ k → 2 * k + 1 < r.SP → r.Stack (2 * j) ≤ r.Stack (2 * k))

/-! ## The static reading of an instruction sequence -/

/-- The command that starts at index `pc` of an instruction sequence, with
the index of the step after it: an identifier step that names a command,
followed, for the commands that take a parameter, by a step this command
accepts as its parameter (`paramStatement`).  `none` when there is no such
command at `pc`. -/
def headCommand (prog : List ProgramStep) (pc : Int) : Option (Keyword × Int) :=
  match fetch prog pc with
  | none => none
  | some p =>
    if p.Token ≠ .TkIdent then none
    else
      match mapGet KEYWORDS (ToUpper p.String) with
      | none => none
      | some kw =>
        if kw.takesParam then
          match fetch prog (pc + 1) with
          | none => none
          | some q => if (paramStatement kw q).isSome then some (kw, pc + 2) else none
        else some (kw, pc + 1)

/-- Index `b` is where the command that starts at index `a` ends. -/
def nextCommand (prog : List ProgramStep) (a b : Int) : Prop :=
  ∃ kw, headCommand prog a = some (kw, b)

/-- The change a step makes to the number of open `REPEAT`s: one more for
the identifier `REPEAT`, one less for the identifier `LOOP` (in any letter
case), none for any other step. -/
def stepDelta (p : ProgramStep) : Int :=
  if p.Token = .TkIdent ∧ ToUpper p.String = "REPEAT".toList then 1
  else if p.Token = .TkIdent ∧ ToUpper p.String = "LOOP".toList then -1
  else 0

/-- The number of `REPEAT`s open before index `n`: the `REPEAT`s less the
`LOOP`s among the first `n` steps. -/
def openAt (prog : List ProgramStep) (n : Nat) : Int := ((prog.take n).map stepDelta).sum

/-- Every `LOOP` closes an open `REPEAT` and at most 128 `REPEAT`s are open
at once: before each `LOOP` at least one `REPEAT` is open, and before each
`REPEAT` fewer than 128 are. -/
def nestingOk (prog : List ProgramStep) : Bool :=
  (List.range prog.length).all fun n =>
    match prog[n]? with
    | none => true
    | some p =>
      decide ((stepDelta p = 1 → openAt prog n < 128) ∧ (stepDelta p = -1 → 1 ≤ openAt prog n))

/-- Index `b` is reached from index `a` by reading zero or more commands of
the static reading one after the other. -/
def StaticPath (prog : List ProgramStep) (a b : Int) : Prop :=
  Relation.ReflTransGen (nextCommand prog) a b

/-- The interpreter has so far run commands of the static reading only: its
frames are well formed, and the program counter and every saved index are
reached from index 0 by reading commands one after the other. -/
def ReadSoFar (prog : List ProgramStep) (r : Runtime) : Prop :=
  FramesOk r ∧ r.Program = prog ∧ StaticPath prog 0 r.PC ∧
  ∀ j : Int, 0 ≤ j → 2 * j + 1 < r.SP → StaticPath prog 0 (r.Stack (2 * j))

/-- The interpreter is on track to complete a program that reads as commands
to its end: the program counter and every saved index start a reading of
commands up to the end of the program, the depth of the stack is twice the
number of `REPEAT`s open before the program counter, and the saved index of
the frame number `j` (from 0) has `j + 1` `REPEAT`s open before it. -/
def OnTrack (prog : List ProgramStep) (r : Runtime) : Prop :=
  r.Program = prog ∧ 0 ≤ r.SP ∧ r.SP ≤ 256 ∧ 0 ≤ r.PC ∧
  StaticPath prog r.PC (prog.length : Int) ∧ r.SP = 2 * openAt prog r.PC.toNat ∧
  ∀ j : Int, 0 ≤ j → 2 * j + 1 < r.SP →
    0 ≤ r.Stack (2 * j) ∧ StaticPath prog (r.Stack (2 * j)) (prog.length : Int) ∧
    openAt prog (r.Stack (2 * j)).toNat = j + 1

/-! ## Theorems -/

set_option maxRecDepth 8000

open Lexer Runtime Compiler

theorem fetch_some_range {prog : List ProgramStep} {pc : Int} {p : ProgramStep}
    (h : fetch prog pc = some p) : 0 ≤ pc ∧ pc < prog.length := by
  unfold fetch at h
  split at h
  · rename_i h0
    have := (List.getElem?_eq_some_iff.mp h).1
    omega
  · cases h

theorem Runtime.next_of_fetch {r : Runtime} {p : ProgramStep}
    (h : fetch r.Program r.PC = some p) : r.next = ({ r with PC := r.PC + 1 }, .ok p) := by
  have hr := fetch_some_range h
  have hne : r.PC ≠ (r.Program.length : Int) := by omega
  simp [Runtime.next, Runtime.isEOP, hne, h]

theorem Compiler.compile_next_of_fetch {c : Compiler} {p : ProgramStep}
    (h : fetch c.Program c.PC = some p) : c.next = ({ c with PC := c.PC + 1 }, .ok p) := by
  have hr := fetch_some_range h
  have hne : c.PC ≠ (c.Program.length : Int) := by omega
  simp [Compiler.next, Compiler.isEOP, hne, h]

theorem getParam_cases_aux (r : Runtime) (c : Compiler) (expected : Token) :
    (r.PC = (r.Program.length : Int) →
      r.getParam expected = (r, .fail .unexpectedEndOfProgram)) ∧
    (c.PC = (c.Program.length : Int) →
      c.getParam expected = (c, .fail .unexpectedEndOfProgram)) ∧
    (∀ step, r.PC ≠ (r.Program.length : Int) → fetch r.Program r.PC = some step →
      step.Token ≠ expected →
      (r.getParam expected).2 =
        .fail (.syntaxError (.invalidParameterType expected step.Token step.Line))) ∧
    (∀ step, c.PC ≠ (c.Program.length : Int) → fetch c.Program c.PC = some step →
      step.Token ≠ expected →
      (c.getParam expected).2 =
        .fail (.syntaxError (.invalidParameterType expected step.Token step.Line))) ∧
    (∀ step, r.PC ≠ (r.Program.length : Int) → fetch r.Program r.PC = some step →
      step.Token = expected →
      r.getParam expected = ({ r with PC := r.PC + 1 }, .ok step)) ∧
    (∀ step, c.PC ≠ (c.Program.length : Int) → fetch c.Program c.PC = some step →
      step.Token = expected →
      c.getParam expected = ({ c with PC := c.PC + 1 }, .ok step)) := by
  refine ⟨?_, ?_, ?_, ?_, ?_, ?_⟩
  · intro h; simp [Runtime.getParam, Runtime.next, Runtime.isEOP, h]
  · intro h; simp [Compiler.getParam, Compiler.next, Compiler.isEOP, h]
  · intro step _ hf ht; simp [Runtime.getParam, Runtime.next_of_fetch hf, ht]
  · intro step _ hf ht; simp [Compiler.getParam, Compiler.compile_next_of_fetch hf, ht]
  · intro step _ hf ht; simp [Runtime.getParam, Runtime.next_of_fetch hf, ht]
  · intro step _ hf ht; simp [Compiler.getParam, Compiler.compile_next_of_fetch hf, ht]

theorem Runtime.dispatch_command (M : FloatOps) {r : Runtime} {p : ProgramStep} {kw : Keyword}
    (hf : fetch r.Program r.PC = some p) (ht : p.Token = .TkIdent)
    (hk : mapGet KEYWORDS (ToUpper p.String) = some kw) :
    r.dispatch M = command M kw { r with PC := r.PC + 1 } := by
  simp [Runtime.dispatch, Runtime.next_of_fetch hf, ht, hk]

theorem Compiler.compile_dispatch_command {c : Compiler} {p : ProgramStep} {kw : Keyword}
    (hf : fetch c.Program c.PC = some p) (ht : p.Token = .TkIdent)
    (hk : mapGet KEYWORDS (ToUpper p.String) = some kw) :
    c.dispatch = compileCommand kw { c with PC := c.PC + 1 } := by
  simp [Compiler.dispatch, Compiler.compile_next_of_fetch hf, ht, hk]

theorem Runtime.getParam_at_end {r : Runtime} (h : r.PC = (r.Program.length : Int))
    (expected : Token) : r.getParam expected = (r, .fail .unexpectedEndOfProgram) := by
  simp [Runtime.getParam, Runtime.next, Runtime.isEOP, h]

theorem Compiler.compile_getParam_at_end {c : Compiler} (h : c.PC = (c.Program.length : Int))
    (expected : Token) : c.getParam expected = (c, .fail .unexpectedEndOfProgram) := by
  simp [Compiler.getParam, Compiler.next, Compiler.isEOP, h]

theorem Runtime.command_at_end (M : FloatOps) {r : Runtime} {kw : Keyword}
    (h : r.PC = (r.Program.length : Int)) (hk : kw.takesParam = true) :
    command M kw r = (r, some .unexpectedEndOfProgram) := by
  cases kw <;> simp [Keyword.takesParam] at hk <;>
    simp [command, paperCmd, inkCmd, penCmd, repeatCmd, forwardCmd, backCmd, leftCmd, rightCmd,
      Runtime.getColor, Runtime.getParam_at_end h]

theorem Compiler.compile_command_at_end {c : Compiler} {kw : Keyword}
    (h : c.PC = (c.Program.length : Int)) (hk : kw.takesParam = true) :
    compileCommand kw c = (c, some .unexpectedEndOfProgram) := by
  cases kw <;> simp [Keyword.takesParam] at hk <;>
    simp [compileCommand, compilePaperCmd, compileInkCmd, compilePenCmd, compileRepeatCmd,
      compileForwardCmd, compileBackCmd, compileLeftCmd, compileRightCmd, compileCall,
      Compiler.getColor, Compiler.compile_getParam_at_end h]

/-- C8. Parameter fetch in both backends.  With the program counter at the
length of the program, `getParam` fails with "unexpected end of program";
otherwise, with a step at the program counter whose kind is not the expected
one, it fails with the syntax error that names the expected kind, the actual
kind and the line of the step; otherwise it returns that step and the program
counter is one more than before, nothing else having changed.  Hence the
dispatch of a command that takes a parameter and is the last step of the
program fails with "unexpected end of program". -/
theorem getParam_contract (M : FloatOps) (r : Runtime) (c : Compiler) (expected : Token) :
    (r.PC = (r.Program.length : Int) →
      r.getParam expected = (r, .fail .unexpectedEndOfProgram)) ∧
    (c.PC = (c.Program.length : Int) →
      c.getParam expected = (c, .fail .unexpectedEndOfProgram)) ∧
    (∀ step, r.PC ≠ (r.Program.length : Int) → fetch r.Program r.PC = some step →
      step.Token ≠ expected →
      (r.getParam expected).2 =
        .fail (.syntaxError (.invalidParameterType expected step.Token step.Line))) ∧
    (∀ step, c.PC ≠ (c.Program.length : Int) → fetch c.Program c.PC = some step →
      step.Token ≠ expected →
      (c.getParam expected).2 =
        .fail (.syntaxError (.invalidParameterType expected step.Token step.Line))) ∧
    (∀ step, r.PC ≠ (r.Program.length : Int) → fetch r.Program r.PC = some step →
      step.Token = expected →
      r.getParam expected = ({ r with PC := r.PC + 1 }, .ok step)) ∧
    (∀ step, c.PC ≠ (c.Program.length : Int) → fetch c.Program c.PC = some step →
      step.Token = expected →
      c.getParam expected = ({ c with PC := c.PC + 1 }, .ok step)) ∧
    (∀ p kw, fetch r.Program r.PC = some p → p.Token = .TkIdent →
      mapGet KEYWORDS (ToUpper p.String) = some kw → kw.takesParam = true →
      r.PC + 1 = (r.Program.length : Int) →
      (r.dispatch M).2 = some .unexpectedEndOfProgram) ∧
    (∀ p kw, fetch c.Program c.PC = some p → p.Token = .TkIdent →
      mapGet KEYWORDS (ToUpper p.String) = some kw → kw.takesParam = true →
      c.PC + 1 = (c.Program.length : Int) →
      c.dispatch.2 = some .unexpectedEndOfProgram) := by
  obtain ⟨h1, h2, h3, h4, h5, h6⟩ := getParam_cases_aux r c expected
  refine ⟨h1, h2, h3, h4, h5, h6, ?_, ?_⟩
  · intro p kw hf ht hk hp hend
    rw [Runtime.dispatch_command M hf ht hk, Runtime.command_at_end M (by simpa using hend) hp]
  · intro p kw hf ht hk hp hend
    rw [Compiler.compile_dispatch_command hf ht hk, Compiler.compile_command_at_end (by simpa using hend) hp]

/-- Instance of `getParam_contract`: on the program `FORWARD 50` the fetch of
a number at index 1 returns the step `50`, the fetch of a number at index 0
fails on the kind, the fetch at index 2 fails at the end of the program; and
the one-step program `forward` fails at dispatch, in both backends. -/
theorem getParam_contract_witness :
    ({ NewRuntime with Program := [mkIdent "FORWARD".toList 1, mkNumber 50 1], PC := 2 }.getParam
        .TkNumber).2 = .fail .unexpectedEndOfProgram ∧
    ({ NewRuntime with Program := [mkIdent "FORWARD".toList 1, mkNumber 50 1], PC := 0 }.getParam
        .TkNumber).2 = .fail (.syntaxError (.invalidParameterType .TkNumber .TkIdent 1)) ∧
    ({ NewCompiler [] with Program := [mkIdent "FORWARD".toList 1, mkNumber 50 1], PC := 1 }.getParam
        .TkNumber).2 = .ok (mkNumber 50 1) ∧
    ({ NewRuntime with Program := [mkIdent "forward".toList 7] }.dispatch axisFloatOps).2 =
      some .unexpectedEndOfProgram ∧
    ({ NewCompiler [] with Program := [mkIdent "forward".toList 7] }.dispatch).2 =
      some .unexpectedEndOfProgram := by
  refine ⟨?_, ?_, ?_, ?_, ?_⟩
  · have h := (getParam_contract axisFloatOps
      { NewRuntime with Program := [mkIdent "FORWARD".toList 1, mkNumber 50 1], PC := 2 }
      (NewCompiler []) .TkNumber).1 (by decide)
    rw [h]
  · exact (getParam_contract axisFloatOps
      { NewRuntime with Program := [mkIdent "FORWARD".toList 1, mkNumber 50 1], PC := 0 }
      (NewCompiler []) .TkNumber).2.2.1 (mkIdent "FORWARD".toList 1) (by decide) (by decide)
      (by decide)
  · have h := (getParam_contract axisFloatOps NewRuntime
      { NewCompiler [] with Program := [mkIdent "FORWARD".toList 1, mkNumber 50 1], PC := 1 }
      .TkNumber).2.2.2.2.2.1 (mkNumber 50 1) (by decide) (by decide) (by decide)
    rw [h]
  · exact (getParam_contract axisFloatOps { NewRuntime with Program := [mkIdent "forward".toList 7] }
      (NewCompiler []) .TkNumber).2.2.2.2.2.2.1 (mkIdent "forward".toList 7) .FORWARD
      (by decide) (by decide) (by decide) (by decide) (by decide)
  · exact (getParam_contract axisFloatOps NewRuntime
      { NewCompiler [] with Program := [mkIdent "forward".toList 7] } .TkNumber).2.2.2.2.2.2.2
      (mkIdent "forward".toList 7) .FORWARD (by decide) (by decide) (by decide) (by decide)
      (by decide)

theorem Runtime.getParam_of_fetch {r : Runtime} {q : ProgramStep} {expected : Token}
    (hf : fetch r.Program r.PC = some q) (ht : q.Token = expected) :
    r.getParam expected = ({ r with PC := r.PC + 1 }, .ok q) := by
  simp [Runtime.getParam, Runtime.next_of_fetch hf, ht]

theorem Compiler.compile_getParam_of_fetch {c : Compiler} {q : ProgramStep} {expected : Token}
    (hf : fetch c.Program c.PC = some q) (ht : q.Token = expected) :
    c.getParam expected = ({ c with PC := c.PC + 1 }, .ok q) := by
  simp [Compiler.getParam, Compiler.compile_next_of_fetch hf, ht]

/-- C5. Dispatch of a move or of `PEN` in the interpreter, the command being
the identifier step `p` at the program counter and `q` the step after it.
`FORWARD` and `BACK` (in any letter case) with a number parameter succeed;
with the pen up the log of stub calls is unchanged, with the pen down it
grows by exactly one `DrawLine`, from the head position before the move to
the head position after it.  `PEN` with the parameter `UP` (in any letter
case) sets the pen flag to false, with `DOWN` to true, and apart from the
program counter no other field changes. -/
theorem move_and_pen (M : FloatOps) (r : Runtime) (p q : ProgramStep)
    (hp : fetch r.Program r.PC = some p) (hpt : p.Token = .TkIdent)
    (hq : fetch r.Program (r.PC + 1) = some q) :
    ((ToUpper p.String = "FORWARD".toList ∨ ToUpper p.String = "BACK".toList) →
      q.Token = .TkNumber →
      (r.dispatch M).2 = none ∧
      (r.PenDown = false → (r.dispatch M).1.Calls = r.Calls) ∧
      (r.PenDown = true → (r.dispatch M).1.Calls = r.Calls ++
        [.DrawLine r.Head.X r.Head.Y (r.dispatch M).1.Head.X (r.dispatch M).1.Head.Y])) ∧
    (ToUpper p.String = "PEN".toList → q.Token = .TkIdent →
      (ToUpper q.String = "UP".toList →
        r.dispatch M = ({ r with PC := r.PC + 1 + 1, PenDown := false }, none)) ∧
      (ToUpper q.String = "DOWN".toList →
        r.dispatch M = ({ r with PC := r.PC + 1 + 1, PenDown := true }, none))) := by
  have hq1 : fetch ({ r with PC := r.PC + 1 } : Runtime).Program
      ({ r with PC := r.PC + 1 } : Runtime).PC = some q := hq
  refine ⟨?_, ?_⟩
  · intro hcmd hqt
    rcases hcmd with hcmd | hcmd
    · have hk : mapGet KEYWORDS (ToUpper p.String) = some .FORWARD := by rw [hcmd]; decide
      rw [Runtime.dispatch_command M hp hpt hk]
      simp only [command, forwardCmd, Runtime.getParam_of_fetch hq1 hqt]
      refine ⟨trivial, ?_, ?_⟩
      · intro hpen; simp [hpen]
      · intro hpen; simp [hpen]
    · have hk : mapGet KEYWORDS (ToUpper p.String) = some .BACK := by rw [hcmd]; decide
      rw [Runtime.dispatch_command M hp hpt hk]
      simp only [command, backCmd, Runtime.getParam_of_fetch hq1 hqt]
      refine ⟨trivial, ?_, ?_⟩
      · intro hpen; simp [hpen]
      · intro hpen; simp [hpen]
  · intro hcmd hqt
    have hk : mapGet KEYWORDS (ToUpper p.String) = some .PEN := by rw [hcmd]; decide
    rw [Runtime.dispatch_command M hp hpt hk]
    simp only [command, penCmd, Runtime.getParam_of_fetch hq1 hqt]
    refine ⟨?_, ?_⟩
    · intro hv; rw [hv]; simp
    · intro hv; rw [hv]; simp

/-- Instance of `move_and_pen`: with the pen down at (320, 240) and angle 0,
`forward 10` logs the one line from (320, 240) to (330, 240); `Pen Down`
sets the pen flag. -/
theorem move_and_pen_witness :
    (sampleMoveState.dispatch axisFloatOps).1.Calls = [.DrawLine 320 240 330 240] ∧
    (samplePenState.dispatch axisFloatOps).1.PenDown = true := by
  have h1 := (move_and_pen axisFloatOps sampleMoveState (mkIdent "forward".toList 1)
    (mkNumber 10 1) (by decide) (by decide) (by decide)).1 (Or.inl (by decide)) (by decide)
  have h2 := ((move_and_pen axisFloatOps samplePenState (mkIdent "Pen".toList 1)
    (mkIdent "Down".toList 1) (by decide) (by decide) (by decide)).2 (by decide) (by decide)).2
    (by decide)
  refine ⟨?_, ?_⟩
  · rw [h1.2.2 (by decide)]; decide
  · rw [h2]

/-- C3. The empty text, and the text of one space and a newline: the build
pass of both backends makes the empty program from the empty text, and then
`Run` and `Compile` panic with "unexpected end of program"; on a space
followed by a newline both return the lexical error for the character 0x0a
in line 1. -/
theorem blank_source_fails (M : FloatOps) (fuel : Nat) (r : Runtime) (c : Compiler) :
    runtimeBuild [] = ([], .done) ∧ compilerBuild [] = ([], .done) ∧
    (Run M (fuel + 1) r []).2 = .panicked .unexpectedEndOfProgram ∧
    (Compile c []).2 = .panicked .unexpectedEndOfProgram ∧
    (Run M fuel r " \n".toList).2 = .returned (.unknownCharacter '\n' 1) ∧
    (Compile c " \n".toList).2 = .returned (.unknownCharacter '\n' 1) := by
  refine ⟨by decide, by decide, ?_, ?_, ?_, ?_⟩ <;> rfl

/-- C4. The handler of `HOME` in the interpreter succeeds, puts the head at
(320, 240) and logs one `Clear`; it leaves the angle and the pen flag as they
were, as it does ink and paper.  So from a fresh runtime the program
`PEN DOWN RIGHT 90 HOME` ends with the angle -90 and the pen down. -/
theorem home_keeps_angle_and_pen (M : FloatOps) (r : Runtime) :
    (homeCmd r).2 = none ∧ (homeCmd r).1.Head = ⟨320, 240⟩ ∧
    (homeCmd r).1.Calls = r.Calls ++ [.Clear] ∧
    (homeCmd r).1.Ink = r.Ink ∧ (homeCmd r).1.Paper = r.Paper ∧
    (homeCmd r).1.Angle = r.Angle ∧ (homeCmd r).1.PenDown = r.PenDown ∧
    (Run M 3 NewRuntime "PEN DOWN RIGHT 90 HOME".toList).2 = .done ∧
    (Run M 3 NewRuntime "PEN DOWN RIGHT 90 HOME".toList).1.Angle = -90 ∧
    (Run M 3 NewRuntime "PEN DOWN RIGHT 90 HOME".toList).1.PenDown = true := by
  refine ⟨rfl, rfl, rfl, rfl, rfl, rfl, rfl, ?_, ?_, ?_⟩ <;> rfl

/-- C10. A lexer whose remaining input is one space and a newline: `NextToken`
skips the space and then fails on the newline with the error for an unknown
character 0x0a, the line counter unchanged and the position on the newline.
With the newline first, it returns the end-of-line token. -/
theorem space_before_newline_fails :
    (NextToken (NewLexer " \n".toList)).2 = (.TkEOF, some (.unknownCharacter '\n' 1)) ∧
    (NextToken (NewLexer " \n".toList)).1.Position = 1 ∧
    (NextToken (NewLexer " \n".toList)).1.Line = 1 ∧
    (NextToken (NewLexer "\n".toList)).2 = (.TkEOL, none) ∧
    (NextToken (NewLexer "\n".toList)).1.Position = 1 ∧
    (NextToken (NewLexer "\n".toList)).1.Line = 2 := by
  decide

theorem drop_length_takeWhile (p : Char → Bool) (xs : List Char) :
    xs.drop (xs.takeWhile p).length = xs.dropWhile p := by
  induction xs with
  | nil => rfl
  | cons x xs ih =>
    by_cases hx : p x = true
    · simp [List.takeWhile_cons, List.dropWhile_cons, hx, ih]
    · simp [List.takeWhile_cons, List.dropWhile_cons, hx]

theorem Lexer.rest_advance (l : Lexer) (n : Nat) : (l.advance n).rest = l.rest.drop n := by
  simp [Lexer.rest, Lexer.advance, List.drop_drop, Nat.add_comm]

theorem drop_pos_add (E : List Char) (P n : Nat) : E.drop (P + n) = (E.drop P).drop n := by
  rw [List.drop_drop, Nat.add_comm]

theorem Lexer.rest_length (l : Lexer) : l.rest.length = l.Expr.length - l.Position := by
  simp [Lexer.rest]

theorem head_dropWhile_not (p : Char → Bool) (xs : List Char) (c : Char)
    (h : (xs.dropWhile p).head? = some c) : p c = false := by
  induction xs with
  | nil => simp at h
  | cons x xs ih =>
    by_cases hx : p x = true
    · simp [List.dropWhile_cons, hx] at h; exact ih h
    · simp [List.dropWhile_cons, hx] at h; subst h; simpa using hx

/-- What a successful call of `NextToken` that returns neither a string nor
the end of file has done: it has skipped a run `ws` of spaces and tabs and
consumed the text `text` of the token. -/
theorem Lexer.NextToken_ok {l l1 : Lexer} {tok : Token}
    (h : l.NextToken = (l1, tok, none)) (hs : tok ≠ .TkString) (he : tok ≠ .TkEOF) :
    l1.Expr = l.Expr ∧ l1.CommentSymbol = l.CommentSymbol ∧
    ∃ ws text, l.rest = ws ++ text ++ l1.rest ∧
      l1.Position = l.Position + ws.length + text.length ∧
      l.Position < l1.Position ∧
      (∀ c ∈ ws, whiteSpaceRune c = true) ∧
      (tok = .TkEOL → ws = [] ∧ text = ['\n'] ∧ l1.Line = wrapUint32 (l.Line + 1)) ∧
      (tok ≠ .TkEOL → (∀ c ∈ text, c ≠ '\n') ∧ l1.Line = l.Line) ∧
      (tok = .TkIdent → l1.String = text ∧ text ≠ []) ∧
      (tok = .TkNumber → l1.Number = accumulate 0 text ∧ text ≠ [] ∧
        (∀ c ∈ text, numericRune c = true) ∧ l1.String = []) := by
  simp only [Lexer.NextToken, Lexer.isEol, Lexer.isLiteral, Lexer.isQuote, Lexer.isNumeric,
    Lexer.isAlpha, Lexer.isWhiteSpace, Lexer.isEof, Lexer.test, Lexer.cur, Lexer.rest,
    Lexer.advance, Lexer.run, drop_pos_add, drop_length_takeWhile] at h ⊢
  generalize hR : List.drop l.Position l.Expr = R at h ⊢
  have hws : ∀ c ∈ List.takeWhile whiteSpaceRune R, whiteSpaceRune c = true :=
    fun c hc => List.mem_takeWhile_imp hc
  have hsplit : ∀ p : Char → Bool, R = List.takeWhile whiteSpaceRune R ++
      List.takeWhile p (List.dropWhile whiteSpaceRune R) ++
      List.dropWhile p (List.dropWhile whiteSpaceRune R) := by
    intro p
    rw [List.append_assoc, List.takeWhile_append_dropWhile, List.takeWhile_append_dropWhile]
  split at h
  · -- end of line
    rename_i heol
    simp only [Prod.mk.injEq, and_true] at h
    obtain ⟨rfl, rfl⟩ := h
    refine ⟨rfl, rfl, [], ['\n'], ?_, rfl, by simp, by simp, fun _ => ⟨rfl, rfl, rfl⟩,
      fun hne => absurd rfl hne, by simp, by simp⟩
    simp only [drop_pos_add, hR]
    cases R with
    | nil => simp at heol
    | cons x xs => simp [eolRune] at heol; subst heol; simp
  · rename_i heol
    split at h
    · -- end of file
      simp only [Prod.mk.injEq, and_true] at h
      exact absurd h.2.symm he
    · rename_i c hc
      have hR1 : ∃ tl, List.dropWhile whiteSpaceRune R = c :: tl := by
        cases hd : List.dropWhile whiteSpaceRune R with
        | nil => rw [hd] at hc; simp at hc
        | cons y ys => rw [hd] at hc; simp at hc; subst hc; exact ⟨ys, rfl⟩
      obtain ⟨tl, htl⟩ := hR1
      split at h
      · -- comment
        simp only [Prod.mk.injEq, and_true] at h
        obtain ⟨rfl, rfl⟩ := h
        refine ⟨rfl, rfl, List.takeWhile whiteSpaceRune R,
          List.takeWhile commentRune (List.dropWhile whiteSpaceRune R), ?_, rfl, ?_, hws,
          by simp, fun _ => ⟨?_, rfl⟩, by simp, by simp⟩
        · simp only [drop_pos_add, hR, drop_length_takeWhile]
          exact hsplit commentRune
        · show l.Position < l.Position + _ + _
          cases R with
          | nil => simp at htl
          | cons x xs =>
            by_cases hx : whiteSpaceRune x = true
            · simp [List.takeWhile_cons, hx]; omega
            · simp only [List.dropWhile_cons, hx] at htl
              simp only [List.head?_cons] at heol
              have hxc : x = c := by simpa using (List.cons.inj htl).1
              subst hxc
              have hcr : commentRune x = true := by simpa [commentRune] using heol
              simp [List.takeWhile_cons, List.dropWhile_cons, hx, hcr]
        · intro d hd
          have := List.mem_takeWhile_imp hd
          intro hdn; subst hdn; simp [commentRune, eolRune] at this
      · rename_i hcs
        split at h
        · -- literal
          rename_i hlit
          simp only [Prod.mk.injEq, and_true] at h
          obtain ⟨rfl, rfl⟩ := h
          rw [htl] at hlit
          simp only [List.head?_cons] at hlit
          refine ⟨rfl, rfl, List.takeWhile whiteSpaceRune R, [c], ?_, rfl, ?_, hws,
            by simp, fun _ => ⟨?_, rfl⟩, by simp, by simp⟩
          · simp only [drop_pos_add, hR, drop_length_takeWhile, htl]
            have := List.takeWhile_append_dropWhile whiteSpaceRune R
            rw [htl] at this
            simp [this]
          · show l.Position < l.Position + _ + 1
            omega
          · intro d hd
            simp only [List.mem_singleton] at hd
            subst hd
            intro hdn; subst hdn; revert hlit; decide
        · split at h
          · -- string
            simp only [Prod.mk.injEq, and_true] at h
            exact absurd h.2.symm hs
          · split at h
            · -- number
              rename_i hnum
              rw [htl] at hnum
              simp only [List.head?_cons] at hnum
              split at h
              · simp at h
              · simp only [Prod.mk.injEq, and_true] at h
                obtain ⟨rfl, rfl⟩ := h
                have hne : List.takeWhile numericRune (List.dropWhile whiteSpaceRune R) ≠ [] := by
                  rw [htl]; simp [List.takeWhile_cons, hnum]
                refine ⟨rfl, rfl, List.takeWhile whiteSpaceRune R,
                  List.takeWhile numericRune (List.dropWhile whiteSpaceRune R), ?_, rfl, ?_, hws,
                  by simp, fun _ => ⟨?_, rfl⟩, by simp,
                  fun _ => ⟨rfl, hne, fun d hd => List.mem_takeWhile_imp hd, rfl⟩⟩
                · simp only [drop_pos_add, hR, drop_length_takeWhile]
                  exact hsplit numericRune
                · show l.Position < l.Position + _ + _
                  have := List.length_pos.mpr hne
                  omega
                · intro d hd
                  have := List.mem_takeWhile_imp hd
                  intro hdn; subst hdn; revert this; decide
            · -- identifier
              split at h
              · split at h
                · rename_i hlen
                  simp only [Prod.mk.injEq, and_true] at h
                  obtain ⟨rfl, rfl⟩ := h
                  have hne : List.takeWhile identRune (List.dropWhile whiteSpaceRune R) ≠ [] := by
                    intro h0; rw [h0] at hlen; simp at hlen
                  refine ⟨rfl, rfl, List.takeWhile whiteSpaceRune R,
                    List.takeWhile identRune (List.dropWhile whiteSpaceRune R), ?_, rfl, ?_, hws,
                    by simp, fun _ => ⟨?_, rfl⟩, fun _ => ⟨rfl, hne⟩, by simp⟩
                  · simp only [drop_pos_add, hR, drop_length_takeWhile]
                    exact hsplit identRune
                  · show l.Position < l.Position + _ + _
                    have := List.length_pos.mpr hne
                    omega
                  · intro d hd
                    have := List.mem_takeWhile_imp hd
                    intro hdn; subst hdn; revert this; decide
                · simp at h
              · simp at h

theorem Lexer.NextToken_measure {l l1 : Lexer} {tok : Token}
    (h : l.NextToken = (l1, tok, none)) (hs : tok ≠ .TkString) (he : tok ≠ .TkEOF) :
    l1.Expr.length - l1.Position < l.Expr.length - l.Position := by
  obtain ⟨hE, _, ws, text, hrest, hpos, hlt, _⟩ := Lexer.NextToken_ok h hs he
  have h1 := congrArg List.length hrest
  simp only [List.length_append, Lexer.rest_length, hE] at h1
  rw [hE]
  omega

theorem runtimeBuildLoop_fuel (fuel : Nat) (l : Lexer) (prog : List ProgramStep)
    (hf : l.Expr.length - l.Position < fuel) :
    (runtimeBuildLoop fuel l prog).2 ≠ .outOfFuel := by
  induction fuel generalizing l prog with
  | zero => omega
  | succ fuel ih =>
    unfold runtimeBuildLoop
    rcases hn : l.NextToken with ⟨l1, tok, err⟩
    cases err with
    | some e => simp
    | none =>
      by_cases heof : tok = .TkEOF
      · simp [heof]
      · simp only [heof, if_false]
        cases tok with
        | TkEOF => exact absurd rfl heof
        | TkString => simp
        | TkIdent =>
          exact ih _ _ (by have := Lexer.NextToken_measure hn (by decide) (by decide); omega)
        | TkNumber =>
          exact ih _ _ (by have := Lexer.NextToken_measure hn (by decide) (by decide); omega)
        | TkLiteral =>
          exact ih _ _ (by have := Lexer.NextToken_measure hn (by decide) (by decide); omega)
        | TkEOL =>
          exact ih _ _ (by have := Lexer.NextToken_measure hn (by decide) (by decide); omega)
        | TkComment =>
          exact ih _ _ (by have := Lexer.NextToken_measure hn (by decide) (by decide); omega)

/-- The build pass never stops for lack of fuel. -/
theorem runtimeBuild_fuel (program : List Char) : (runtimeBuild program).2 ≠ .outOfFuel :=
  runtimeBuildLoop_fuel _ _ _ (by simp [NewLexer])

theorem compilerBuildLoop_eq (fuel : Nat) (l : Lexer) (prog : List ProgramStep) :
    compilerBuildLoop fuel l prog = runtimeBuildLoop fuel l prog := by
  induction fuel generalizing l prog with
  | zero => rfl
  | succ fuel ih =>
    unfold compilerBuildLoop runtimeBuildLoop
    rcases l.NextToken with ⟨l1, tok, err⟩
    cases err with
    | some e => rfl
    | none => cases tok <;> simp [ih]

theorem compilerBuild_eq (program : List Char) : compilerBuild program = runtimeBuild program :=
  compilerBuildLoop_eq _ _ _

theorem runtimeBuildLoop_stream (fuel : Nat) (l : Lexer) (prog0 prog : List ProgramStep)
    (h : runtimeBuildLoop fuel l prog0 = (prog, .done)) :
    prog = prog0 ++ (tokenStream fuel l).filterMap keepStep ∧
    (tokenStream fuel l).length ≤ l.Expr.length - l.Position := by
  induction fuel generalizing l prog0 with
  | zero => simp [runtimeBuildLoop] at h
  | succ fuel ih =>
    unfold runtimeBuildLoop at h
    unfold tokenStream
    rcases hn : l.NextToken with ⟨l1, tok, err⟩
    rw [hn] at h
    cases err with
    | some e => simp at h
    | none =>
      by_cases heof : tok = .TkEOF
      · simp [heof] at h ⊢; exact h.symm
      · simp only [heof, if_false] at h ⊢
        cases tok with
        | TkEOF => exact absurd rfl heof
        | TkString => simp at h
        | TkIdent =>
          have hm := Lexer.NextToken_measure hn (by decide) (by decide)
          have hE := (Lexer.NextToken_ok hn (by decide) (by decide)).1
          obtain ⟨h1, h2⟩ := ih _ _ h
          refine ⟨by simp [h1, keepStep, identStep], ?_⟩
          simp only [List.length_cons]; omega
        | TkNumber =>
          have hm := Lexer.NextToken_measure hn (by decide) (by decide)
          obtain ⟨h1, h2⟩ := ih _ _ h
          refine ⟨by simp [h1, keepStep, numberStep], ?_⟩
          simp only [List.length_cons]; omega
        | TkLiteral =>
          have hm := Lexer.NextToken_measure hn (by decide) (by decide)
          obtain ⟨h1, h2⟩ := ih _ _ h
          refine ⟨by simp [h1, keepStep], ?_⟩
          simp only [List.length_cons]; omega
        | TkEOL =>
          have hm := Lexer.NextToken_measure hn (by decide) (by decide)
          obtain ⟨h1, h2⟩ := ih _ _ h
          refine ⟨by simp [h1, keepStep], ?_⟩
          simp only [List.length_cons]; omega
        | TkComment =>
          have hm := Lexer.NextToken_measure hn (by decide) (by decide)
          obtain ⟨h1, h2⟩ := ih _ _ h
          refine ⟨by simp [h1, keepStep], ?_⟩
          simp only [List.length_cons]; omega

theorem keepStep_kind {t : Token × Lexer} {s : ProgramStep} (h : keepStep t = some s) :
    s.Token = .TkIdent ∨ s.Token = .TkNumber := by
  rcases t with ⟨tok, l⟩
  cases tok <;> simp [keepStep] at h <;> subst h <;> simp

/-- C9. When the build pass of `Runtime.Run` succeeds on a source text, the
program it has built is the token stream of the lexer on that text, filtered
to the identifier and number tokens in their order, each kept token giving the
step with its kind, its payload and the line of the lexer at that token; the
stream ended at the end of file (it is no longer than the text, one less than
the bound on its length); every step of the program is an identifier or a
number; and the build pass of `Compiler.Compile` ends in the same way with
the same program. -/
theorem build_is_filtered_stream (program : List Char) (prog : List ProgramStep)
    (h : runtimeBuild program = (prog, .done)) :
    prog = (tokenStream (program.length + 1) (NewLexer program)).filterMap keepStep ∧
    (tokenStream (program.length + 1) (NewLexer program)).length ≤ program.length ∧
    (∀ s ∈ prog, s.Token = .TkIdent ∨ s.Token = .TkNumber) ∧
    compilerBuild program = (prog, .done) := by
  obtain ⟨h1, h2⟩ := runtimeBuildLoop_stream _ _ _ _ h
  simp only [List.nil_append] at h1
  refine ⟨h1, by simpa [NewLexer] using h2, ?_, by rw [compilerBuild_eq, h]⟩
  intro s hs
  rw [h1] at hs
  obtain ⟨t, _, ht⟩ := List.mem_filterMap.mp hs
  exact keepStep_kind ht

/-- Instance of `build_is_filtered_stream` on a text of three lines with a
comment, a literal and four kept tokens. -/
theorem build_is_filtered_stream_witness :
    [mkIdent "FORWARD".toList 1, mkNumber 10 1, mkIdent "left".toList 3, mkNumber 5 3] =
      (tokenStream ("FORWARD 10\n\nleft [5 # c".toList.length + 1)
        (NewLexer "FORWARD 10\n\nleft [5 # c".toList)).filterMap keepStep ∧
    compilerBuild "FORWARD 10\n\nleft [5 # c".toList =
      ([mkIdent "FORWARD".toList 1, mkNumber 10 1, mkIdent "left".toList 3, mkNumber 5 3], .done) := by
  have h := build_is_filtered_stream "FORWARD 10\n\nleft [5 # c".toList
    [mkIdent "FORWARD".toList 1, mkNumber 10 1, mkIdent "left".toList 3, mkNumber 5 3] (by decide)
  exact ⟨h.1, h.2.2.2⟩

theorem wrapInt64_of_range {x : Int} (h1 : -9223372036854775808 ≤ x)
    (h2 : x < 9223372036854775808) : wrapInt64 x = x := by
  unfold wrapInt64; omega

theorem wrapInt64_modEq (x : Int) : wrapInt64 x ≡ x [ZMOD 18446744073709551616] := by
  unfold wrapInt64
  have h := (Int.mod_modEq (x + 9223372036854775808) 18446744073709551616).sub_right
    9223372036854775808
  simpa using h

theorem wrapInt64_congr {x y : Int} (h : x ≡ y [ZMOD 18446744073709551616]) :
    wrapInt64 x = wrapInt64 y := by
  unfold wrapInt64
  have h1 : (x + 9223372036854775808) % 18446744073709551616 =
      (y + 9223372036854775808) % 18446744073709551616 := h.add_right 9223372036854775808
  rw [h1]

theorem wrapInt64_digit_step (a b : Int) :
    wrapInt64 (wrapInt64 (wrapInt64 a * 10) + b) = wrapInt64 (a * 10 + b) :=
  wrapInt64_congr (((wrapInt64_modEq _).trans ((wrapInt64_modEq a).mul_right 10)).add_right b)

theorem numericRune_toNat {c : Char} (h : Lexer.numericRune c = true) :
    48 ≤ c.toNat ∧ c.toNat ≤ 57 := by
  simpa [Lexer.numericRune] using h

theorem wrapInt32_digit {c : Char} (hc : 48 ≤ c.toNat ∧ c.toNat ≤ 57) :
    wrapInt32 ((c.toNat : Int) - ('0'.toNat : Int)) = ((c.toNat - '0'.toNat : Nat) : Int) := by
  have h0 : '0'.toNat = 48 := rfl
  rw [h0]
  unfold wrapInt32
  omega

theorem addDigit_eq (n : Nat) {c : Char} (hc : 48 ≤ c.toNat ∧ c.toNat ≤ 57) :
    Lexer.addDigit (wrapInt64 n) c = wrapInt64 ((n * 10 + (c.toNat - '0'.toNat) : Nat) : Int) := by
  unfold Lexer.addDigit
  rw [wrapInt32_digit hc, wrapInt64_digit_step]
  congr 1

theorem accumulate_nil (v : Int) : Lexer.accumulate v [] = v := rfl

theorem accumulate_cons (v : Int) (c : Char) (cs : List Char) :
    Lexer.accumulate v (c :: cs) = Lexer.accumulate (Lexer.addDigit v c) cs := rfl

theorem decimalFrom_nil (n : Nat) : decimalFrom n [] = n := rfl

theorem decimalFrom_cons (n : Nat) (c : Char) (cs : List Char) :
    decimalFrom n (c :: cs) = decimalFrom (n * 10 + (c.toNat - '0'.toNat)) cs := rfl

theorem accumulate_eq (digits : List Char) (hd : ∀ c ∈ digits, Lexer.numericRune c = true)
    (n : Nat) :
    Lexer.accumulate (wrapInt64 n) digits = wrapInt64 (decimalFrom n digits) := by
  induction digits generalizing n with
  | nil => rw [accumulate_nil, decimalFrom_nil]
  | cons c cs ih =>
    have hc := numericRune_toNat (hd c (List.mem_cons_self _ _))
    have hrec := ih (fun d hd' => hd d (List.mem_cons_of_mem _ hd')) (n * 10 + (c.toNat - '0'.toNat))
    rw [accumulate_cons, decimalFrom_cons, addDigit_eq n hc]
    exact hrec

theorem wrapInt64_zero : wrapInt64 0 = 0 := by
  unfold wrapInt64; omega

theorem accumulate_zero (digits : List Char) (hd : ∀ c ∈ digits, Lexer.numericRune c = true) :
    Lexer.accumulate 0 digits = wrapInt64 (decimalValue digits) := by
  have h := accumulate_eq digits hd 0
  rw [Nat.cast_zero, wrapInt64_zero] at h
  exact h

theorem digit_cases {c : Char} (h : Lexer.numericRune c = true) :
    c ∈ ['0', '1', '2', '3', '4', '5', '6', '7', '8', '9'] := by
  have hr := numericRune_toNat h
  have hc : c = Char.ofNat c.toNat := (Char.ofNat_toNat c).symm
  generalize c.toNat = n at hr hc
  obtain ⟨h1, h2⟩ := hr
  subst hc
  interval_cases n <;> decide

theorem digit_not_other {c : Char} (h : Lexer.numericRune c = true) :
    Lexer.whiteSpaceRune c = false ∧ Lexer.eolRune c = false ∧ Lexer.literalRune c = false ∧
    Lexer.quoteRune c = false := by
  have hm := digit_cases h
  simp only [List.mem_cons, List.mem_singleton, List.not_mem_nil, or_false] at hm
  rcases hm with rfl | rfl | rfl | rfl | rfl | rfl | rfl | rfl | rfl | rfl <;> decide

/-- The number branch of `NextToken`, read forwards: on a run of digits that
ends at the end of the input, at a space, at a tab or at a newline. -/
theorem Lexer.NextToken_number (l : Lexer) (digits tail : List Char)
    (hrest : l.rest = digits ++ tail) (hne : digits ≠ [])
    (hd : ∀ c ∈ digits, numericRune c = true)
    (htail : tail = [] ∨ ∃ t tl, tail = t :: tl ∧ (whiteSpaceRune t = true ∨ eolRune t = true))
    (hcs : numericRune l.CommentSymbol = false) :
    l.NextToken = ({ l with Position := l.Position + digits.length,
                            Number := wrapInt64 (decimalValue digits),
                            String := [], Literal := Char.ofNat 0 }, .TkNumber, none) := by
  have hlen := l.rest_length
  simp only [Lexer.rest] at hrest hlen
  have hacc := accumulate_zero digits hd
  obtain ⟨d, ds, rfl⟩ := List.exists_cons_of_ne_nil hne
  have hdn : numericRune d = true := hd d (List.mem_cons_self _ _)
  obtain ⟨hdw, hde, hdl, hdq⟩ := digit_not_other hdn
  have hdc : ¬ d = l.CommentSymbol := by
    intro h; rw [← h, hdn] at hcs; cases hcs
  have htl : ∀ c, tail.head? = some c → numericRune c = false := by
    intro c hc
    rcases htail with rfl | ⟨t, tl, rfl, ht⟩
    · simp at hc
    · simp only [List.head?_cons, Option.some.injEq] at hc
      subst hc
      cases hn : numericRune t with
      | false => rfl
      | true =>
        obtain ⟨h1, h2, _, _⟩ := digit_not_other hn
        rcases ht with ht | ht
        · rw [h1] at ht; cases ht
        · rw [h2] at ht; cases ht
  have htk : List.takeWhile numericRune (d :: ds ++ tail) = d :: ds := by
    rw [List.takeWhile_append_of_pos hd]
    cases tail with
    | nil => simp
    | cons t tl => simp [List.takeWhile_cons, htl t rfl]
  have hdk : List.dropWhile numericRune (d :: ds ++ tail) = tail := by
    rw [List.dropWhile_append_of_pos hd]
    cases tail with
    | nil => simp
    | cons t tl => simp [List.dropWhile_cons, htl t rfl]
  have hwd : List.dropWhile whiteSpaceRune (d :: ds ++ tail) = d :: ds ++ tail := by
    simp [List.dropWhile_cons, hdw]
  have hwt : List.takeWhile whiteSpaceRune (d :: ds ++ tail) = [] := by
    simp [List.takeWhile_cons, hdw]
  have hhd : (d :: ds ++ tail).head? = some d := rfl
  have hdrop : List.drop (d :: ds).length (d :: ds ++ tail) = tail := by simp
  have hend : ((!match tail.head? with
        | some c => whiteSpaceRune c
        | none => false) &&
      (!match tail.head? with
        | some c => eolRune c
        | none => false) &&
      !decide (l.Position + (d :: ds).length ≥ l.Expr.length)) = false := by
    rcases htail with rfl | ⟨t, tl, rfl, ht⟩
    · rw [hrest] at hlen
      simp only [List.append_nil] at hlen
      have : l.Position + (d :: ds).length ≥ l.Expr.length := by omega
      simp only [this, decide_True, Bool.not_true, Bool.and_false]
    · rcases ht with ht | ht <;> simp [ht]
  simp only [Lexer.NextToken, Lexer.isEol, Lexer.isLiteral, Lexer.isQuote, Lexer.isNumeric,
    Lexer.isAlpha, Lexer.isWhiteSpace, Lexer.isEof, Lexer.test, Lexer.cur, Lexer.rest,
    Lexer.advance, Lexer.run, drop_pos_add, drop_length_takeWhile, hrest, hwd, hwt, hhd, hde,
    hdc, hdl, hdq, hdn, htk, hdk, hdrop, hend, hacc, if_false, if_true, Bool.false_eq_true,
    List.length_nil, Nat.add_zero]

/-- C2, as stated, fails: a count written with a minus sign is accepted, and
so is a numeral of twenty digits.  `REPEAT -5 HOME LOOP` runs to the end and
clears the surface five times, and compiles to a loop of five rounds; the
count 18446744073709551621, which is 2^64 + 5, is taken as 5 in the same way. -/
theorem repeat_minus_five_accepted :
    (Run axisFloatOps 11 NewRuntime "REPEAT -5 HOME LOOP".toList).2 = .done ∧
    (Run axisFloatOps 11 NewRuntime "REPEAT -5 HOME LOOP".toList).1.Calls =
      [.Clear, .Clear, .Clear, .Clear, .Clear] ∧
    (Compile (NewCompiler []) "REPEAT -5 HOME LOOP".toList).2 = .done ∧
    (Compile (NewCompiler []) "REPEAT -5 HOME LOOP".toList).1.writer =
      "for(let v1=0;v1<5;++v1)\x7bhome();\x7d".toList ∧
    (Run axisFloatOps 11 NewRuntime "REPEAT 18446744073709551621 HOME LOOP".toList).2 = .done ∧
    (Run axisFloatOps 11 NewRuntime "REPEAT 18446744073709551621 HOME LOOP".toList).1.Calls =
      [.Clear, .Clear, .Clear, .Clear, .Clear] ∧
    (Compile (NewCompiler []) "REPEAT 18446744073709551621 HOME LOOP".toList).1.writer =
      "for(let v1=0;v1<5;++v1)\x7bhome();\x7d".toList := by
  refine ⟨?_, ?_, ?_, ?_, ?_, ?_, ?_⟩ <;> decide

theorem Runtime.runLoop_fault (M : FloatOps) {r r1 : Runtime} {e : Fault}
    (h : r.dispatch M = (r1, some e)) (fuel : Nat) :
    r.runLoop M (fuel + 1) = (r1, .panicked e) := by
  simp [Runtime.runLoop, h]

theorem Compiler.compileLoop_fault {c c1 : Compiler} {e : Fault}
    (h : c.dispatch = (c1, some e)) (fuel : Nat) :
    c.compileLoop (fuel + 1) = (c1, .panicked e) := by
  simp [Compiler.compileLoop, h]

/-- C2, amended.  In both backends the dispatch of `REPEAT` (in any letter
case) followed by a number step whose value is at most 0 or at least 65536
fails with the syntax error for the count, naming the line of the number
step; only the program counter has changed, so nothing is pushed, executed or
written, and the dispatch loop stops there with that panic.  The value of a
number step is the run of digits read as a decimal numeral and wrapped to 64
bits: a run that ends at the end of the input, at a space, a tab or a
newline gives a number token with that value, so the numeral 0 and every
numeral from 65536 up to 2^63 - 1 give a value outside the accepted range. -/
theorem repeat_count_out_of_range (M : FloatOps) (r : Runtime) (c : Compiler)
    (p q : ProgramStep) (l : Lexer) (digits tail : List Char)
    (hp : p.Token = .TkIdent) (hcmd : ToUpper p.String = "REPEAT".toList)
    (hq : q.Token = .TkNumber) (hrange : q.Number ≤ 0 ∨ 65536 ≤ q.Number) :
    (fetch r.Program r.PC = some p → fetch r.Program (r.PC + 1) = some q →
      r.dispatch M =
        ({ r with PC := r.PC + 1 + 1 }, some (.syntaxError (.countOutOfRange q.Line))) ∧
      ∀ fuel, r.runLoop M (fuel + 1) =
        ({ r with PC := r.PC + 1 + 1 }, .panicked (.syntaxError (.countOutOfRange q.Line)))) ∧
    (fetch c.Program c.PC = some p → fetch c.Program (c.PC + 1) = some q →
      c.dispatch =
        ({ c with PC := c.PC + 1 + 1 }, some (.syntaxError (.countOutOfRange q.Line))) ∧
      ∀ fuel, c.compileLoop (fuel + 1) =
        ({ c with PC := c.PC + 1 + 1 }, .panicked (.syntaxError (.countOutOfRange q.Line)))) ∧
    (l.rest = digits ++ tail → digits ≠ [] → (∀ d ∈ digits, numericRune d = true) →
      (tail = [] ∨ ∃ t tl, tail = t :: tl ∧ (whiteSpaceRune t = true ∨ eolRune t = true)) →
      numericRune l.CommentSymbol = false →
      l.NextToken.2 = (.TkNumber, none) ∧
      l.NextToken.1.Number = wrapInt64 (decimalValue digits) ∧
      l.NextToken.1.Position = l.Position + digits.length ∧
      ((decimalValue digits = 0 ∨
          (65536 ≤ decimalValue digits ∧ decimalValue digits < 9223372036854775808)) →
        l.NextToken.1.Number ≤ 0 ∨ 65536 ≤ l.NextToken.1.Number)) := by
  have hk : mapGet KEYWORDS (ToUpper p.String) = some .REPEAT := by rw [hcmd]; decide
  refine ⟨?_, ?_, ?_⟩
  · intro hf hf1
    have hq1 : fetch ({ r with PC := r.PC + 1 } : Runtime).Program
        ({ r with PC := r.PC + 1 } : Runtime).PC = some q := hf1
    have hd : r.dispatch M =
        ({ r with PC := r.PC + 1 + 1 }, some (.syntaxError (.countOutOfRange q.Line))) := by
      rw [Runtime.dispatch_command M hf hp hk]
      simp only [command, repeatCmd, Runtime.getParam_of_fetch hq1 hq]
      simp [hrange]
    exact ⟨hd, Runtime.runLoop_fault M hd⟩
  · intro hf hf1
    have hq1 : fetch ({ c with PC := c.PC + 1 } : Compiler).Program
        ({ c with PC := c.PC + 1 } : Compiler).PC = some q := hf1
    have hd : c.dispatch =
        ({ c with PC := c.PC + 1 + 1 }, some (.syntaxError (.countOutOfRange q.Line))) := by
      rw [Compiler.compile_dispatch_command hf hp hk]
      simp only [compileCommand, compileRepeatCmd, Compiler.compile_getParam_of_fetch hq1 hq]
      simp [hrange]
    exact ⟨hd, Compiler.compileLoop_fault hd⟩
  · intro hrest hne hd htail hcs
    rw [Lexer.NextToken_number l digits tail hrest hne hd htail hcs]
    refine ⟨rfl, rfl, rfl, ?_⟩
    intro hv
    show wrapInt64 (decimalValue digits) ≤ 0 ∨ 65536 ≤ wrapInt64 (decimalValue digits)
    rcases hv with h0 | ⟨h1, h2⟩
    · left; rw [h0]; simp [wrapInt64_zero]
    · right
      rw [wrapInt64_of_range (by omega) (by omega)]
      omega

/-- Instance of `repeat_count_out_of_range`: the text `REPEAT 65536 HOME LOOP`
panics in both backends with the syntax error for the count in line 1, no
call made on the stub and no text written; the lexer reads `65536` as the
number 65536. -/
theorem repeat_count_out_of_range_witness :
    (Run axisFloatOps 1 NewRuntime "REPEAT 65536 HOME LOOP".toList).2 =
      .panicked (.syntaxError (.countOutOfRange 1)) ∧
    (Run axisFloatOps 1 NewRuntime "REPEAT 65536 HOME LOOP".toList).1.Calls = [] ∧
    (Compile (NewCompiler []) "REPEAT 65536 HOME LOOP".toList).2 =
      .panicked (.syntaxError (.countOutOfRange 1)) ∧
    (Compile (NewCompiler []) "REPEAT 65536 HOME LOOP".toList).1.writer = [] ∧
    (NewLexer "65536".toList).NextToken.2 = (.TkNumber, none) ∧
    65536 ≤ (NewLexer "65536".toList).NextToken.1.Number := by
  obtain ⟨h1, h2, h3⟩ := repeat_count_out_of_range axisFloatOps
    { NewRuntime with Program := sampleRepeatProgram }
    { NewCompiler [] with Program := sampleRepeatProgram }
    (mkIdent "REPEAT".toList 1) (mkNumber 65536 1) (NewLexer "65536".toList) "65536".toList []
    (by decide) (by decide) (by decide) (by decide)
  have hr := (h1 (by decide) (by decide)).2 0
  have hc := (h2 (by decide) (by decide)).2 4
  have hl := h3 (by decide) (by decide) (by decide) (Or.inl rfl) (by decide)
  have hrun : Run axisFloatOps 1 NewRuntime "REPEAT 65536 HOME LOOP".toList =
      Runtime.runLoop axisFloatOps (0 + 1) { NewRuntime with Program := sampleRepeatProgram } := by
    rfl
  have hcomp : Compile (NewCompiler []) "REPEAT 65536 HOME LOOP".toList =
      Compiler.compileLoop (4 + 1) { NewCompiler [] with Program := sampleRepeatProgram } := by
    rfl
  rw [hrun, hr, hcomp, hc]
  refine ⟨rfl, rfl, rfl, rfl, hl.1, ?_⟩
  rw [hl.2.1]
  decide

theorem split_at_drop {src u v : List Char} {p : Nat} (h : src.drop p = u ++ v) :
    src.take (p + u.length) = src.take p ++ u ∧ src.drop (p + u.length) = v := by
  constructor
  · rw [List.take_add, h]; simp
  · rw [drop_pos_add, h]; simp

theorem lineOf_add {src u v : List Char} {p : Nat} (h : src.drop p = u ++ v) :
    lineOf src (p + u.length) = lineOf src p + u.count '\n' := by
  unfold lineOf
  rw [(split_at_drop h).1, List.count_append]
  omega

theorem count_eq_zero_of_forall_ne {u : List Char} (h : ∀ c ∈ u, c ≠ '\n') : u.count '\n' = 0 := by
  rw [List.count_eq_zero]
  intro hm
  exact h _ hm rfl

theorem whiteSpace_no_newline {u : List Char} (h : ∀ c ∈ u, Lexer.whiteSpaceRune c = true) :
    u.count '\n' = 0 := by
  apply count_eq_zero_of_forall_ne
  intro c hc hn
  have := h c hc
  subst hn
  revert this
  decide

theorem wrapUint32_succ (n : Nat) : wrapUint32 (wrapUint32 n + 1) = wrapUint32 (n + 1) := by
  unfold wrapUint32; omega

/-- The line counter after a continuing token: it follows the line of the
scan position, modulo 2^32, and the token starts on the line where it ends. -/
theorem Lexer.NextToken_line {l l1 : Lexer} {tok : Token}
    (h : l.NextToken = (l1, tok, none)) (hs : tok ≠ .TkString) (he : tok ≠ .TkEOF)
    (hline : l.Line = wrapUint32 (lineOf l.Expr l.Position)) :
    l1.Expr = l.Expr ∧ l.Position < l1.Position ∧
    l1.Line = wrapUint32 (lineOf l1.Expr l1.Position) ∧
    ∃ a, l.Position ≤ a ∧
      (tok ≠ .TkEOL → l1.Line = wrapUint32 (lineOf l.Expr a)) ∧
      (tok = .TkIdent → a < l1.Position ∧ l1.String ≠ [] ∧ l1.String <+: l.Expr.drop a) ∧
      (tok = .TkNumber → a < l1.Position ∧ ∃ digits, digits ≠ [] ∧ digits <+: l.Expr.drop a ∧
        (∀ d ∈ digits, numericRune d = true) ∧ l1.Number = wrapInt64 (decimalValue digits)) := by
  obtain ⟨hE, _, ws, text, hrest, hpos, hlt, hws, heol, hneol, hid, hnum⟩ :=
    Lexer.NextToken_ok h hs he
  simp only [Lexer.rest, hE] at hrest
  rw [List.append_assoc] at hrest
  have h1 := lineOf_add hrest
  have h2 := split_at_drop hrest
  have h3 := lineOf_add h2.2
  have h4 := split_at_drop h2.2
  have hw0 := whiteSpace_no_newline hws
  rw [← hpos] at h3 h4
  refine ⟨hE, hlt, ?_, l.Position + ws.length, by omega, ?_, ?_, ?_⟩
  · rw [hE, h3, h1, hw0]
    by_cases ht : tok = .TkEOL
    · obtain ⟨_, htext, hl⟩ := heol ht
      rw [hl, hline, htext]
      simp only [List.count_cons_self, List.count_nil, Nat.add_zero]
      exact wrapUint32_succ _
    · obtain ⟨htext, hl⟩ := hneol ht
      rw [hl, hline, count_eq_zero_of_forall_ne htext]
      rfl
  · intro ht
    rw [(hneol ht).2, hline, h1, hw0]; rfl
  · intro ht
    obtain ⟨hs1, hs2⟩ := hid ht
    rw [hs1]
    have := List.length_pos.mpr hs2
    exact ⟨by omega, hs2, by rw [h2.2]; exact List.prefix_append _ _⟩
  · intro ht
    obtain ⟨hn1, hn2, hn3, _⟩ := hnum ht
    have := List.length_pos.mpr hn2
    exact ⟨by omega, text, hn2, by rw [h2.2]; exact List.prefix_append _ _, hn3,
      by rw [hn1, accumulate_zero text hn3]⟩

theorem runtimeBuildLoop_lines (src : List Char) (fuel : Nat) (l : Lexer)
    (prog0 prog : List ProgramStep) (hE : l.Expr = src)
    (hline : l.Line = wrapUint32 (lineOf src l.Position))
    (h : runtimeBuildLoop fuel l prog0 = (prog, .done)) :
    ∃ steps starts, prog = prog0 ++ steps ∧
      List.Forall₂ (fun s a => occursAt src s a ∧ s.Line = wrapUint32 (lineOf src a)) steps starts ∧
      starts.Pairwise (· < ·) ∧ ∀ a ∈ starts, l.Position ≤ a := by
  induction fuel generalizing l prog0 with
  | zero => simp [runtimeBuildLoop] at h
  | succ fuel ih =>
    unfold runtimeBuildLoop at h
    rcases hn : l.NextToken with ⟨l1, tok, err⟩
    rw [hn] at h
    cases err with
    | some e => simp at h
    | none =>
      by_cases heof : tok = .TkEOF
      · simp [heof] at h
        exact ⟨[], [], by simp [h], List.Forall₂.nil, List.Pairwise.nil, by simp⟩
      · simp only [heof, if_false] at h
        have hskip : tok ≠ .TkString → tok ≠ .TkIdent → tok ≠ .TkNumber →
            runtimeBuildLoop fuel l1 prog0 = (prog, .done) →
            ∃ steps starts, prog = prog0 ++ steps ∧
              List.Forall₂ (fun s a => occursAt src s a ∧ s.Line = wrapUint32 (lineOf src a))
                steps starts ∧
              starts.Pairwise (· < ·) ∧ ∀ a ∈ starts, l.Position ≤ a := by
          intro hs _ _ hb
          obtain ⟨hE1, hlt, hl1, _⟩ := Lexer.NextToken_line hn hs heof (by rw [hE]; exact hline)
          obtain ⟨steps, starts, h1, h2, h3, h4⟩ :=
            ih l1 prog0 (by rw [hE1, hE]) (by rw [hl1, hE1, hE]) hb
          exact ⟨steps, starts, h1, h2, h3, fun a ha => by have := h4 a ha; omega⟩
        cases tok with
        | TkEOF => exact absurd rfl heof
        | TkString => simp at h
        | TkLiteral => exact hskip (by decide) (by decide) (by decide) h
        | TkEOL => exact hskip (by decide) (by decide) (by decide) h
        | TkComment => exact hskip (by decide) (by decide) (by decide) h
        | TkIdent =>
          obtain ⟨hE1, hlt, hl1, a, ha, hla, hid, _⟩ :=
            Lexer.NextToken_line hn (by decide) heof (by rw [hE]; exact hline)
          obtain ⟨ha1, hs1, hs2⟩ := hid rfl
          obtain ⟨steps, starts, h1, h2, h3, h4⟩ :=
            ih l1 _ (by rw [hE1, hE]) (by rw [hl1, hE1, hE]) h
          refine ⟨identStep l1 :: steps, a :: starts, by simp [h1], ?_, ?_, ?_⟩
          · refine List.Forall₂.cons ⟨⟨fun _ => ⟨hs1, by rw [← hE]; exact hs2⟩, ?_⟩, ?_⟩ h2
            · intro hc; simp [identStep] at hc
            · show l1.Line = _
              rw [hla (by decide), hE]
          · exact List.Pairwise.cons (fun b hb => by have := h4 b hb; omega) h3
          · intro b hb
            rcases List.mem_cons.mp hb with rfl | hb
            · exact ha
            · have := h4 b hb; omega
        | TkNumber =>
          obtain ⟨hE1, hlt, hl1, a, ha, hla, _, hnum⟩ :=
            Lexer.NextToken_line hn (by decide) heof (by rw [hE]; exact hline)
          obtain ⟨ha1, digits, hd1, hd2, hd3, hd4⟩ := hnum rfl
          obtain ⟨steps, starts, h1, h2, h3, h4⟩ :=
            ih l1 _ (by rw [hE1, hE]) (by rw [hl1, hE1, hE]) h
          refine ⟨numberStep l1 :: steps, a :: starts, by simp [h1], ?_, ?_, ?_⟩
          · refine List.Forall₂.cons ⟨⟨?_, fun _ => ⟨digits, hd1, by rw [← hE]; exact hd2, hd3, hd4⟩⟩, ?_⟩ h2
            · intro hc; simp [numberStep] at hc
            · show l1.Line = _
              rw [hla (by decide), hE]
          · exact List.Pairwise.cons (fun b hb => by have := h4 b hb; omega) h3
          · intro b hb
            rcases List.mem_cons.mp hb with rfl | hb
            · exact ha
            · have := h4 b hb; omega

/-- The end-of-line branch of `NextToken`, read forwards. -/
theorem Lexer.NextToken_eol (l : Lexer) (tail : List Char) (hrest : l.rest = '\n' :: tail) :
    l.NextToken = ({ l with Position := l.Position + 1, Line := wrapUint32 (l.Line + 1),
                            String := [], Number := 0, Literal := '\n' }, .TkEOL, none) := by
  simp only [Lexer.rest] at hrest
  have he : eolRune '\n' = true := by decide
  simp only [Lexer.NextToken, Lexer.isEol, Lexer.test, Lexer.cur, Lexer.rest, hrest,
    List.head?_cons, he, if_true]

/-- The end-of-file branch of `NextToken`, read forwards. -/
theorem Lexer.NextToken_eof (l : Lexer) (hrest : l.rest = []) :
    l.NextToken = ({ l with String := [], Number := 0, Literal := Char.ofNat 0 }, .TkEOF, none) := by
  simp only [Lexer.rest] at hrest
  simp [Lexer.NextToken, Lexer.isEol, Lexer.test, Lexer.cur, Lexer.rest, Lexer.advance,
    Lexer.run, hrest]

theorem Lexer.NextToken_foo (l : Lexer) (hrest : l.rest = "FOO".toList)
    (hcs : l.CommentSymbol = '#') :
    l.NextToken = ({ l with Position := l.Position + 3, String := "FOO".toList, Number := 0,
                            Literal := Char.ofNat 0 }, .TkIdent, none) := by
  simp only [Lexer.rest] at hrest
  have h0 : "FOO".toList = ['F', 'O', 'O'] := rfl
  rw [h0] at hrest
  have h1 : List.dropWhile whiteSpaceRune ['F', 'O', 'O'] = ['F', 'O', 'O'] := by decide
  have h2 : List.takeWhile whiteSpaceRune ['F', 'O', 'O'] = [] := by decide
  have h3 : List.takeWhile identRune ['F', 'O', 'O'] = ['F', 'O', 'O'] := by decide
  have h4 : eolRune 'F' = false := by decide
  have h5 : literalRune 'F' = false := by decide
  have h6 : quoteRune 'F' = false := by decide
  have h7 : numericRune 'F' = false := by decide
  have h8 : alphaRune 'F' = true := by decide
  have h9 : ¬ ('F' = '#') := by decide
  simp [Lexer.NextToken, Lexer.isEol, Lexer.isLiteral, Lexer.isQuote, Lexer.isNumeric,
    Lexer.isAlpha, Lexer.test, Lexer.cur, Lexer.rest, Lexer.advance, Lexer.run, hrest, hcs,
    h1, h2, h3, h4, h5, h6, h7, h8, h9, h0]

theorem Lexer.NextToken_eol_fields (l : Lexer) (tail : List Char) (hrest : l.rest = '\n' :: tail) :
    ∃ l1 : Lexer, l.NextToken = (l1, .TkEOL, none) ∧ l1.Expr = l.Expr ∧
      l1.CommentSymbol = l.CommentSymbol ∧ l1.Position = l.Position + 1 ∧
      l1.Line = wrapUint32 (l.Line + 1) ∧ l1.rest = tail := by
  refine ⟨_, Lexer.NextToken_eol l tail hrest, rfl, rfl, rfl, rfl, ?_⟩
  have := Lexer.rest_advance l 1
  simp only [Lexer.rest, Lexer.advance] at this hrest ⊢
  rw [this, hrest]; rfl

theorem runtimeBuildLoop_newlines (k fuel : Nat) (l : Lexer) (tail : List Char)
    (prog0 : List ProgramStep) (hrest : l.rest = List.replicate k '\n' ++ tail)
    (hline : l.Line < 4294967296) :
    ∃ l1 : Lexer, l1.Expr = l.Expr ∧ l1.CommentSymbol = l.CommentSymbol ∧
      l1.Position = l.Position + k ∧ l1.Line = wrapUint32 (l.Line + k) ∧ l1.rest = tail ∧
      runtimeBuildLoop (fuel + k) l prog0 = runtimeBuildLoop fuel l1 prog0 := by
  induction k generalizing l with
  | zero =>
    refine ⟨l, rfl, rfl, rfl, ?_, by simpa using hrest, rfl⟩
    unfold wrapUint32; omega
  | succ k ih =>
    have hr : l.rest = '\n' :: (List.replicate k '\n' ++ tail) := by
      rw [hrest, List.replicate_succ]; rfl
    obtain ⟨lz, hn, hz1, hz2, hz3, hz4, hz5⟩ := Lexer.NextToken_eol_fields l _ hr
    obtain ⟨l1, h1, h2, h3, h4, h5, h6⟩ := ih lz hz5 (by
      rw [hz4]; unfold wrapUint32; omega)
    refine ⟨l1, by rw [h1, hz1], by rw [h2, hz2], by rw [h3, hz3]; omega, ?_, h5, ?_⟩
    · rw [h4, hz4]
      unfold wrapUint32; omega
    · rw [← h6]
      show runtimeBuildLoop ((fuel + k) + 1) l prog0 = _
      rw [runtimeBuildLoop, hn]
      rfl

theorem Lexer.NextToken_foo_fields (l : Lexer) (hrest : l.rest = "FOO".toList)
    (hcs : l.CommentSymbol = '#') :
    ∃ l1 : Lexer, l.NextToken = (l1, .TkIdent, none) ∧ l1.String = "FOO".toList ∧
      l1.Line = l.Line ∧ l1.rest = [] := by
  refine ⟨_, Lexer.NextToken_foo l hrest hcs, rfl, rfl, ?_⟩
  have := Lexer.rest_advance l 3
  simp only [Lexer.rest, Lexer.advance] at this hrest ⊢
  rw [this, hrest]; rfl

theorem runtimeBuild_newlines_foo (k : Nat) :
    runtimeBuild (List.replicate k '\n' ++ "FOO".toList) =
      ([mkIdent "FOO".toList (wrapUint32 (1 + k))], .done) := by
  unfold runtimeBuild
  have hl : (List.replicate k '\n' ++ "FOO".toList).length + 1 = 4 + k := by
    simp only [List.length_append, List.length_replicate]
    have : "FOO".toList.length = 3 := rfl
    omega
  rw [hl]
  obtain ⟨l1, _, h2, _, h4, h5, h6⟩ := runtimeBuildLoop_newlines k 4
    (NewLexer (List.replicate k '\n' ++ "FOO".toList)) "FOO".toList []
    (by simp [Lexer.rest, NewLexer]) (by simp [NewLexer])
  rw [h6]
  obtain ⟨l2, hn2, hs2, hl2, hr2⟩ := Lexer.NextToken_foo_fields l1 h5 (by rw [h2]; rfl)
  have hn3 := Lexer.NextToken_eof l2 hr2
  have hstep : identStep l2 = mkIdent "FOO".toList (wrapUint32 (1 + k)) := by
    simp only [identStep, mkIdent, hs2, hl2, h4]
    rfl
  rw [runtimeBuildLoop, hn2]
  simp only [reduceCtorEq, if_false]
  rw [runtimeBuildLoop, hn3]
  simp [hstep]

theorem mapGet_eq_none {α : Type} (m : List (List Char × α)) (key : List Char)
    (h : key ∉ m.map Prod.fst) : mapGet m key = none := by
  induction m with
  | nil => rfl
  | cons kv rest ih =>
    obtain ⟨k, v⟩ := kv
    simp only [List.map_cons, List.mem_cons, not_or] at h
    simp only [mapGet, h.1, if_false]
    exact ih h.2

theorem colors_keys : colors.map Prod.fst = COLORS.map Prod.fst := by decide

/-- Dispatch of an identifier that is no command name, and of `PAPER`, `INK`
and `PEN` with an identifier parameter they do not accept, in both backends. -/
theorem dispatch_rejects (M : FloatOps) (r : Runtime) (c : Compiler) (p q : ProgramStep)
    (hprog : c.Program = r.Program) (hpc : c.PC = r.PC)
    (hp : fetch r.Program r.PC = some p) (hpt : p.Token = .TkIdent) :
    (ToUpper p.String ∉ KEYWORDS.map Prod.fst →
      (r.dispatch M).2 = some (.syntaxError (.unknownKeyword p.Line)) ∧
      c.dispatch.2 = some (.syntaxError (.unknownKeyword p.Line))) ∧
    (fetch r.Program (r.PC + 1) = some q → q.Token = .TkIdent →
      ((ToUpper p.String = "PAPER".toList ∨ ToUpper p.String = "INK".toList) →
        ToUpper q.String ∉ COLORS.map Prod.fst →
        (r.dispatch M).2 = some (.syntaxError (.unrecognizedColor q.Line)) ∧
        c.dispatch.2 = some (.syntaxError (.unrecognizedColor q.Line))) ∧
      (ToUpper p.String = "PEN".toList →
        ToUpper q.String ≠ "UP".toList → ToUpper q.String ≠ "DOWN".toList →
        (r.dispatch M).2 = some (.syntaxError (.invalidParameter q.Line)) ∧
        c.dispatch.2 = some (.syntaxError (.invalidParameter q.Line)))) := by
  have hpc' : fetch c.Program c.PC = some p := by rw [hprog, hpc]; exact hp
  refine ⟨?_, ?_⟩
  · intro hk
    have hnone := mapGet_eq_none KEYWORDS _ hk
    constructor
    · simp [Runtime.dispatch, Runtime.next_of_fetch hp, hpt, hnone]
    · simp [Compiler.dispatch, Compiler.compile_next_of_fetch hpc', hpt, hnone]
  · intro hq hqt
    have hq1 : fetch ({ r with PC := r.PC + 1 } : Runtime).Program
        ({ r with PC := r.PC + 1 } : Runtime).PC = some q := hq
    have hq2 : fetch ({ c with PC := c.PC + 1 } : Compiler).Program
        ({ c with PC := c.PC + 1 } : Compiler).PC = some q := by
      show fetch c.Program (c.PC + 1) = some q
      rw [hprog, hpc]; exact hq
    refine ⟨?_, ?_⟩
    · intro hcmd hcol
      have hn1 := mapGet_eq_none COLORS _ hcol
      have hn2 := mapGet_eq_none colors _ (by rw [colors_keys]; exact hcol)
      rcases hcmd with hcmd | hcmd
      · have hk : mapGet KEYWORDS (ToUpper p.String) = some .PAPER := by rw [hcmd]; decide
        rw [Runtime.dispatch_command M hp hpt hk, Compiler.compile_dispatch_command hpc' hpt hk]
        simp [command, compileCommand, paperCmd, compilePaperCmd, Runtime.getColor,
          Compiler.getColor, Runtime.getParam_of_fetch hq1 hqt,
          Compiler.compile_getParam_of_fetch hq2 hqt, hn1, hn2]
      · have hk : mapGet KEYWORDS (ToUpper p.String) = some .INK := by rw [hcmd]; decide
        rw [Runtime.dispatch_command M hp hpt hk, Compiler.compile_dispatch_command hpc' hpt hk]
        simp [command, compileCommand, inkCmd, compileInkCmd, Runtime.getColor,
          Compiler.getColor, Runtime.getParam_of_fetch hq1 hqt,
          Compiler.compile_getParam_of_fetch hq2 hqt, hn1, hn2]
    · intro hcmd hup hdown
      have hk : mapGet KEYWORDS (ToUpper p.String) = some .PEN := by rw [hcmd]; decide
      rw [Runtime.dispatch_command M hp hpt hk, Compiler.compile_dispatch_command hpc' hpt hk]
      have hup' : ¬ ToUpper q.String = ['U', 'P'] := hup
      have hdown' : ¬ ToUpper q.String = ['D', 'O', 'W', 'N'] := hdown
      simp [command, compileCommand, penCmd, compilePenCmd, Runtime.getParam_of_fetch hq1 hqt,
        Compiler.compile_getParam_of_fetch hq2 hqt, hup', hdown']

theorem run_newlines_foo (M : FloatOps) (r : Runtime) (c : Compiler) (k : Nat) :
    (Run M 1 r (List.replicate k '\n' ++ "FOO".toList)).2 =
      .panicked (.syntaxError (.unknownKeyword (wrapUint32 (1 + k)))) ∧
    (Compile c (List.replicate k '\n' ++ "FOO".toList)).2 =
      .panicked (.syntaxError (.unknownKeyword (wrapUint32 (1 + k)))) := by
  have hb := runtimeBuild_newlines_foo k
  have hk : mapGet KEYWORDS (ToUpper ['F', 'O', 'O']) = none := by decide
  constructor
  · simp only [Run, hb]
    simp [Runtime.runLoop, Runtime.dispatch, Runtime.next, Runtime.isEOP, fetch, mkIdent, hk]
  · simp only [Compile, compilerBuild_eq, hb]
    simp [Compiler.compileLoop, Compiler.dispatch, Compiler.next, Compiler.isEOP, fetch, mkIdent,
      hk]

theorem lineOf_newlines (k : Nat) (tail : List Char) :
    lineOf (List.replicate k '\n' ++ tail) k = 1 + k ∧
    (List.replicate k '\n' ++ tail).drop k = tail := by
  have h1 : (List.replicate k '\n' ++ tail).take k = List.replicate k '\n' := by
    rw [List.take_append_of_le_length (by simp)]
    simp
  have h2 : (List.replicate k '\n' ++ tail).drop k = tail := by
    rw [List.drop_append_of_le_length (by simp)]
    simp
  exact ⟨by simp [lineOf, h1], h2⟩

/-- C6, as stated, fails on a text of 2^32 - 1 newlines followed by `FOO`:
the identifier starts at index 4294967295, after 4294967295 newline
characters, so one plus the number of newlines before it is 4294967296; both
backends report the unknown keyword in line 0, the `uint32` line counter
having wrapped. -/
theorem line_counter_wraps :
    (Run axisFloatOps 1 NewRuntime (List.replicate 4294967295 '\n' ++ "FOO".toList)).2 =
      .panicked (.syntaxError (.unknownKeyword 0)) ∧
    (Compile (NewCompiler []) (List.replicate 4294967295 '\n' ++ "FOO".toList)).2 =
      .panicked (.syntaxError (.unknownKeyword 0)) ∧
    (List.replicate 4294967295 '\n' ++ "FOO".toList).drop 4294967295 = "FOO".toList ∧
    lineOf (List.replicate 4294967295 '\n' ++ "FOO".toList) 4294967295 = 4294967296 := by
  have hw : wrapUint32 (1 + 4294967295) = 0 := by decide
  have h := run_newlines_foo axisFloatOps NewRuntime (NewCompiler []) 4294967295
  rw [hw] at h
  have h2 := lineOf_newlines 4294967295 "FOO".toList
  exact ⟨h.1, h.2, h2.2, h2.1⟩

/-- C6, amended.  Let the build pass succeed on a source text.  Both backends
hold the same program, and its steps are tokens of the text at strictly
increasing start indices, each step carrying as its line one plus the number
of newline characters before its start, modulo 2^32 (the line counter is a
`uint32`).  At any program counter of that program, in both backends, the
dispatch of an identifier `p` whose upper-case form is no command name fails
with the syntax error for an unknown keyword carrying the line of `p`; the
dispatch of `PAPER` or `INK` followed by an identifier `q` whose upper-case
form is no colour name fails with the syntax error for an unrecognized color
carrying the line of `q`; the dispatch of `PEN` followed by an identifier `q`
whose upper-case form is neither `UP` nor `DOWN` fails with the syntax error
for an invalid parameter carrying the line of `q`. -/
theorem syntax_error_names_line (M : FloatOps) (src : List Char) (prog : List ProgramStep)
    (r : Runtime) (c : Compiler) (p q : ProgramStep)
    (hbuild : runtimeBuild src = (prog, .done)) :
    compilerBuild src = (prog, .done) ∧
    (∃ starts : List Nat,
      List.Forall₂ (fun s a => occursAt src s a ∧ s.Line = wrapUint32 (lineOf src a)) prog starts ∧
      starts.Pairwise (· < ·)) ∧
    (r.Program = prog → c.Program = prog → c.PC = r.PC →
      fetch prog r.PC = some p → p.Token = .TkIdent →
      (ToUpper p.String ∉ KEYWORDS.map Prod.fst →
        (r.dispatch M).2 = some (.syntaxError (.unknownKeyword p.Line)) ∧
        c.dispatch.2 = some (.syntaxError (.unknownKeyword p.Line))) ∧
      (fetch prog (r.PC + 1) = some q → q.Token = .TkIdent →
        ((ToUpper p.String = "PAPER".toList ∨ ToUpper p.String = "INK".toList) →
          ToUpper q.String ∉ COLORS.map Prod.fst →
          (r.dispatch M).2 = some (.syntaxError (.unrecognizedColor q.Line)) ∧
          c.dispatch.2 = some (.syntaxError (.unrecognizedColor q.Line))) ∧
        (ToUpper p.String = "PEN".toList →
          ToUpper q.String ≠ "UP".toList → ToUpper q.String ≠ "DOWN".toList →
          (r.dispatch M).2 = some (.syntaxError (.invalidParameter q.Line)) ∧
          c.dispatch.2 = some (.syntaxError (.invalidParameter q.Line))))) := by
  refine ⟨by rw [compilerBuild_eq, hbuild], ?_, ?_⟩
  · obtain ⟨steps, starts, h1, h2, h3, _⟩ :=
      runtimeBuildLoop_lines src _ (NewLexer src) [] prog rfl
        (by simp [NewLexer, lineOf, wrapUint32]) hbuild
    simp only [List.nil_append] at h1
    subst h1
    exact ⟨starts, h2, h3⟩
  · intro hr hc hpc hp hpt
    subst hr
    have h := dispatch_rejects M r c p q hc hpc hp hpt
    exact h

/-- Instance of `syntax_error_names_line` on the text `HOME`, newline,
`PAPER PURPLE`: both backends build the same three steps, and at the second
step both fail on the colour with line 2, which is the line of index 11 of
the text, where `PURPLE` starts. -/
theorem syntax_error_names_line_witness :
    compilerBuild "HOME\nPAPER PURPLE".toList = (samplePurpleProgram, .done) ∧
    ({ NewRuntime with Program := samplePurpleProgram, PC := 1 }.dispatch axisFloatOps).2 =
      some (.syntaxError (.unrecognizedColor 2)) ∧
    ({ NewCompiler [] with Program := samplePurpleProgram, PC := 1 }.dispatch).2 =
      some (.syntaxError (.unrecognizedColor 2)) ∧
    wrapUint32 (lineOf "HOME\nPAPER PURPLE".toList 11) = 2 := by
  obtain ⟨h1, _, h3⟩ := syntax_error_names_line axisFloatOps "HOME\nPAPER PURPLE".toList
    samplePurpleProgram { NewRuntime with Program := samplePurpleProgram, PC := 1 }
    { NewCompiler [] with Program := samplePurpleProgram, PC := 1 }
    (mkIdent "PAPER".toList 2) (mkIdent "PURPLE".toList 2) (by decide)
  have h4 := ((h3 rfl rfl rfl (by decide) (by decide)).2 (by decide) (by decide)).1
    (Or.inl (by decide)) (by decide)
  exact ⟨h1, h4.1, h4.2, by decide⟩

theorem Runtime.rounds_add (M : FloatOps) (a b : Nat) (r : Runtime) :
    Runtime.rounds M (a + b) r = (Runtime.rounds M a r).bind (Runtime.rounds M b) := by
  induction a generalizing r with
  | zero => simp [Runtime.rounds]
  | succ a ih =>
    rw [Nat.add_right_comm]
    simp only [Runtime.rounds]
    rcases hd : r.dispatch M with ⟨r1, _ | e⟩
    · simp only []
      split
      · rfl
      · exact ih r1
    · rfl

theorem Runtime.rounds_trans (M : FloatOps) {a b : Nat} {r r1 r2 : Runtime}
    (h1 : Runtime.rounds M a r = some r1) (h2 : Runtime.rounds M b r1 = some r2) :
    Runtime.rounds M (a + b) r = some r2 := by
  rw [Runtime.rounds_add, h1]; exact h2

theorem Runtime.rounds_one (M : FloatOps) {r r1 : Runtime}
    (h : r.dispatch M = (r1, none)) (hne : r1.isEOP = false) :
    Runtime.rounds M 1 r = some r1 := by
  simp [Runtime.rounds, h, hne]

theorem Runtime.runLoop_rounds (M : FloatOps) {k : Nat} {r r1 : Runtime}
    (h : Runtime.rounds M k r = some r1) (fuel : Nat) :
    Runtime.runLoop M (k + fuel) r = Runtime.runLoop M fuel r1 := by
  induction k generalizing r with
  | zero => simp [Runtime.rounds] at h; subst h; simp
  | succ k ih =>
    rw [Nat.add_right_comm]
    simp only [Runtime.rounds] at h
    simp only [Runtime.runLoop]
    rcases hd : r.dispatch M with ⟨r2, _ | e⟩
    · rw [hd] at h
      simp only [] at h ⊢
      split at h
      · cases h
      · rename_i hne
        simp only [hne, if_false, Bool.false_eq_true]
        exact ih h
    · rw [hd] at h; cases h

theorem Runtime.steps_of_rounds (M : FloatOps) {k : Nat} {r r1 : Runtime}
    (h : Runtime.rounds M k r = some r1) : Runtime.steps M k r = (r1, none) := by
  induction k generalizing r with
  | zero => simp [Runtime.rounds] at h; subst h; rfl
  | succ k ih =>
    simp only [Runtime.rounds] at h
    simp only [Runtime.steps]
    rcases hd : r.dispatch M with ⟨r2, _ | e⟩
    · rw [hd] at h
      simp only [] at h ⊢
      split at h
      · cases h
      · exact ih h
    · rw [hd] at h; cases h

theorem Runtime.steps_add (M : FloatOps) {a b : Nat} {r r1 : Runtime}
    (h : Runtime.steps M a r = (r1, none)) :
    Runtime.steps M (a + b) r = Runtime.steps M b r1 := by
  induction a generalizing r with
  | zero => simp [Runtime.steps] at h; subst h; simp
  | succ a ih =>
    rw [Nat.add_right_comm]
    simp only [Runtime.steps] at h ⊢
    rcases hd : r.dispatch M with ⟨r2, _ | e⟩
    · rw [hd] at h; exact ih h
    · rw [hd] at h; simp at h

theorem Runtime.push_ok (r : Runtime) (v : Int) (h0 : 0 ≤ r.SP) (h1 : r.SP < 256) :
    r.push v = ({ r with Stack := Function.update r.Stack r.SP v, SP := r.SP + 1 }, none) := by
  have hne : r.SP ≠ 256 := by omega
  simp [Runtime.push, hne, h0, h1]

theorem Runtime.pop_ok (r : Runtime) (h0 : 0 < r.SP) (h1 : r.SP ≤ 256) :
    r.pop = ({ r with SP := r.SP - 1 }, .ok (r.Stack (r.SP - 1))) := by
  have hne : r.SP ≠ 0 := by omega
  have hw : wrapInt64 (r.SP - 1) = r.SP - 1 := wrapInt64_of_range (by omega) (by omega)
  have hr : 0 ≤ r.SP - 1 ∧ r.SP - 1 < 256 := by omega
  simp [Runtime.pop, hne, hw, hr]

/-- Dispatch of `REPEAT` with a count in range and two free stack slots. -/
theorem Runtime.dispatch_repeat (M : FloatOps) (r : Runtime) (p q : ProgramStep)
    (hp : fetch r.Program r.PC = some p) (hpt : p.Token = .TkIdent)
    (hcmd : ToUpper p.String = "REPEAT".toList)
    (hq : fetch r.Program (r.PC + 1) = some q) (hqt : q.Token = .TkNumber)
    (hn1 : 1 ≤ q.Number) (hn2 : q.Number ≤ 65535) (hs0 : 0 ≤ r.SP) (hs1 : r.SP ≤ 254) :
    ∃ r1, r.dispatch M = (r1, none) ∧ r1.Program = r.Program ∧ r1.PC = r.PC + 2 ∧
      r1.SP = r.SP + 2 ∧ r1.Stack r.SP = r.PC + 2 ∧ r1.Stack (r.SP + 1) = q.Number ∧
      (∀ i, i < r.SP → r1.Stack i = r.Stack i) ∧ r1.observed = r.observed := by
  have hk : mapGet KEYWORDS (ToUpper p.String) = some .REPEAT := by rw [hcmd]; decide
  have hq1 : fetch ({ r with PC := r.PC + 1 } : Runtime).Program
      ({ r with PC := r.PC + 1 } : Runtime).PC = some q := hq
  have hrange : ¬ (q.Number ≤ 0 ∨ q.Number ≥ 65536) := by omega
  rw [Runtime.dispatch_command M hp hpt hk]
  simp only [command, repeatCmd, Runtime.getParam_of_fetch hq1 hqt, hrange, if_false]
  rw [Runtime.push_ok _ _ (by simpa using hs0) (by show r.SP < 256; omega)]
  simp only []
  rw [Runtime.push_ok _ _ (by show 0 ≤ r.SP + 1; omega) (by show r.SP + 1 < 256; omega)]
  refine ⟨_, rfl, rfl, by show r.PC + 1 + 1 = _; omega, by show r.SP + 1 + 1 = _; omega, ?_, ?_,
    ?_, rfl⟩
  · show Function.update (Function.update r.Stack r.SP (r.PC + 1 + 1)) (r.SP + 1) q.Number r.SP = _
    rw [Function.update_noteq (by omega), Function.update_same]; omega
  · show Function.update (Function.update r.Stack r.SP (r.PC + 1 + 1)) (r.SP + 1) q.Number
      (r.SP + 1) = _
    rw [Function.update_same]
  · intro i hi
    show Function.update (Function.update r.Stack r.SP (r.PC + 1 + 1)) (r.SP + 1) q.Number i = _
    rw [Function.update_noteq (by omega), Function.update_noteq (by omega)]

/-- Dispatch of `LOOP` with a count above 1 on top of the stack: the count
goes down by one and the program counter goes to the saved index. -/
theorem Runtime.dispatch_loop_again (M : FloatOps) (r : Runtime) (p : ProgramStep)
    (hp : fetch r.Program r.PC = some p) (hpt : p.Token = .TkIdent)
    (hcmd : ToUpper p.String = "LOOP".toList)
    (hs0 : 2 ≤ r.SP) (hs1 : r.SP ≤ 256)
    (hc1 : 1 < r.Stack (r.SP - 1)) (hc2 : r.Stack (r.SP - 1) ≤ 65535) :
    ∃ r1, r.dispatch M = (r1, none) ∧ r1.Program = r.Program ∧ r1.PC = r.Stack (r.SP - 2) ∧
      r1.SP = r.SP ∧ r1.Stack (r.SP - 2) = r.Stack (r.SP - 2) ∧
      r1.Stack (r.SP - 1) = r.Stack (r.SP - 1) - 1 ∧
      (∀ i, i < r.SP - 2 → r1.Stack i = r.Stack i) ∧ r1.observed = r.observed := by
  have hk : mapGet KEYWORDS (ToUpper p.String) = some .LOOP := by rw [hcmd]; decide
  have hw : wrapInt64 (r.Stack (r.SP - 1) - 1) = r.Stack (r.SP - 1) - 1 :=
    wrapInt64_of_range (by omega) (by omega)
  rw [Runtime.dispatch_command M hp hpt hk]
  simp only [command, loopCmd]
  rw [Runtime.pop_ok _ (by show 0 < r.SP; omega) (by show r.SP ≤ 256; omega)]
  simp only [hw]
  have hpos : r.Stack (r.SP - 1) - 1 > 0 := by omega
  simp only [hpos, if_true]
  rw [Runtime.pop_ok _ (by show 0 < r.SP - 1; omega) (by show r.SP - 1 ≤ 256; omega)]
  simp only []
  rw [Runtime.push_ok _ _ (by show 0 ≤ r.SP - 1 - 1; omega) (by show r.SP - 1 - 1 < 256; omega)]
  simp only []
  rw [Runtime.push_ok _ _ (by show 0 ≤ r.SP - 1 - 1 + 1; omega)
    (by show r.SP - 1 - 1 + 1 < 256; omega)]
  have e1 : r.SP - 1 - 1 = r.SP - 2 := by omega
  have e2 : r.SP - 1 - 1 + 1 = r.SP - 1 := by omega
  refine ⟨_, rfl, rfl, by show r.Stack (r.SP - 1 - 1) = _; rw [e1],
    by show r.SP - 1 - 1 + 1 + 1 = _; omega, ?_, ?_, ?_, rfl⟩
  · show Function.update (Function.update r.Stack (r.SP - 1 - 1) (r.Stack (r.SP - 1 - 1)))
      (r.SP - 1 - 1 + 1) (r.Stack (r.SP - 1) - 1) (r.SP - 2) = _
    rw [Function.update_noteq (by omega), e1, Function.update_same]
  · show Function.update (Function.update r.Stack (r.SP - 1 - 1) (r.Stack (r.SP - 1 - 1)))
      (r.SP - 1 - 1 + 1) (r.Stack (r.SP - 1) - 1) (r.SP - 1) = _
    rw [e2, Function.update_same]
  · intro i hi
    show Function.update (Function.update r.Stack (r.SP - 1 - 1) (r.Stack (r.SP - 1 - 1)))
      (r.SP - 1 - 1 + 1) (r.Stack (r.SP - 1) - 1) i = _
    rw [Function.update_noteq (by omega), Function.update_noteq (by omega)]

/-- Dispatch of `LOOP` with the count 1 on top of the stack: both slots go
and the program counter is on the step after `LOOP`. -/
theorem Runtime.dispatch_loop_done (M : FloatOps) (r : Runtime) (p : ProgramStep)
    (hp : fetch r.Program r.PC = some p) (hpt : p.Token = .TkIdent)
    (hcmd : ToUpper p.String = "LOOP".toList)
    (hs0 : 2 ≤ r.SP) (hs1 : r.SP ≤ 256) (hc : r.Stack (r.SP - 1) = 1) :
    ∃ r1, r.dispatch M = (r1, none) ∧ r1.Program = r.Program ∧ r1.PC = r.PC + 1 ∧
      r1.SP = r.SP - 2 ∧ r1.Stack = r.Stack ∧ r1.observed = r.observed := by
  have hk : mapGet KEYWORDS (ToUpper p.String) = some .LOOP := by rw [hcmd]; decide
  have hw : wrapInt64 (r.Stack (r.SP - 1) - 1) = 0 := by rw [hc]; decide
  rw [Runtime.dispatch_command M hp hpt hk]
  simp only [command, loopCmd]
  rw [Runtime.pop_ok _ (by show 0 < r.SP; omega) (by show r.SP ≤ 256; omega)]
  simp only [hw, gt_iff_lt, lt_self_iff_false, if_false]
  rw [Runtime.pop_ok _ (by show 0 < r.SP - 1; omega) (by show r.SP - 1 ≤ 256; omega)]
  exact ⟨_, rfl, rfl, rfl, by show r.SP - 1 - 1 = _; omega, rfl, rfl⟩

theorem Runtime.not_isEOP_of_lt (r : Runtime) (h : r.PC < (r.Program.length : Int)) :
    r.isEOP = false := by
  have : r.PC ≠ (r.Program.length : Int) := by omega
  simp [Runtime.isEOP, this]

theorem Runtime.rounds_snoc (M : FloatOps) {k : Nat} {r r1 r2 : Runtime}
    (h : Runtime.rounds M k r = some r1) (hd : r1.dispatch M = (r2, none))
    (hne : r2.isEOP = false) : Runtime.rounds M (k + 1) r = some r2 :=
  Runtime.rounds_trans M h (Runtime.rounds_one M hd hne)

theorem loop_iterations (M : FloatOps) (P : List ProgramStep) (a b d : Int)
    (F : Observed → Observed) (pl : ProgramStep)
    (hpl : fetch P b = some pl) (hplt : pl.Token = .TkIdent)
    (hplc : ToUpper pl.String = "LOOP".toList) (hab : a + 2 ≤ b)
    (hd0 : 0 ≤ d) (hd1 : d ≤ 254)
    (Hbody : ∀ s : Runtime, s.Program = P → s.PC = a + 2 → s.SP = d + 2 →
      ∃ k s1, Runtime.rounds M k s = some s1 ∧ s1.Program = P ∧ s1.PC = b ∧ s1.SP = d + 2 ∧
        (∀ i, i < d + 2 → s1.Stack i = s.Stack i) ∧ s1.observed = F s.observed)
    (m : Nat) (hm : m + 1 ≤ 65535) (s : Runtime) (hP : s.Program = P) (hPC : s.PC = a + 2)
    (hSP : s.SP = d + 2) (hsaved : s.Stack d = a + 2) (hcount : s.Stack (d + 1) = ((m + 1 : Nat) : Int)) :
    ∃ k s1 s2, Runtime.rounds M k s = some s1 ∧ s1.dispatch M = (s2, none) ∧ s2.Program = P ∧
      s2.PC = b + 1 ∧ s2.SP = d ∧ (∀ i, i < d → s2.Stack i = s.Stack i) ∧
      s2.observed = F^[m + 1] s.observed := by
  have hblt := (fetch_some_range hpl).2
  induction m generalizing s with
  | zero =>
    obtain ⟨k, t, hk, htP, htPC, htSP, htS, htO⟩ := Hbody s hP hPC hSP
    have hf : fetch t.Program t.PC = some pl := by rw [htP, htPC]; exact hpl
    have e1 : t.SP - 1 = d + 1 := by omega
    obtain ⟨u, hu, huP, huPC, huSP, huS, huO⟩ := Runtime.dispatch_loop_done M t pl hf hplt hplc
      (by omega) (by omega) (by rw [e1, htS _ (by omega), hcount]; rfl)
    refine ⟨k, t, u, hk, hu, by rw [huP, htP], by rw [huPC, htPC], by rw [huSP, htSP]; omega, ?_, ?_⟩
    · intro i hi; rw [huS, htS i (by omega)]
    · rw [huO, htO]; rfl
  | succ m ih =>
    obtain ⟨k, t, hk, htP, htPC, htSP, htS, htO⟩ := Hbody s hP hPC hSP
    have hf : fetch t.Program t.PC = some pl := by rw [htP, htPC]; exact hpl
    have e1 : t.SP - 1 = d + 1 := by omega
    have e2 : t.SP - 2 = d := by omega
    have hc : t.Stack (t.SP - 1) = ((m + 1 + 1 : Nat) : Int) := by
      rw [e1, htS _ (by omega), hcount]
    obtain ⟨u, hu, huP, huPC, huSP, huS1, huS2, huS, huO⟩ :=
      Runtime.dispatch_loop_again M t pl hf hplt hplc (by omega) (by omega)
        (by rw [hc]; push_cast; omega) (by rw [hc]; push_cast; omega)
    rw [e2] at huPC huS1 huS
    rw [e1] at huS2
    have hud : u.Stack d = a + 2 := by rw [huS1, htS _ (by omega), hsaved]
    have huPC' : u.PC = a + 2 := by rw [huPC, htS _ (by omega), hsaved]
    have hune : u.isEOP = false := by
      apply Runtime.not_isEOP_of_lt
      rw [huP, htP, huPC']; omega
    have hr1 := Runtime.rounds_snoc M hk hu hune
    obtain ⟨k2, s1, s2, h1, h2, h3, h4, h5, h6, h7⟩ := ih (by omega) u (by rw [huP, htP]) huPC'
      (by rw [huSP, htSP]) hud (by rw [huS2, htS _ (by omega), hcount]; push_cast; omega)
    refine ⟨k + 1 + k2, s1, s2, Runtime.rounds_trans M hr1 h1, h2, h3, h4, h5, ?_, ?_⟩
    · intro i hi; rw [h6 i hi, huS i hi, htS i (by omega)]
    · rw [h7, huO, htO, ← Function.iterate_succ_apply]

/-- Execution of `REPEAT n <body> LOOP` inside a program, given what the body
does: `REPEAT` is at index `a`, `LOOP` at index `b`, the stack is `d` deep
with two free slots, and from every state at the start of the body the body
runs to `LOOP` keeping the stack up to its own frame and changing what is
observed by `F`.  Then the loop runs to the step after `LOOP`, the stack as
it was, and what is observed has changed by `F` applied `n` times. -/
theorem loop_exec (M : FloatOps) (P : List ProgramStep) (a b d : Int)
    (F : Observed → Observed) (pr pn pl : ProgramStep)
    (hpr : fetch P a = some pr) (hprt : pr.Token = .TkIdent)
    (hprc : ToUpper pr.String = "REPEAT".toList)
    (hpn : fetch P (a + 1) = some pn) (hpnt : pn.Token = .TkNumber)
    (hn1 : 1 ≤ pn.Number) (hn2 : pn.Number ≤ 65535)
    (hpl : fetch P b = some pl) (hplt : pl.Token = .TkIdent)
    (hplc : ToUpper pl.String = "LOOP".toList) (hab : a + 2 ≤ b)
    (hd0 : 0 ≤ d) (hd1 : d ≤ 254)
    (Hbody : ∀ s : Runtime, s.Program = P → s.PC = a + 2 → s.SP = d + 2 →
      ∃ k s1, Runtime.rounds M k s = some s1 ∧ s1.Program = P ∧ s1.PC = b ∧ s1.SP = d + 2 ∧
        (∀ i, i < d + 2 → s1.Stack i = s.Stack i) ∧ s1.observed = F s.observed)
    (r : Runtime) (hP : r.Program = P) (hPC : r.PC = a) (hSP : r.SP = d) :
    ∃ k r1 r2, Runtime.rounds M k r = some r1 ∧ r1.dispatch M = (r2, none) ∧ r2.Program = P ∧
      r2.PC = b + 1 ∧ r2.SP = d ∧ (∀ i, i < d → r2.Stack i = r.Stack i) ∧
      r2.observed = F^[pn.Number.toNat] r.observed := by
  have hblt := (fetch_some_range hpl).2
  obtain ⟨s, hs, hsP, hsPC, hsSP, hsS1, hsS2, hsS, hsO⟩ := Runtime.dispatch_repeat M r pr pn
    (by rw [hP, hPC]; exact hpr) hprt hprc (by rw [hP, hPC]; exact hpn) hpnt hn1 hn2
    (by omega) (by omega)
  rw [hSP] at hsS1 hsS2 hsS hsSP
  rw [hPC] at hsPC hsS1
  have hsne : s.isEOP = false := by
    apply Runtime.not_isEOP_of_lt
    rw [hsP, hP, hsPC]; omega
  have hr1 := Runtime.rounds_one M hs hsne
  obtain ⟨m, hm⟩ : ∃ m : Nat, pn.Number = ((m + 1 : Nat) : Int) :=
    ⟨(pn.Number - 1).toNat, by push_cast; omega⟩
  obtain ⟨k, s1, s2, h1, h2, h3, h4, h5, h6, h7⟩ := loop_iterations M P a b d F pl hpl hplt hplc
    hab hd0 hd1 Hbody m (by omega) s (by rw [hsP, hP]) hsPC hsSP hsS1 (by rw [hsS2, hm])
  refine ⟨1 + k, s1, s2, Runtime.rounds_trans M hr1 h1, h2, h3, h4, h5, ?_, ?_⟩
  · intro i hi; rw [h6 i hi, hsS i hi]
  · rw [h7, hsO, hm]; rfl

theorem fetch_append_cons (A : List ProgramStep) (x : ProgramStep) (rest : List ProgramStep) :
    fetch (A ++ x :: rest) (A.length : Int) = some x := by
  unfold fetch
  rw [if_pos (by omega), Int.toNat_ofNat, List.getElem?_append_right (le_refl _)]
  simp

theorem fetch_append_cons_succ (A : List ProgramStep) (x y : ProgramStep)
    (rest : List ProgramStep) : fetch (A ++ x :: y :: rest) ((A.length : Int) + 1) = some y := by
  have h : ((A.length : Int) + 1) = ((A ++ [x]).length : Int) := by simp
  rw [h]
  have h2 : A ++ x :: y :: rest = (A ++ [x]) ++ y :: rest := by simp
  rw [h2]
  exact fetch_append_cons _ _ _

/-- One simple command in any program context: its dispatch succeeds, moves
the program counter past the command, leaves the stack alone and changes what
is observed by a function of the command alone. -/
theorem simple_chunk (M : FloatOps) (c : List ProgramStep) (hc : simpleCommand c = true) :
    ∃ f : Observed → Observed, ∀ (r : Runtime) (A B : List ProgramStep),
      r.Program = A ++ c ++ B → r.PC = (A.length : Int) →
      ∃ r1, r.dispatch M = (r1, none) ∧ r1.Program = r.Program ∧
        r1.PC = (A.length : Int) + (c.length : Int) ∧ r1.SP = r.SP ∧ r1.Stack = r.Stack ∧
        r1.observed = f r.observed := by
  match c, hc with
  | [], hc => simp [simpleCommand] at hc
  | [p], hc =>
    simp only [simpleCommand, Bool.and_eq_true, decide_eq_true_eq] at hc
    obtain ⟨hpt, hcmd⟩ := hc
    have hk : mapGet KEYWORDS (ToUpper p.String) = some .HOME := by rw [hcmd]; decide
    refine ⟨fun o => { o with Head := { X := 320, Y := 240 }, Calls := o.Calls ++ [.Clear] }, ?_⟩
    intro r A B hP hPC
    have hf : fetch r.Program r.PC = some p := by
      rw [hP, hPC]; simpa using fetch_append_cons A p B
    rw [Runtime.dispatch_command M hf hpt hk]
    exact ⟨_, rfl, rfl, by show r.PC + 1 = _; rw [hPC]; simp, rfl, rfl, rfl⟩
  | [p, q], hc =>
    simp only [simpleCommand, Bool.and_eq_true, Bool.or_eq_true, decide_eq_true_eq] at hc
    obtain ⟨hpt, hc⟩ := hc
    have hfetch : ∀ (r : Runtime) (A B : List ProgramStep), r.Program = A ++ [p, q] ++ B →
        r.PC = (A.length : Int) → fetch r.Program r.PC = some p ∧
          fetch ({ r with PC := r.PC + 1 } : Runtime).Program
            ({ r with PC := r.PC + 1 } : Runtime).PC = some q := by
      intro r A B hP hPC
      constructor
      · rw [hP, hPC]; simpa using fetch_append_cons A p (q :: B)
      · show fetch r.Program (r.PC + 1) = some q
        rw [hP, hPC]; simpa using fetch_append_cons_succ A p q B
    have hpc : ∀ (r : Runtime) (A : List ProgramStep), r.PC = (A.length : Int) →
        r.PC + 1 + 1 = (A.length : Int) + (([p, q] : List ProgramStep).length : Int) := by
      intro r A h; rw [h]; simp; omega
    rcases hc with (⟨⟨hcmd, hqt⟩, hcol⟩ | ⟨⟨hcmd, hqt⟩, hval⟩) | ⟨hcmd, hqt⟩
    · obtain ⟨col, hcol⟩ := Option.isSome_iff_exists.mp hcol
      rcases hcmd with hcmd | hcmd
      · have hk : mapGet KEYWORDS (ToUpper p.String) = some .PAPER := by rw [hcmd]; decide
        refine ⟨fun o => { o with Paper := col }, ?_⟩
        intro r A B hP hPC
        obtain ⟨hf, hf1⟩ := hfetch r A B hP hPC
        rw [Runtime.dispatch_command M hf hpt hk]
        simp only [command, paperCmd, Runtime.getColor, Runtime.getParam_of_fetch hf1 hqt, hcol]
        exact ⟨_, rfl, rfl, hpc r A hPC, rfl, rfl, rfl⟩
      · have hk : mapGet KEYWORDS (ToUpper p.String) = some .INK := by rw [hcmd]; decide
        refine ⟨fun o => { o with Ink := col }, ?_⟩
        intro r A B hP hPC
        obtain ⟨hf, hf1⟩ := hfetch r A B hP hPC
        rw [Runtime.dispatch_command M hf hpt hk]
        simp only [command, inkCmd, Runtime.getColor, Runtime.getParam_of_fetch hf1 hqt, hcol]
        exact ⟨_, rfl, rfl, hpc r A hPC, rfl, rfl, rfl⟩
    · have hk : mapGet KEYWORDS (ToUpper p.String) = some .PEN := by rw [hcmd]; decide
      refine ⟨fun o => { o with PenDown := decide (ToUpper q.String = "DOWN".toList) }, ?_⟩
      intro r A B hP hPC
      obtain ⟨hf, hf1⟩ := hfetch r A B hP hPC
      rw [Runtime.dispatch_command M hf hpt hk]
      simp only [command, penCmd, Runtime.getParam_of_fetch hf1 hqt, hval, if_true]
      exact ⟨_, rfl, rfl, hpc r A hPC, rfl, rfl, rfl⟩
    · rcases hcmd with hcmd | hcmd | hcmd | hcmd
      · have hk : mapGet KEYWORDS (ToUpper p.String) = some .FORWARD := by rw [hcmd]; decide
        refine ⟨fun o =>
          { o with
            Head := { X := wrapInt32 (o.Head.X + M.forwardDx q.Number o.Angle),
                      Y := wrapInt32 (o.Head.Y + M.forwardDy q.Number o.Angle) },
            Calls := if o.PenDown then o.Calls ++
              [.DrawLine o.Head.X o.Head.Y (wrapInt32 (o.Head.X + M.forwardDx q.Number o.Angle))
                (wrapInt32 (o.Head.Y + M.forwardDy q.Number o.Angle))] else o.Calls }, ?_⟩
        intro r A B hP hPC
        obtain ⟨hf, hf1⟩ := hfetch r A B hP hPC
        rw [Runtime.dispatch_command M hf hpt hk]
        simp only [command, forwardCmd, Runtime.getParam_of_fetch hf1 hqt]
        refine ⟨_, rfl, ?_, ?_, ?_, ?_, ?_⟩ <;> cases hpen : r.PenDown <;>
          simp [hpen, Runtime.observed, hpc r A hPC]
      · have hk : mapGet KEYWORDS (ToUpper p.String) = some .BACK := by rw [hcmd]; decide
        refine ⟨fun o =>
          { o with
            Head := { X := wrapInt32 (o.Head.X - M.backDx q.Number o.Angle),
                      Y := wrapInt32 (o.Head.Y - M.backDy q.Number o.Angle) },
            Calls := if o.PenDown then o.Calls ++
              [.DrawLine o.Head.X o.Head.Y (wrapInt32 (o.Head.X - M.backDx q.Number o.Angle))
                (wrapInt32 (o.Head.Y - M.backDy q.Number o.Angle))] else o.Calls }, ?_⟩
        intro r A B hP hPC
        obtain ⟨hf, hf1⟩ := hfetch r A B hP hPC
        rw [Runtime.dispatch_command M hf hpt hk]
        simp only [command, backCmd, Runtime.getParam_of_fetch hf1 hqt]
        refine ⟨_, rfl, ?_, ?_, ?_, ?_, ?_⟩ <;> cases hpen : r.PenDown <;>
          simp [hpen, Runtime.observed, hpc r A hPC]
      · have hk : mapGet KEYWORDS (ToUpper p.String) = some .LEFT := by rw [hcmd]; decide
        refine ⟨fun o => { o with Angle := (wrapInt64 (o.Angle + q.Number)).tmod 360 }, ?_⟩
        intro r A B hP hPC
        obtain ⟨hf, hf1⟩ := hfetch r A B hP hPC
        rw [Runtime.dispatch_command M hf hpt hk]
        simp only [command, leftCmd, Runtime.getParam_of_fetch hf1 hqt]
        exact ⟨_, rfl, rfl, hpc r A hPC, rfl, rfl, rfl⟩
      · have hk : mapGet KEYWORDS (ToUpper p.String) = some .RIGHT := by rw [hcmd]; decide
        refine ⟨fun o => { o with Angle := (wrapInt64 (o.Angle - q.Number)).tmod 360 }, ?_⟩
        intro r A B hP hPC
        obtain ⟨hf, hf1⟩ := hfetch r A B hP hPC
        rw [Runtime.dispatch_command M hf hpt hk]
        simp only [command, rightCmd, Runtime.getParam_of_fetch hf1 hqt]
        exact ⟨_, rfl, rfl, hpc r A hPC, rfl, rfl, rfl⟩
  | _ :: _ :: _ :: _, hc => simp [simpleCommand] at hc

theorem Runtime.steps_one (M : FloatOps) {r r1 : Runtime} (h : r.dispatch M = (r1, none)) :
    Runtime.steps M 1 r = (r1, none) := by
  simp [Runtime.steps, h]

/-- A body of simple commands in any program context: it runs in one round
per command, moves the program counter past the body, leaves the stack alone
and changes what is observed by a function of the body alone. -/
theorem simple_body (M : FloatOps) (cmds : List (List ProgramStep))
    (hcmds : ∀ c ∈ cmds, simpleCommand c = true) :
    ∃ F : Observed → Observed, ∀ (r : Runtime) (A B : List ProgramStep),
      r.Program = A ++ cmds.flatten ++ B → r.PC = (A.length : Int) →
      ∃ r1, Runtime.steps M cmds.length r = (r1, none) ∧
        (B ≠ [] → Runtime.rounds M cmds.length r = some r1) ∧ r1.Program = r.Program ∧
        r1.PC = (A.length : Int) + (cmds.flatten.length : Int) ∧ r1.SP = r.SP ∧
        r1.Stack = r.Stack ∧ r1.observed = F r.observed := by
  induction cmds with
  | nil =>
    refine ⟨id, ?_⟩
    intro r A B _ hPC
    exact ⟨r, rfl, fun _ => rfl, rfl, by simp [hPC], rfl, rfl, rfl⟩
  | cons c cs ih =>
    obtain ⟨f, hf⟩ := simple_chunk M c (hcmds c (List.mem_cons_self _ _))
    obtain ⟨F, hF⟩ := ih (fun c' hc' => hcmds c' (List.mem_cons_of_mem _ hc'))
    refine ⟨fun o => F (f o), ?_⟩
    intro r A B hP hPC
    have hP1 : r.Program = A ++ c ++ (cs.flatten ++ B) := by
      rw [hP, List.flatten_cons]; simp
    obtain ⟨r1, hd, h1P, h1PC, h1SP, h1S, h1O⟩ := hf r A (cs.flatten ++ B) hP1 hPC
    have hP2 : r1.Program = (A ++ c) ++ cs.flatten ++ B := by
      rw [h1P, hP1]; simp
    have hPC2 : r1.PC = ((A ++ c).length : Int) := by rw [h1PC]; simp
    obtain ⟨r2, hs, hr, h2P, h2PC, h2SP, h2S, h2O⟩ := hF r1 (A ++ c) B hP2 hPC2
    have hlen : (c :: cs).length = 1 + cs.length := by simp [Nat.add_comm]
    refine ⟨r2, ?_, ?_, by rw [h2P, h1P], ?_, by rw [h2SP, h1SP], by rw [h2S, h1S],
      by rw [h2O, h1O]⟩
    · rw [hlen, Runtime.steps_add M (Runtime.steps_one M hd)]
      exact hs
    · intro hB
      have hne : r1.isEOP = false := by
        apply Runtime.not_isEOP_of_lt
        rw [hPC2, hP2]
        have : 0 < B.length := List.length_pos.mpr hB
        simp only [List.length_append]
        omega
      rw [hlen]
      exact Runtime.rounds_trans M (Runtime.rounds_one M hd hne) (hr hB)
    · rw [h2PC]
      simp only [List.length_append, List.flatten_cons]
      push_cast
      omega

theorem repeated_body (M : FloatOps) (body : List ProgramStep) (m : Nat)
    (F : Observed → Observed)
    (H : ∀ (r : Runtime) (A B : List ProgramStep), r.Program = A ++ body ++ B →
      r.PC = (A.length : Int) →
      ∃ r1, Runtime.steps M m r = (r1, none) ∧ r1.Program = r.Program ∧
        r1.PC = (A.length : Int) + (body.length : Int) ∧ r1.observed = F r.observed)
    (n : Nat) (r : Runtime) (A B : List ProgramStep)
    (hP : r.Program = A ++ (List.replicate n body).flatten ++ B) (hPC : r.PC = (A.length : Int)) :
    ∃ r1, Runtime.steps M (n * m) r = (r1, none) ∧ r1.Program = r.Program ∧
      r1.PC = (A.length : Int) + ((List.replicate n body).flatten.length : Int) ∧
      r1.observed = F^[n] r.observed := by
  induction n generalizing r A with
  | zero =>
    exact ⟨r, by simp [Runtime.steps], rfl, by simp [hPC], rfl⟩
  | succ n ih =>
    have hrep : (List.replicate (n + 1) body).flatten = body ++ (List.replicate n body).flatten := by
      rw [List.replicate_succ, List.flatten_cons]
    rw [hrep] at hP ⊢
    obtain ⟨r1, h1, h1P, h1PC, h1O⟩ := H r A ((List.replicate n body).flatten ++ B)
      (by rw [hP]; simp) hPC
    obtain ⟨r2, h2, h2P, h2PC, h2O⟩ := ih r1 (A ++ body) (by rw [h1P, hP]; simp)
      (by rw [h1PC]; simp)
    refine ⟨r2, ?_, by rw [h2P, h1P], ?_, ?_⟩
    · have : (n + 1) * m = m + n * m := by ring
      rw [this, Runtime.steps_add M h1]
      exact h2
    · rw [h2PC]; simp only [List.length_append]; push_cast; omega
    · rw [h2O, h1O, Function.iterate_succ_apply]

/-- C1. `REPEAT n <body> LOOP` in the interpreter, for a count `n` from 1 to
65535 and a body of simple commands (no `REPEAT`, no `LOOP`, every parameter
accepted), anywhere in a program (`pre` before it, `post` after it), from any
state at the `REPEAT` whose stack has two free slots.  The dispatch loop of
`Run` gets, without a panic, to a state `r'` on the step after `LOOP` (where
it ends when nothing follows), with the stack depth and the slots below it
as before the `REPEAT`.  The program made of `n` copies of the body, run from
the same turtle state, gets without a panic to its end in a state `s'`; and
`r'` and `s'` show the same turtle state and the same log of stub calls. -/
theorem repeat_runs_body_n_times (M : FloatOps) (cmds : List (List ProgramStep))
    (pre post : List ProgramStep) (pr pn pl : ProgramStep) (r : Runtime)
    (hcmds : ∀ c ∈ cmds, simpleCommand c = true)
    (hprt : pr.Token = .TkIdent) (hprc : ToUpper pr.String = "REPEAT".toList)
    (hpnt : pn.Token = .TkNumber) (hn1 : 1 ≤ pn.Number) (hn2 : pn.Number ≤ 65535)
    (hplt : pl.Token = .TkIdent) (hplc : ToUpper pl.String = "LOOP".toList)
    (hP : r.Program = pre ++ pr :: pn :: (cmds.flatten ++ pl :: post))
    (hPC : r.PC = (pre.length : Int)) (hs0 : 0 ≤ r.SP) (hs1 : r.SP ≤ 254) :
    ∃ (k : Nat) (r' s' : Runtime),
      (∀ fuel, Runtime.runLoop M (k + fuel) r =
        if post = [] then (r', .done) else Runtime.runLoop M fuel r') ∧
      r'.Program = r.Program ∧
      r'.PC = (pre.length : Int) + 2 + (cmds.flatten.length : Int) + 1 ∧
      r'.SP = r.SP ∧ (∀ i, i < r.SP → r'.Stack i = r.Stack i) ∧
      Runtime.steps M (pn.Number.toNat * cmds.length)
        { r with Program := (List.replicate pn.Number.toNat cmds.flatten).flatten, PC := 0 } =
          (s', none) ∧
      s'.PC = ((List.replicate pn.Number.toNat cmds.flatten).flatten.length : Int) ∧
      r'.observed = s'.observed := by
  obtain ⟨F, hF⟩ := simple_body M cmds hcmds
  have hfr : fetch r.Program (pre.length : Int) = some pr := by
    rw [hP]; exact fetch_append_cons _ _ _
  have hfn : fetch r.Program ((pre.length : Int) + 1) = some pn := by
    rw [hP]; exact fetch_append_cons_succ _ _ _ _
  have hP2 : r.Program = (pre ++ [pr, pn]) ++ cmds.flatten ++ pl :: post := by
    rw [hP]; simp
  have hP3 : r.Program = ((pre ++ [pr, pn]) ++ cmds.flatten) ++ pl :: post := hP2
  have hlen3 : ((((pre ++ [pr, pn]) ++ cmds.flatten).length : Nat) : Int) =
      (pre.length : Int) + 2 + (cmds.flatten.length : Int) := by
    simp only [List.length_append, List.length_cons, List.length_nil]; push_cast; omega
  have hfl : fetch r.Program ((pre.length : Int) + 2 + (cmds.flatten.length : Int)) = some pl := by
    rw [← hlen3, hP3]; exact fetch_append_cons _ _ _
  have hbody : ∀ s : Runtime, s.Program = r.Program → s.PC = (pre.length : Int) + 2 →
      s.SP = r.SP + 2 →
      ∃ k s1, Runtime.rounds M k s = some s1 ∧ s1.Program = r.Program ∧
        s1.PC = (pre.length : Int) + 2 + (cmds.flatten.length : Int) ∧ s1.SP = r.SP + 2 ∧
        (∀ i, i < r.SP + 2 → s1.Stack i = s.Stack i) ∧ s1.observed = F s.observed := by
    intro s hsP hsPC hsSP
    obtain ⟨s1, _, h2, h3, h4, h5, h6, h7⟩ := hF s (pre ++ [pr, pn]) (pl :: post)
      (by rw [hsP, hP2]) (by rw [hsPC]; simp)
    refine ⟨cmds.length, s1, h2 (by simp), by rw [h3, hsP], ?_, by rw [h5, hsSP],
      fun i _ => by rw [h6], h7⟩
    rw [h4]; simp only [List.length_append, List.length_cons, List.length_nil]; push_cast; omega
  obtain ⟨k, r1, r2, hk, hd, h2P, h2PC, h2SP, h2S, h2O⟩ := loop_exec M r.Program
    (pre.length : Int) ((pre.length : Int) + 2 + (cmds.flatten.length : Int)) r.SP F pr pn pl
    hfr hprt hprc hfn hpnt hn1 hn2 hfl hplt hplc (by omega) hs0 hs1 hbody r rfl hPC rfl
  obtain ⟨s', hs1', _, hs3, hs4⟩ := repeated_body M cmds.flatten cmds.length F
    (fun r0 A B h1 h2 => by
      obtain ⟨x, hx1, _, hx3, hx4, _, _, hx7⟩ := hF r0 A B h1 h2
      exact ⟨x, hx1, hx3, hx4, hx7⟩)
    pn.Number.toNat
    { r with Program := (List.replicate pn.Number.toNat cmds.flatten).flatten, PC := 0 } [] []
    (by simp) (by simp)
  refine ⟨k + 1, r2, s', ?_, h2P, h2PC, h2SP, h2S, hs1', by simpa using hs3, ?_⟩
  · intro fuel
    have e : k + 1 + fuel = k + (fuel + 1) := by omega
    rw [e, Runtime.runLoop_rounds M hk, Runtime.runLoop, hd]
    have hlenP : (r.Program.length : Int) =
        (pre.length : Int) + 2 + (cmds.flatten.length : Int) + 1 + (post.length : Int) := by
      rw [hP]; simp only [List.length_append, List.length_cons]; push_cast; omega
    by_cases hpost : post = []
    · have : r2.isEOP = true := by
        simp only [Runtime.isEOP, decide_eq_true_eq, h2P, h2PC, hlenP, hpost, List.length_nil]
        push_cast; omega
      simp [this, hpost]
    · have hpos : 0 < post.length := List.length_pos.mpr hpost
      have : r2.isEOP = false := by
        apply Runtime.not_isEOP_of_lt
        rw [h2P, h2PC, hlenP]; omega
      simp [this, hpost]
  · rw [h2O, hs4]; rfl

/-- Instance of `repeat_runs_body_n_times`: from the fresh runtime with the
pen down, `REPEAT 3 FORWARD 10 LOOP` ends without a panic, the stack empty
again, and shows what the program `FORWARD 10 FORWARD 10 FORWARD 10` shows
after its three rounds. -/
theorem repeat_runs_body_n_times_witness :
    ∃ k : Nat, (Runtime.runLoop axisFloatOps k sampleLoopState).2 = .done ∧
      (Runtime.runLoop axisFloatOps k sampleLoopState).1.SP = 0 ∧
      (Runtime.runLoop axisFloatOps k sampleLoopState).1.observed =
        (Runtime.steps axisFloatOps 3
          { sampleLoopState with
            Program := (List.replicate 3 [mkIdent "FORWARD".toList 1, mkNumber 10 1]).flatten,
            PC := 0 }).1.observed := by
  obtain ⟨k, r', s', h1, _, _, h4, _, h6, _, h8⟩ := repeat_runs_body_n_times axisFloatOps
    [[mkIdent "FORWARD".toList 1, mkNumber 10 1]] [] [] (mkIdent "REPEAT".toList 1)
    (mkNumber 3 1) (mkIdent "LOOP".toList 1) sampleLoopState (by decide) (by decide) (by decide)
    (by decide) (by decide) (by decide) (by decide) (by decide) (by decide) (by decide)
    (by decide) (by decide)
  have hr := h1 0
  simp only [Nat.add_zero, if_true] at hr
  refine ⟨k, by rw [hr], by rw [hr]; exact h4, ?_⟩
  rw [hr]
  have hs : Runtime.steps axisFloatOps 3
      { sampleLoopState with
        Program := (List.replicate 3 [mkIdent "FORWARD".toList 1, mkNumber 10 1]).flatten,
        PC := 0 } = (s', none) := h6
  rw [hs]
  exact h8

theorem repeats_length (counts : List Int) : (repeats counts).length = 2 * counts.length := by
  induction counts with
  | nil => rfl
  | cons n ns ih => simp only [repeats, List.length_cons, ih]; omega

theorem repeats_getElem (counts : List Int) (j : Nat) (n : Int) (h : counts[j]? = some n) :
    (repeats counts)[2 * j]? = some (mkIdent "REPEAT".toList 1) ∧
    (repeats counts)[2 * j + 1]? = some (mkNumber n 1) := by
  induction counts generalizing j with
  | nil => simp at h
  | cons c cs ih =>
    cases j with
    | zero =>
      simp only [List.getElem?_cons_zero, Option.some.injEq] at h
      subst h
      exact ⟨rfl, by simp [repeats]⟩
    | succ j =>
      simp only [List.getElem?_cons_succ] at h
      obtain ⟨h1, h2⟩ := ih j h
      have e1 : 2 * (j + 1) = (2 * j + 1) + 1 := by omega
      have e2 : 2 * (j + 1) + 1 = (2 * j + 1 + 1) + 1 := by omega
      constructor
      · rw [e1]; simp only [repeats, List.getElem?_cons_succ]; exact h1
      · rw [e2]; simp only [repeats, List.getElem?_cons_succ]; exact h2

theorem nestProgram_length (counts : List Int) :
    (nestProgram counts).length = 3 * counts.length := by
  simp only [nestProgram, List.length_append, repeats_length, List.length_replicate]; omega

theorem nestProgram_fetch_repeat (counts : List Int) (j : Nat) (n : Int)
    (h : counts[j]? = some n) :
    fetch (nestProgram counts) (2 * (j : Int)) = some (mkIdent "REPEAT".toList 1) ∧
    fetch (nestProgram counts) (2 * (j : Int) + 1) = some (mkNumber n 1) := by
  obtain ⟨h1, h2⟩ := repeats_getElem counts j n h
  have hj : j < counts.length := (List.getElem?_eq_some_iff.mp h).1
  have hl := repeats_length counts
  have e1 : (2 * (j : Int)).toNat = 2 * j := by omega
  have e2 : (2 * (j : Int) + 1).toNat = 2 * j + 1 := by omega
  constructor
  · unfold fetch nestProgram
    rw [if_pos (by omega), e1, List.getElem?_append_left (by omega)]
    exact h1
  · unfold fetch nestProgram
    rw [if_pos (by omega), e2, List.getElem?_append_left (by omega)]
    exact h2

theorem nestProgram_fetch_loop (counts : List Int) (i : Int) (h0 : 2 * (counts.length : Int) ≤ i)
    (h1 : i < 3 * (counts.length : Int)) :
    fetch (nestProgram counts) i = some (mkIdent "LOOP".toList 1) := by
  have hl := repeats_length counts
  unfold fetch nestProgram
  rw [if_pos (by omega), List.getElem?_append_right (by omega), List.getElem?_replicate,
    if_pos (by omega)]

/-- The loop of level `j` of a nest of `k` loops, `m` levels above the
innermost: from the state on its `REPEAT` with the stack `2 * j` deep it runs
to the step after its `LOOP`, the stack as it was. -/
theorem nest_level (M : FloatOps) (counts : List Int)
    (hvalid : ∀ n ∈ counts, 1 ≤ n ∧ n ≤ 65535) (hk : counts.length ≤ 128)
    (m j : Nat) (hj : j + m + 1 = counts.length) :
    ∃ G : Observed → Observed, ∀ s : Runtime, s.Program = nestProgram counts →
      s.PC = 2 * (j : Int) → s.SP = 2 * (j : Int) →
      ∃ k s1 s2, Runtime.rounds M k s = some s1 ∧ s1.dispatch M = (s2, none) ∧
        s2.Program = nestProgram counts ∧ s2.PC = 3 * (counts.length : Int) - (j : Int) ∧
        s2.SP = 2 * (j : Int) ∧ (∀ i, i < 2 * (j : Int) → s2.Stack i = s.Stack i) ∧
        s2.observed = G s.observed := by
  induction m generalizing j with
  | zero =>
    have hlt : j < counts.length := by omega
    obtain ⟨n, hn⟩ : ∃ n, counts[j]? = some n := ⟨counts[j], List.getElem?_eq_getElem hlt⟩
    obtain ⟨hr, hc⟩ := nestProgram_fetch_repeat counts j n hn
    have hv := hvalid n (List.getElem?_mem hn)
    have hl := nestProgram_fetch_loop counts (2 * (j : Int) + 2) (by omega) (by omega)
    refine ⟨id^[n.toNat], ?_⟩
    intro s hP hPC hSP
    obtain ⟨k, s1, s2, h1, h2, h3, h4, h5, h6, h7⟩ := loop_exec M (nestProgram counts)
      (2 * (j : Int)) (2 * (j : Int) + 2) (2 * (j : Int)) id _ _ _ hr rfl (by decide) hc rfl
      hv.1 hv.2 hl rfl (by decide) (by omega) (by omega) (by omega)
      (fun t htP htPC htSP => ⟨0, t, rfl, htP, htPC, htSP, fun _ _ => rfl, rfl⟩) s hP hPC hSP
    exact ⟨k, s1, s2, h1, h2, h3, by rw [h4]; omega, h5, h6, h7⟩
  | succ m ih =>
    have hlt : j < counts.length := by omega
    obtain ⟨n, hn⟩ : ∃ n, counts[j]? = some n := ⟨counts[j], List.getElem?_eq_getElem hlt⟩
    obtain ⟨hr, hc⟩ := nestProgram_fetch_repeat counts j n hn
    have hv := hvalid n (List.getElem?_mem hn)
    have hl := nestProgram_fetch_loop counts (3 * (counts.length : Int) - (j : Int) - 1)
      (by omega) (by omega)
    obtain ⟨G, hG⟩ := ih (j + 1) (by omega)
    refine ⟨G^[n.toNat], ?_⟩
    intro s hP hPC hSP
    have hbody : ∀ t : Runtime, t.Program = nestProgram counts → t.PC = 2 * (j : Int) + 2 →
        t.SP = 2 * (j : Int) + 2 →
        ∃ k t1, Runtime.rounds M k t = some t1 ∧ t1.Program = nestProgram counts ∧
          t1.PC = 3 * (counts.length : Int) - (j : Int) - 1 ∧ t1.SP = 2 * (j : Int) + 2 ∧
          (∀ i, i < 2 * (j : Int) + 2 → t1.Stack i = t.Stack i) ∧ t1.observed = G t.observed := by
      intro t htP htPC htSP
      obtain ⟨k, t1, t2, h1, h2, h3, h4, h5, h6, h7⟩ := hG t htP (by rw [htPC]; push_cast; omega)
        (by rw [htSP]; push_cast; omega)
      have hne : t2.isEOP = false := by
        apply Runtime.not_isEOP_of_lt
        rw [h3, h4, nestProgram_length]; push_cast; omega
      exact ⟨k + 1, t2, Runtime.rounds_snoc M h1 h2 hne, h3, by rw [h4]; push_cast; omega,
        by rw [h5]; push_cast; omega, fun i hi => h6 i (by push_cast; omega), h7⟩
    obtain ⟨k, s1, s2, h1, h2, h3, h4, h5, h6, h7⟩ := loop_exec M (nestProgram counts)
      (2 * (j : Int)) (3 * (counts.length : Int) - (j : Int) - 1) (2 * (j : Int)) G _ _ _ hr rfl
      (by decide) hc rfl hv.1 hv.2 hl rfl (by decide) (by omega) (by omega) (by omega)
      hbody s hP hPC hSP
    exact ⟨k, s1, s2, h1, h2, h3, by rw [h4]; omega, h5, h6, h7⟩

/-- Dispatch of `REPEAT` with a count in range on a full stack. -/
theorem Runtime.dispatch_repeat_overflow (M : FloatOps) (r : Runtime) (p q : ProgramStep)
    (hp : fetch r.Program r.PC = some p) (hpt : p.Token = .TkIdent)
    (hcmd : ToUpper p.String = "REPEAT".toList)
    (hq : fetch r.Program (r.PC + 1) = some q) (hqt : q.Token = .TkNumber)
    (hn1 : 1 ≤ q.Number) (hn2 : q.Number ≤ 65535) (hs : r.SP = 256) :
    r.dispatch M = ({ r with PC := r.PC + 1 + 1 }, some .stackOverflow) := by
  have hk : mapGet KEYWORDS (ToUpper p.String) = some .REPEAT := by rw [hcmd]; decide
  have hq1 : fetch ({ r with PC := r.PC + 1 } : Runtime).Program
      ({ r with PC := r.PC + 1 } : Runtime).PC = some q := hq
  have hrange : ¬ (q.Number ≤ 0 ∨ q.Number ≥ 65536) := by omega
  rw [Runtime.dispatch_command M hp hpt hk]
  simp only [command, repeatCmd, Runtime.getParam_of_fetch hq1 hqt, hrange, if_false]
  simp [Runtime.push, hs]

/-- The first `j` rounds of a nest of loops from an empty stack, for `j` up
to 128: each dispatches a `REPEAT`, and the stack is `2 * j` deep. -/
theorem nest_opens (M : FloatOps) (counts : List Int)
    (hvalid : ∀ n ∈ counts, 1 ≤ n ∧ n ≤ 65535) (r : Runtime)
    (hP : r.Program = nestProgram counts) (hPC : r.PC = 0) (hSP : r.SP = 0)
    (j : Nat) (hj : j ≤ counts.length) (hj2 : j ≤ 128) :
    ∃ r1, Runtime.rounds M j r = some r1 ∧ r1.Program = nestProgram counts ∧
      r1.PC = 2 * (j : Int) ∧ r1.SP = 2 * (j : Int) := by
  induction j with
  | zero => exact ⟨r, rfl, hP, by simpa using hPC, by simpa using hSP⟩
  | succ j ih =>
    obtain ⟨r1, h1, h1P, h1PC, h1SP⟩ := ih (by omega) (by omega)
    have hlt : j < counts.length := by omega
    obtain ⟨n, hn⟩ : ∃ n, counts[j]? = some n := ⟨counts[j], List.getElem?_eq_getElem hlt⟩
    obtain ⟨hr, hc⟩ := nestProgram_fetch_repeat counts j n hn
    have hv := hvalid n (List.getElem?_mem hn)
    obtain ⟨r2, h2, h2P, h2PC, h2SP, _⟩ := Runtime.dispatch_repeat M r1 _ _
      (by rw [h1P, h1PC]; exact hr) rfl (by decide) (by rw [h1P, h1PC]; exact hc) rfl hv.1 hv.2
      (by omega) (by omega)
    have hne : r2.isEOP = false := by
      apply Runtime.not_isEOP_of_lt
      rw [h2P, h1P, h2PC, h1PC, nestProgram_length]; push_cast; omega
    exact ⟨r2, Runtime.rounds_snoc M h1 h2 hne, by rw [h2P, h1P], by rw [h2PC, h1PC]; push_cast; omega,
      by rw [h2SP, h1SP]; push_cast; omega⟩

/-- C7. Nested loops and the capacity of the stack.  Take the program
`REPEAT n1 ... REPEAT nk LOOP ... LOOP` with every count from 1 to 65535 and
a runtime at its start with an empty stack.  For `k` from 1 to 128 the
dispatch loop ends without a panic, the stack empty again.  For `k` of 129
or more the first 128 rounds succeed and leave the stack 256 deep with the
program counter on the 129th `REPEAT`, whose dispatch panics with "stack
overflow".  In any runtime whose stack depth is from 0 to 256, `push` fails
if and only if the depth is 256, and then with "stack overflow". -/
theorem nested_repeat_capacity (M : FloatOps) (counts : List Int) (r : Runtime) (v : Int)
    (hvalid : ∀ n ∈ counts, 1 ≤ n ∧ n ≤ 65535)
    (hP : r.Program = nestProgram counts) (hPC : r.PC = 0) (hSP : r.SP = 0) :
    (1 ≤ counts.length → counts.length ≤ 128 →
      ∃ fuel r1, Runtime.runLoop M fuel r = (r1, .done) ∧ r1.SP = 0) ∧
    (129 ≤ counts.length →
      ∃ r1 r2, Runtime.rounds M 128 r = some r1 ∧ r1.PC = 256 ∧ r1.SP = 256 ∧
        fetch r1.Program r1.PC = some (mkIdent "REPEAT".toList 1) ∧
        r1.dispatch M = (r2, some .stackOverflow) ∧
        Runtime.runLoop M 129 r = (r2, .panicked .stackOverflow)) ∧
    (∀ t : Runtime, 0 ≤ t.SP → t.SP ≤ 256 →
      ((t.push v).2 ≠ none ↔ t.SP = 256) ∧ (t.SP = 256 → (t.push v).2 = some .stackOverflow)) := by
  refine ⟨?_, ?_, ?_⟩
  · intro hk1 hk2
    obtain ⟨G, hG⟩ := nest_level M counts hvalid hk2 (counts.length - 1) 0 (by omega)
    obtain ⟨k, s1, s2, h1, h2, h3, h4, h5, _, _⟩ := hG r hP (by simpa using hPC)
      (by simpa using hSP)
    refine ⟨k + 1, s2, ?_, by simpa using h5⟩
    have he : s2.isEOP = true := by
      simp only [Runtime.isEOP, decide_eq_true_eq, h3, h4, nestProgram_length]
      push_cast; omega
    have := Runtime.runLoop_rounds M h1 1
    rw [this, Runtime.runLoop, h2]
    simp [he]
  · intro hk
    obtain ⟨r1, h1, h1P, h1PC, h1SP⟩ := nest_opens M counts hvalid r hP hPC hSP 128 (by omega)
      (by omega)
    have hlt : 128 < counts.length := by omega
    obtain ⟨n, hn⟩ : ∃ n, counts[128]? = some n := ⟨counts[128], List.getElem?_eq_getElem hlt⟩
    obtain ⟨hr, hc⟩ := nestProgram_fetch_repeat counts 128 n hn
    have hv := hvalid n (List.getElem?_mem hn)
    have hf : fetch r1.Program r1.PC = some (mkIdent "REPEAT".toList 1) := by
      rw [h1P, h1PC]; exact hr
    have hd := Runtime.dispatch_repeat_overflow M r1 _ _ hf rfl (by decide)
      (by rw [h1P, h1PC]; exact hc) rfl hv.1 hv.2 (by rw [h1SP]; norm_num)
    refine ⟨r1, _, h1, by rw [h1PC]; norm_num, by rw [h1SP]; norm_num, hf, hd, ?_⟩
    have := Runtime.runLoop_rounds M h1 1
    rw [this]
    exact Runtime.runLoop_fault M hd 0
  · intro t h0 h1
    by_cases hs : t.SP = 256
    · simp [Runtime.push, hs]
    · have hlt : t.SP < 256 := by omega
      simp [Runtime.push, hs, h0, hlt]

/-- Instance of `nested_repeat_capacity`: two nested loops end without a
panic; 129 nested loops panic with "stack overflow" in round 129; a push on
a stack 256 deep fails with "stack overflow". -/
theorem nested_repeat_capacity_witness :
    (∃ fuel, (Runtime.runLoop axisFloatOps fuel sampleNestState).2 = .done) ∧
    (Runtime.runLoop axisFloatOps 129 sampleDeepState).2 = .panicked .stackOverflow ∧
    (({ NewRuntime with SP := 256 } : Runtime).push 7).2 = some .stackOverflow := by
  have hmem : ∀ n ∈ List.replicate 129 (1 : Int), 1 ≤ n ∧ n ≤ 65535 := by
    intro n hn
    rw [List.eq_of_mem_replicate hn]
    decide
  obtain ⟨h1, _, _⟩ := nested_repeat_capacity axisFloatOps [2, 3] sampleNestState 7
    (by decide) rfl rfl rfl
  obtain ⟨_, h2, h3⟩ := nested_repeat_capacity axisFloatOps (List.replicate 129 1)
    sampleDeepState 7 hmem rfl rfl rfl
  obtain ⟨fuel, r1, hr, _⟩ := h1 (by decide) (by decide)
  obtain ⟨r1', r2', _, _, _, _, _, hrun⟩ := h2 (by simp)
  refine ⟨⟨fuel, by rw [hr]⟩, by rw [hrun], ?_⟩
  exact (h3 { NewRuntime with SP := 256 } (by decide) (by decide)).2 rfl

/-- Leading spaces and tabs before a rune that is not a newline do not
change what `NextToken` returns: the call is the call made past them. -/
theorem Lexer.NextToken_skip (l : Lexer) (ws R : List Char) (hrest : l.rest = ws ++ R)
    (hws : ∀ c ∈ ws, whiteSpaceRune c = true) (hR : ∀ c, R.head? = some c → eolRune c = false) :
    l.NextToken = (l.advance ws.length).NextToken := by
  have hadv : (l.advance ws.length).rest = R := by
    rw [Lexer.rest_advance, hrest]; simp
  simp only [Lexer.rest] at hrest
  simp only [Lexer.rest, Lexer.advance] at hadv
  have htw : List.takeWhile whiteSpaceRune (ws ++ R) = ws ++ List.takeWhile whiteSpaceRune R :=
    List.takeWhile_append_of_pos hws
  have hdw : List.dropWhile whiteSpaceRune (ws ++ R) = List.dropWhile whiteSpaceRune R :=
    List.dropWhile_append_of_pos hws
  have hhead : (match (ws ++ R).head? with
      | some c => eolRune c
      | none => false) = false := by
    cases ws with
    | nil =>
      cases R with
      | nil => rfl
      | cons x xs => exact hR x rfl
    | cons w ws' =>
      have := hws w (List.mem_cons_self _ _)
      simp only [List.cons_append, List.head?_cons]
      revert this
      simp only [whiteSpaceRune, eolRune, Bool.or_eq_true, beq_iff_eq]
      rintro (rfl | rfl) <;> decide
  have hhead2 : (match R.head? with
      | some c => eolRune c
      | none => false) = false := by
    cases R with
    | nil => rfl
    | cons x xs => exact hR x rfl
  simp only [Lexer.NextToken, Lexer.isEol, Lexer.isLiteral, Lexer.isQuote, Lexer.isNumeric,
    Lexer.isAlpha, Lexer.isWhiteSpace, Lexer.isEof, Lexer.test, Lexer.cur, Lexer.rest,
    Lexer.advance, Lexer.run, drop_pos_add, drop_length_takeWhile, hrest, hadv, htw, hdw, hhead,
    hhead2, List.length_append, Nat.add_assoc, Bool.false_eq_true, if_false]

/-- C11, as stated, fails: on `ab1'c d` the identifier token holds the text
`ab1'c`, with a digit and a quote in it, and the scan position is left on
index 5, not on the first rune after the letters `ab`. -/
theorem ident_takes_digits :
    (NewLexer ['a', 'b', '1', Char.ofNat 39, 'c', ' ', 'd']).NextToken.2 = (.TkIdent, none) ∧
    (NewLexer ['a', 'b', '1', Char.ofNat 39, 'c', ' ', 'd']).NextToken.1.String =
      ['a', 'b', '1', Char.ofNat 39, 'c'] ∧
    (NewLexer ['a', 'b', '1', Char.ofNat 39, 'c', ' ', 'd']).NextToken.1.Position = 5 ∧
    alphaRune '1' = false := by
  decide

/-- C11, amended.  An identifier token returned by `NextToken` holds a
non-empty text that starts with an ASCII letter and is the longest run, from
the first rune after the leading spaces and tabs, of runes that are neither
a space, a tab, a literal character nor a newline, the runes as they are in
the input; the scan position is left right after that run, at the end of the
input or on a space, a tab, a literal character or a newline; the line
counter is unchanged and neither the number nor the literal is set. -/
theorem ident_token_text (l l1 : Lexer) (h : l.NextToken = (l1, .TkIdent, none)) :
    l1.String = (l.rest.dropWhile whiteSpaceRune).takeWhile identRune ∧
    (∃ c tl, l1.String = c :: tl ∧ alphaRune c = true) ∧
    l1.Position = l.Position + (l.rest.takeWhile whiteSpaceRune).length + l1.String.length ∧
    l1.rest = (l.rest.dropWhile whiteSpaceRune).dropWhile identRune ∧
    (∀ c, l1.rest.head? = some c → identRune c = false) ∧
    l1.Line = l.Line ∧ l1.Number = 0 ∧ l1.Literal = Char.ofNat 0 ∧ l1.Expr = l.Expr := by
  simp only [Lexer.NextToken, Lexer.isEol, Lexer.isLiteral, Lexer.isQuote, Lexer.isNumeric,
    Lexer.isAlpha, Lexer.isWhiteSpace, Lexer.isEof, Lexer.test, Lexer.cur, Lexer.rest,
    Lexer.advance, Lexer.run, drop_pos_add, drop_length_takeWhile] at h ⊢
  generalize hR : List.drop l.Position l.Expr = R at h ⊢
  split at h
  · simp at h
  · split at h
    · simp at h
    · rename_i c hc
      split at h
      · simp at h
      · split at h
        · simp at h
        · split at h
          · simp at h
          · split at h
            · split at h <;> simp at h
            · split at h
              · rename_i halpha
                split at h
                · simp only [Prod.mk.injEq, and_true] at h
                  subst h
                  simp only [drop_pos_add, hR, drop_length_takeWhile, true_and]
                  refine ⟨?_, fun d hd => head_dropWhile_not _ _ _ hd, trivial⟩
                  cases hd : List.dropWhile whiteSpaceRune R with
                  | nil => rw [hd] at hc; simp at hc
                  | cons y ys =>
                    rw [hd] at halpha hc
                    simp only [List.head?_cons] at halpha
                    have hy : identRune y = true := by
                      have hm : alphaRune y = true := halpha
                      simp only [alphaRune, Bool.or_eq_true, Bool.and_eq_true,
                        decide_eq_true_eq] at hm
                      have hyc : y = Char.ofNat y.toNat := (Char.ofNat_toNat y).symm
                      generalize y.toNat = n at hm hyc
                      subst hyc
                      rcases hm with ⟨h1, h2⟩ | ⟨h1, h2⟩
                      · have h1' : 65 ≤ n := h1
                        have h2' : n ≤ 90 := h2
                        clear h1 h2 halpha hc hd
                        interval_cases n <;> decide
                      · have h1' : 97 ≤ n := h1
                        have h2' : n ≤ 122 := h2
                        clear h1 h2 halpha hc hd
                        interval_cases n <;> decide
                    exact ⟨y, List.takeWhile identRune ys, by simp [List.takeWhile_cons, hy],
                      halpha⟩
                · simp at h
              · simp at h

/-- Instance of `ident_token_text`: on two spaces and `Forward 10` the
identifier is `Forward`, case kept, and the position is left on index 9. -/
theorem ident_token_text_witness :
    (NewLexer "  Forward 10".toList).NextToken.1.String = "Forward".toList ∧
    (NewLexer "  Forward 10".toList).NextToken.1.Position = 9 := by
  have h := ident_token_text (NewLexer "  Forward 10".toList)
    (NewLexer "  Forward 10".toList).NextToken.1 (by decide)
  exact ⟨h.1.trans (by decide), h.2.2.1.trans (by decide)⟩

/-- The number branch of `NextToken`, read forwards, when the run of digits
is followed by a rune that is neither a digit, a space, a tab nor a newline. -/
theorem Lexer.NextToken_number_error (l : Lexer) (digits : List Char) (t : Char)
    (tl : List Char) (hrest : l.rest = digits ++ t :: tl) (hne : digits ≠ [])
    (hd : ∀ c ∈ digits, numericRune c = true) (ht : numericRune t = false)
    (htw : whiteSpaceRune t = false) (hte : eolRune t = false)
    (hcs : numericRune l.CommentSymbol = false) :
    l.NextToken.2 = (.TkEOF, some (.parseError l.Line)) := by
  have hlen := l.rest_length
  simp only [Lexer.rest] at hrest hlen
  obtain ⟨d, ds, rfl⟩ := List.exists_cons_of_ne_nil hne
  have hdn : numericRune d = true := hd d (List.mem_cons_self _ _)
  obtain ⟨hdw, hde, hdl, hdq⟩ := digit_not_other hdn
  have hdc : ¬ d = l.CommentSymbol := by
    intro h; rw [← h, hdn] at hcs; cases hcs
  have htk : List.takeWhile numericRune (d :: ds ++ t :: tl) = d :: ds := by
    rw [List.takeWhile_append_of_pos hd]; simp [List.takeWhile_cons, ht]
  have hdk : List.dropWhile numericRune (d :: ds ++ t :: tl) = t :: tl := by
    rw [List.dropWhile_append_of_pos hd]; simp [List.dropWhile_cons, ht]
  have hwd : List.dropWhile whiteSpaceRune (d :: ds ++ t :: tl) = d :: ds ++ t :: tl := by
    simp [List.dropWhile_cons, hdw]
  have hwt : List.takeWhile whiteSpaceRune (d :: ds ++ t :: tl) = [] := by
    simp [List.takeWhile_cons, hdw]
  have hhd : (d :: ds ++ t :: tl).head? = some d := rfl
  have hdrop : List.drop (d :: ds).length (d :: ds ++ t :: tl) = t :: tl := by simp
  have hpos : ¬ (l.Position + (d :: ds).length ≥ l.Expr.length) := by
    rw [hrest] at hlen
    simp only [List.length_append, List.length_cons] at hlen ⊢
    omega
  simp only [Lexer.NextToken, Lexer.isEol, Lexer.isLiteral, Lexer.isQuote, Lexer.isNumeric,
    Lexer.isAlpha, Lexer.isWhiteSpace, Lexer.isEof, Lexer.test, Lexer.cur, Lexer.rest,
    Lexer.advance, Lexer.run, drop_pos_add, drop_length_takeWhile, hrest, hwd, hwt, hhd, hde,
    hdc, hdl, hdq, hdn, htk, hdk, hdrop, hpos, htw, hte, if_false, if_true, Bool.false_eq_true,
    List.length_nil, Nat.add_zero, List.head?_cons, Bool.not_false, Bool.and_self,
    decide_False]

/-- C12. Let the first rune after the leading spaces and tabs be a decimal
digit, `digits` the longest run of digits from there and `tail` what follows
it.  `NextToken` returns a number token exactly when `tail` is empty or
starts with a space, a tab or a newline; otherwise it returns the error for
a parse error carrying the line counter of the lexer.  The comment symbol is
taken not to be a digit, as `NewLexer` sets it. -/
theorem number_needs_delimiter (l : Lexer) (ws digits tail : List Char)
    (hrest : l.rest = ws ++ (digits ++ tail)) (hws : ∀ c ∈ ws, whiteSpaceRune c = true)
    (hne : digits ≠ []) (hd : ∀ c ∈ digits, numericRune c = true)
    (hmax : ∀ c, tail.head? = some c → numericRune c = false)
    (hcs : numericRune l.CommentSymbol = false) :
    (l.NextToken.2 = (.TkNumber, none) ↔
      (tail = [] ∨ ∃ t tl, tail = t :: tl ∧ (t = ' ' ∨ t = '\t' ∨ t = '\n'))) ∧
    (¬ (tail = [] ∨ ∃ t tl, tail = t :: tl ∧ (t = ' ' ∨ t = '\t' ∨ t = '\n')) →
      l.NextToken.2 = (.TkEOF, some (.parseError l.Line))) := by
  obtain ⟨d, ds, hdd⟩ := List.exists_cons_of_ne_nil hne
  have hdn : numericRune d = true := hd d (by rw [hdd]; exact List.mem_cons_self _ _)
  have hskip := Lexer.NextToken_skip l ws (digits ++ tail) hrest hws (by
    intro c hc
    rw [hdd] at hc
    simp only [List.cons_append, List.head?_cons, Option.some.injEq] at hc
    subst hc
    exact (digit_not_other hdn).2.1)
  have hadv : (l.advance ws.length).rest = digits ++ tail := by
    rw [Lexer.rest_advance, hrest]; simp
  rw [hskip]
  by_cases hdelim : tail = [] ∨ ∃ t tl, tail = t :: tl ∧ (t = ' ' ∨ t = '\t' ∨ t = '\n')
  · have hdelim' : tail = [] ∨
        ∃ t tl, tail = t :: tl ∧ (whiteSpaceRune t = true ∨ eolRune t = true) := by
      rcases hdelim with h | ⟨t, tl, h1, h2⟩
      · exact Or.inl h
      · refine Or.inr ⟨t, tl, h1, ?_⟩
        rcases h2 with rfl | rfl | rfl <;> decide
    have hn := Lexer.NextToken_number (l.advance ws.length) digits tail hadv hne hd hdelim' hcs
    rw [hn]
    exact ⟨⟨fun _ => hdelim, fun _ => rfl⟩, fun h => absurd hdelim h⟩
  · obtain ⟨t, tl, htail⟩ : ∃ t tl, tail = t :: tl := by
      cases tail with
      | nil => exact absurd (Or.inl rfl) hdelim
      | cons t tl => exact ⟨t, tl, rfl⟩
    have htn : numericRune t = false := hmax t (by rw [htail]; rfl)
    have htw : whiteSpaceRune t = false := by
      cases hw : whiteSpaceRune t with
      | false => rfl
      | true =>
        exfalso; apply hdelim
        refine Or.inr ⟨t, tl, htail, ?_⟩
        simp only [whiteSpaceRune, Bool.or_eq_true, beq_iff_eq] at hw
        rcases hw with h | h
        · exact Or.inl h
        · exact Or.inr (Or.inl h)
    have hte : eolRune t = false := by
      cases he : eolRune t with
      | false => rfl
      | true =>
        exfalso; apply hdelim
        refine Or.inr ⟨t, tl, htail, Or.inr (Or.inr ?_)⟩
        simpa [eolRune] using he
    have hn := Lexer.NextToken_number_error (l.advance ws.length) digits t tl
      (by rw [hadv, htail]) hne hd htn htw hte hcs
    rw [hn]
    exact ⟨⟨fun h => by simp at h, fun h => absurd h hdelim⟩, fun _ => rfl⟩

/-- Instance of `number_needs_delimiter`: ` 10]` gives the parse error of
line 1, ` 10` followed by a newline gives a number. -/
theorem number_needs_delimiter_witness :
    (NewLexer " 10]".toList).NextToken.2 = (.TkEOF, some (.parseError 1)) ∧
    (NewLexer " 10\n".toList).NextToken.2 = (.TkNumber, none) := by
  have h1 := (number_needs_delimiter (NewLexer " 10]".toList) [' '] ['1', '0'] [']']
    (by decide) (by decide) (by decide) (by decide) (by decide) (by decide)).2 (by
      rintro (h | ⟨t, tl, h1, h2⟩)
      · cases h
      · cases h1; revert h2; decide)
  have h2 := (number_needs_delimiter (NewLexer " 10\n".toList) [' '] ['1', '0'] ['\n']
    (by decide) (by decide) (by decide) (by decide) (by decide) (by decide)).1.2
    (Or.inr ⟨'\n', [], rfl, Or.inr (Or.inr rfl)⟩)
  exact ⟨h1, h2⟩

/-- C13, as stated, fails: the numeral 9223372036854775808, which is 2^63,
gives a number token with the negative value -9223372036854775808. -/
theorem number_wraps_negative :
    (NewLexer "9223372036854775808".toList).NextToken.2 = (.TkNumber, none) ∧
    (NewLexer "9223372036854775808".toList).NextToken.1.Number = -9223372036854775808 ∧
    decimalValue "9223372036854775808".toList = 9223372036854775808 := by
  decide

theorem decimalValue_leading_zeros (k : Nat) (digits : List Char) :
    decimalValue (List.replicate k '0' ++ digits) = decimalValue digits := by
  unfold decimalValue
  induction k with
  | zero => rfl
  | succ k ih =>
    rw [List.replicate_succ, List.cons_append, decimalFrom_cons]
    exact ih

/-- C13, amended.  For a longest run of decimal digits, after leading
spaces and tabs, that is followed by the end of the input, a space, a tab or
a newline, `NextToken` returns a number token whose value is the decimal
value of the run reduced to a 64-bit two's-complement integer.  When the
decimal value is below 2^63 the token carries exactly that value, which is
not negative.  Zeros before the run do not change the decimal value. -/
theorem number_token_value (l : Lexer) (ws digits tail : List Char)
    (hrest : l.rest = ws ++ (digits ++ tail)) (hws : ∀ c ∈ ws, whiteSpaceRune c = true)
    (hne : digits ≠ []) (hd : ∀ c ∈ digits, numericRune c = true)
    (htail : tail = [] ∨ ∃ t tl, tail = t :: tl ∧ (whiteSpaceRune t = true ∨ eolRune t = true))
    (hcs : numericRune l.CommentSymbol = false) :
    l.NextToken.2 = (.TkNumber, none) ∧
    l.NextToken.1.Number = wrapInt64 (decimalValue digits) ∧
    (decimalValue digits < 9223372036854775808 →
      l.NextToken.1.Number = (decimalValue digits : Int) ∧ 0 ≤ l.NextToken.1.Number) ∧
    (∀ k, decimalValue (List.replicate k '0' ++ digits) = decimalValue digits) := by
  obtain ⟨d, ds, hdd⟩ := List.exists_cons_of_ne_nil hne
  have hdn : numericRune d = true := hd d (by rw [hdd]; exact List.mem_cons_self _ _)
  have hskip := Lexer.NextToken_skip l ws (digits ++ tail) hrest hws (by
    intro c hc
    rw [hdd] at hc
    simp only [List.cons_append, List.head?_cons, Option.some.injEq] at hc
    subst hc
    exact (digit_not_other hdn).2.1)
  have hadv : (l.advance ws.length).rest = digits ++ tail := by
    rw [Lexer.rest_advance, hrest]; simp
  have hn := Lexer.NextToken_number (l.advance ws.length) digits tail hadv hne hd htail hcs
  rw [hskip, hn]
  refine ⟨rfl, rfl, ?_, fun k => decimalValue_leading_zeros k digits⟩
  intro hlt
  show wrapInt64 (decimalValue digits) = _ ∧ 0 ≤ wrapInt64 (decimalValue digits)
  rw [wrapInt64_of_range (by omega) (by omega)]
  exact ⟨rfl, by omega⟩

/-- Instance of `number_token_value`: ` 007 ` gives the number 7. -/
theorem number_token_value_witness :
    (NewLexer " 007 ".toList).NextToken.2 = (.TkNumber, none) ∧
    (NewLexer " 007 ".toList).NextToken.1.Number = 7 := by
  have h := number_token_value (NewLexer " 007 ".toList) [' '] ['0', '0', '7'] [' ']
    (by decide) (by decide) (by decide) (by decide) (Or.inr ⟨' ', [], rfl, Or.inl rfl⟩)
    (by decide)
  exact ⟨h.1, (h.2.2.1 (by decide)).1.trans (by decide)⟩

theorem runtimeBuildLoop_lexerError (fuel : Nat) (l : Lexer) (prog0 : List ProgramStep)
    (e : Fault) (h : lexerError fuel l = some e) :
    (runtimeBuildLoop fuel l prog0).2 = .returned e := by
  induction fuel generalizing l prog0 with
  | zero => simp [lexerError] at h
  | succ fuel ih =>
    unfold lexerError at h
    unfold runtimeBuildLoop
    rcases hn : l.NextToken with ⟨l1, tok, err⟩
    rw [hn] at h
    cases err with
    | some e1 => simp only [Option.some.injEq] at h; subst h; rfl
    | none =>
      simp only [] at h ⊢
      cases tok <;> simp at h ⊢ <;> exact ih _ _ h

/-- C14. When the lexer reports an error on one of the calls the build pass
makes, `Run` returns that error: the turtle state, the log of stub calls, the
stack, its depth and the program counter are as before the call, so no
command was dispatched.  `Compile` returns the same error, with nothing
written and its counter of loop variables and program counter unchanged. -/
theorem lexer_error_aborts (M : FloatOps) (fuel : Nat) (r : Runtime) (c : Compiler)
    (program : List Char) (e : Fault)
    (h : lexerError (program.length + 1) (NewLexer program) = some e) :
    (Run M fuel r program).2 = .returned e ∧
    (Run M fuel r program).1.observed = r.observed ∧
    (Run M fuel r program).1.Stack = r.Stack ∧
    (Run M fuel r program).1.SP = r.SP ∧
    (Run M fuel r program).1.PC = r.PC ∧
    (Compile c program).2 = .returned e ∧
    (Compile c program).1.writer = c.writer ∧
    (Compile c program).1.vidx = c.vidx ∧
    (Compile c program).1.PC = c.PC := by
  have hb : (runtimeBuild program).2 = .returned e := runtimeBuildLoop_lexerError _ _ _ _ h
  rcases hres : runtimeBuild program with ⟨prog, out⟩
  rw [hres] at hb
  simp only at hb
  subst hb
  simp only [Run, Compile, compilerBuild_eq, hres]
  simp [Runtime.observed]

/-- Instance of `lexer_error_aborts`: in `PEN DOWN FORWARD 10 HOME 5x` three
valid commands come before the malformed number; both backends return the
parse error of line 1, nothing drawn, nothing written. -/
theorem lexer_error_aborts_witness :
    (Run axisFloatOps 9 NewRuntime "PEN DOWN FORWARD 10 HOME 5x".toList).2 =
      .returned (.parseError 1) ∧
    (Run axisFloatOps 9 NewRuntime "PEN DOWN FORWARD 10 HOME 5x".toList).1.observed =
      NewRuntime.observed ∧
    (Compile (NewCompiler []) "PEN DOWN FORWARD 10 HOME 5x".toList).2 =
      .returned (.parseError 1) ∧
    (Compile (NewCompiler []) "PEN DOWN FORWARD 10 HOME 5x".toList).1.writer = [] := by
  have h := lexer_error_aborts axisFloatOps 9 NewRuntime (NewCompiler [])
    "PEN DOWN FORWARD 10 HOME 5x".toList (.parseError 1) (by decide)
  exact ⟨h.1, h.2.1, h.2.2.2.2.2.1, h.2.2.2.2.2.2.1⟩

/-- C16. One compiler compiling `REPEAT 2 LOOP` twice: the first call writes
a loop over `v1`, the second call, on the compiler the first call left,
writes a loop over `v2`: `Compile` sets the program counter back to 0 but
not the counter of loop variables.  A compiler made afresh writes the loop
over `v1` again. -/
theorem second_compile_differs :
    (Compile (NewCompiler []) "REPEAT 2 LOOP".toList).2 = .done ∧
    (Compile (NewCompiler []) "REPEAT 2 LOOP".toList).1.writer =
      "for(let v1=0;v1<2;++v1)\x7b\x7d".toList ∧
    (Compile (Compile (NewCompiler []) "REPEAT 2 LOOP".toList).1 "REPEAT 2 LOOP".toList).2 =
      .done ∧
    (Compile (Compile (NewCompiler []) "REPEAT 2 LOOP".toList).1 "REPEAT 2 LOOP".toList).1.writer =
      "for(let v1=0;v1<2;++v1)\x7b\x7d".toList ++ "for(let v2=0;v2<2;++v2)\x7b\x7d".toList ∧
    (Compile (Compile (NewCompiler []) "REPEAT 2 LOOP".toList).1 "REPEAT 2 LOOP".toList).1.vidx =
      2 := by
  decide

theorem tmod360_bounds (x : Int) : -360 < x.tmod 360 ∧ x.tmod 360 < 360 := by
  cases x with
  | ofNat n =>
    show -360 < ((n % 360 : Nat) : Int) ∧ ((n % 360 : Nat) : Int) < 360
    omega
  | negSucc n =>
    show -360 < -(((n + 1) % 360 : Nat) : Int) ∧ -(((n + 1) % 360 : Nat) : Int) < 360
    omega

theorem tmod360_modEq (x : Int) : x.tmod 360 ≡ x [ZMOD 360] := by
  rw [Int.modEq_iff_dvd]
  exact ⟨x.tdiv 360, by rw [Int.tmod_def]; ring⟩

/-- C17, the claim as worded fails: `LEFT 1 LEFT 9223372036854775807` runs to
the end and leaves the angle -8, whereas 1 + 9223372036854775807 reduced by
truncating remainder modulo 360 is 8, and -8 is not congruent to that sum
modulo 360: the sum is formed in a 64-bit `int` and wraps before the
reduction. -/
theorem left_sum_wraps :
    (Run axisFloatOps 2 NewRuntime "LEFT 1 LEFT 9223372036854775807".toList).2 = .done ∧
    (Run axisFloatOps 2 NewRuntime "LEFT 1 LEFT 9223372036854775807".toList).1.Angle = -8 ∧
    ((1 : Int) + 9223372036854775807).tmod 360 = 8 ∧
    ¬ ((-8 : Int) ≡ 1 + 9223372036854775807 [ZMOD 360]) := by
  refine ⟨by decide, by decide, by decide, by decide⟩

/-- C17. Dispatch of a turn in the interpreter, the command being the
identifier step `p` at the program counter and `q`, a number, the step after
it.  `LEFT` (in any letter case) sets the angle to the 64-bit sum of the
angle and the parameter reduced by truncating remainder modulo 360, `RIGHT`
does so with the 64-bit difference; head, pen, colours, log of stub calls
and stack are unchanged and the program counter is two further.  The new
angle is strictly between -360 and 360; when the sum (the difference) fits a
64-bit `int` the new angle is its truncating remainder and is congruent to
it modulo 360. -/
theorem turn_sets_angle (M : FloatOps) (r : Runtime) (p q : ProgramStep)
    (hp : fetch r.Program r.PC = some p) (hpt : p.Token = .TkIdent)
    (hq : fetch r.Program (r.PC + 1) = some q) (hqt : q.Token = .TkNumber) :
    (ToUpper p.String = "LEFT".toList →
      (r.dispatch M).2 = none ∧
      (r.dispatch M).1.Angle = (wrapInt64 (r.Angle + q.Number)).tmod 360 ∧
      (r.dispatch M).1.Head = r.Head ∧ (r.dispatch M).1.PenDown = r.PenDown ∧
      (r.dispatch M).1.Paper = r.Paper ∧ (r.dispatch M).1.Ink = r.Ink ∧
      (r.dispatch M).1.Calls = r.Calls ∧ (r.dispatch M).1.Stack = r.Stack ∧
      (r.dispatch M).1.SP = r.SP ∧ (r.dispatch M).1.Program = r.Program ∧
      (r.dispatch M).1.PC = r.PC + 2 ∧
      -360 < (r.dispatch M).1.Angle ∧ (r.dispatch M).1.Angle < 360 ∧
      (-9223372036854775808 ≤ r.Angle + q.Number → r.Angle + q.Number < 9223372036854775808 →
        (r.dispatch M).1.Angle = (r.Angle + q.Number).tmod 360 ∧
        (r.dispatch M).1.Angle ≡ r.Angle + q.Number [ZMOD 360])) ∧
    (ToUpper p.String = "RIGHT".toList →
      (r.dispatch M).2 = none ∧
      (r.dispatch M).1.Angle = (wrapInt64 (r.Angle - q.Number)).tmod 360 ∧
      (r.dispatch M).1.Head = r.Head ∧ (r.dispatch M).1.PenDown = r.PenDown ∧
      (r.dispatch M).1.Paper = r.Paper ∧ (r.dispatch M).1.Ink = r.Ink ∧
      (r.dispatch M).1.Calls = r.Calls ∧ (r.dispatch M).1.Stack = r.Stack ∧
      (r.dispatch M).1.SP = r.SP ∧ (r.dispatch M).1.Program = r.Program ∧
      (r.dispatch M).1.PC = r.PC + 2 ∧
      -360 < (r.dispatch M).1.Angle ∧ (r.dispatch M).1.Angle < 360 ∧
      (-9223372036854775808 ≤ r.Angle - q.Number → r.Angle - q.Number < 9223372036854775808 →
        (r.dispatch M).1.Angle = (r.Angle - q.Number).tmod 360 ∧
        (r.dispatch M).1.Angle ≡ r.Angle - q.Number [ZMOD 360])) := by
  have hq1 : fetch ({ r with PC := r.PC + 1 } : Runtime).Program
      ({ r with PC := r.PC + 1 } : Runtime).PC = some q := hq
  constructor
  · intro hcmd
    have hk : mapGet KEYWORDS (ToUpper p.String) = some .LEFT := by rw [hcmd]; decide
    rw [Runtime.dispatch_command M hp hpt hk]
    simp only [command, leftCmd, Runtime.getParam_of_fetch hq1 hqt]
    refine ⟨trivial, trivial, trivial, trivial, trivial, trivial, trivial, trivial, trivial,
      trivial, by omega, (tmod360_bounds _).1, (tmod360_bounds _).2, ?_⟩
    intro h1 h2
    rw [wrapInt64_of_range h1 h2]
    exact ⟨rfl, tmod360_modEq _⟩
  · intro hcmd
    have hk : mapGet KEYWORDS (ToUpper p.String) = some .RIGHT := by rw [hcmd]; decide
    rw [Runtime.dispatch_command M hp hpt hk]
    simp only [command, rightCmd, Runtime.getParam_of_fetch hq1 hqt]
    refine ⟨trivial, trivial, trivial, trivial, trivial, trivial, trivial, trivial, trivial,
      trivial, by omega, (tmod360_bounds _).1, (tmod360_bounds _).2, ?_⟩
    intro h1 h2
    rw [wrapInt64_of_range h1 h2]
    exact ⟨rfl, tmod360_modEq _⟩

/-- Instance of `turn_sets_angle`: `left 20` at angle 350 gives the angle 10;
and four `RIGHT 90` run from the fresh runtime leave the angle 0. -/
theorem turn_sets_angle_witness :
    (sampleTurnState.dispatch axisFloatOps).2 = none ∧
    (sampleTurnState.dispatch axisFloatOps).1.Angle = 10 ∧
    (Run axisFloatOps 4 NewRuntime "RIGHT 90 RIGHT 90 RIGHT 90 RIGHT 90".toList).2 = .done ∧
    (Run axisFloatOps 4 NewRuntime "RIGHT 90 RIGHT 90 RIGHT 90 RIGHT 90".toList).1.Angle = 0 := by
  have h := (turn_sets_angle axisFloatOps sampleTurnState (mkIdent "left".toList 1)
    (mkNumber 20 1) (by decide) (by decide) (by decide) (by decide)).1 (by decide)
  exact ⟨h.1, h.2.1.trans (by decide), by decide, by decide⟩

/-- C18. `LEFT 45 FORWARD 1 BACK 1` run from the fresh runtime: whatever the
float operations, the head ends at 320 plus the rounded displacement of
`forwardCmd` minus the truncated displacement of `backCmd`, in each
coordinate.  With the values that step 1 at angle 45 gives (0.7071 rounds to
1 and truncates to 0) the head ends at (321, 241), not back at (320, 240). -/
theorem back_truncates_forward_rounds :
    (∀ M : FloatOps,
      (Run M 3 NewRuntime "LEFT 45 FORWARD 1 BACK 1".toList).2 = .done ∧
      (Run M 3 NewRuntime "LEFT 45 FORWARD 1 BACK 1".toList).1.Head =
        { X := wrapInt32 (wrapInt32 (320 + M.forwardDx 1 45) - M.backDx 1 45),
          Y := wrapInt32 (wrapInt32 (240 + M.forwardDy 1 45) - M.backDy 1 45) }) ∧
    (Run diagonalFloatOps 3 NewRuntime "LEFT 45 FORWARD 1 BACK 1".toList).1.Head =
      { X := 321, Y := 241 } := by
  refine ⟨fun M => ⟨rfl, rfl⟩, by decide⟩

/-- Dispatch of `REPEAT` and `LOOP` on any stack, the command being the
identifier step `p` at the program counter.  `REPEAT` with a number
parameter from 1 to 65535 and two free stack slots writes the index two past
the command into the first free slot and the count into the slot above it.
`LOOP` on an empty stack fails with the stack-empty error.  `LOOP` on a stack
2 to 256 deep with the count `c` on top: when 1 < c and c fits a 64-bit
`int`, it leaves the count c - 1 and jumps to the saved index; when c is at
most 1 and above the least 64-bit `int`, it removes the frame and goes on to
the next step. -/
theorem Runtime.repeat_loop_effect (M : FloatOps) (r : Runtime) (p : ProgramStep)
    (hp : fetch r.Program r.PC = some p) (hpt : p.Token = .TkIdent) :
    (ToUpper p.String = "REPEAT".toList →
      ∀ q, fetch r.Program (r.PC + 1) = some q → q.Token = .TkNumber →
        1 ≤ q.Number → q.Number ≤ 65535 → 0 ≤ r.SP → r.SP ≤ 254 →
        (r.dispatch M).2 = none ∧ (r.dispatch M).1.SP = r.SP + 2 ∧
        (r.dispatch M).1.Stack r.SP = r.PC + 2 ∧
        (r.dispatch M).1.Stack (r.SP + 1) = q.Number ∧
        (∀ i, i ≠ r.SP → i ≠ r.SP + 1 → (r.dispatch M).1.Stack i = r.Stack i) ∧
        (r.dispatch M).1.PC = r.PC + 2 ∧ (r.dispatch M).1.observed = r.observed) ∧
    (ToUpper p.String = "LOOP".toList →
      (r.SP = 0 → (r.dispatch M).2 = some .stackEmpty) ∧
      (2 ≤ r.SP → r.SP ≤ 256 → 1 < r.Stack (r.SP - 1) →
        r.Stack (r.SP - 1) ≤ 9223372036854775807 →
        (r.dispatch M).2 = none ∧ (r.dispatch M).1.SP = r.SP ∧
        (r.dispatch M).1.Stack (r.SP - 1) = r.Stack (r.SP - 1) - 1 ∧
        (∀ i, i ≠ r.SP - 1 → (r.dispatch M).1.Stack i = r.Stack i) ∧
        (r.dispatch M).1.PC = r.Stack (r.SP - 2) ∧ (r.dispatch M).1.observed = r.observed) ∧
      (2 ≤ r.SP → r.SP ≤ 256 → r.Stack (r.SP - 1) ≤ 1 →
        -9223372036854775808 < r.Stack (r.SP - 1) →
        (r.dispatch M).2 = none ∧ (r.dispatch M).1.SP = r.SP - 2 ∧
        (r.dispatch M).1.Stack = r.Stack ∧
        (r.dispatch M).1.PC = r.PC + 1 ∧ (r.dispatch M).1.observed = r.observed)) := by
  constructor
  · intro hcmd q hq hqt hn1 hn2 hs0 hs1
    have hk : mapGet KEYWORDS (ToUpper p.String) = some .REPEAT := by rw [hcmd]; decide
    have hq1 : fetch ({ r with PC := r.PC + 1 } : Runtime).Program
        ({ r with PC := r.PC + 1 } : Runtime).PC = some q := hq
    have hrange : ¬ (q.Number ≤ 0 ∨ q.Number ≥ 65536) := by omega
    rw [Runtime.dispatch_command M hp hpt hk]
    simp only [command, repeatCmd, Runtime.getParam_of_fetch hq1 hqt, hrange, if_false]
    rw [Runtime.push_ok _ _ (by simpa using hs0) (by show r.SP < 256; omega)]
    simp only []
    rw [Runtime.push_ok _ _ (by show 0 ≤ r.SP + 1; omega) (by show r.SP + 1 < 256; omega)]
    refine ⟨rfl, by show r.SP + 1 + 1 = _; omega, ?_, ?_, ?_, by show r.PC + 1 + 1 = _; omega,
      rfl⟩
    · show Function.update (Function.update r.Stack r.SP (r.PC + 1 + 1)) (r.SP + 1) q.Number
        r.SP = _
      rw [Function.update_noteq (by omega), Function.update_same]; omega
    · show Function.update (Function.update r.Stack r.SP (r.PC + 1 + 1)) (r.SP + 1) q.Number
        (r.SP + 1) = _
      rw [Function.update_same]
    · intro i hi1 hi2
      show Function.update (Function.update r.Stack r.SP (r.PC + 1 + 1)) (r.SP + 1) q.Number
        i = _
      rw [Function.update_noteq hi2, Function.update_noteq hi1]
  · intro hcmd
    have hk : mapGet KEYWORDS (ToUpper p.String) = some .LOOP := by rw [hcmd]; decide
    rw [Runtime.dispatch_command M hp hpt hk]
    refine ⟨?_, ?_, ?_⟩
    · intro h0
      simp [command, loopCmd, Runtime.pop, h0]
    · intro hs0 hs1 hc1 hc2
      have hw : wrapInt64 (r.Stack (r.SP - 1) - 1) = r.Stack (r.SP - 1) - 1 :=
        wrapInt64_of_range (by omega) (by omega)
      simp only [command, loopCmd]
      rw [Runtime.pop_ok _ (by show 0 < r.SP; omega) (by show r.SP ≤ 256; omega)]
      simp only [hw]
      have hpos : r.Stack (r.SP - 1) - 1 > 0 := by omega
      simp only [hpos, if_true]
      rw [Runtime.pop_ok _ (by show 0 < r.SP - 1; omega) (by show r.SP - 1 ≤ 256; omega)]
      simp only []
      rw [Runtime.push_ok _ _ (by show 0 ≤ r.SP - 1 - 1; omega)
        (by show r.SP - 1 - 1 < 256; omega)]
      simp only []
      rw [Runtime.push_ok _ _ (by show 0 ≤ r.SP - 1 - 1 + 1; omega)
        (by show r.SP - 1 - 1 + 1 < 256; omega)]
      have e1 : r.SP - 1 - 1 = r.SP - 2 := by omega
      have e2 : r.SP - 1 - 1 + 1 = r.SP - 1 := by omega
      refine ⟨rfl, by show r.SP - 1 - 1 + 1 + 1 = _; omega, ?_, ?_,
        by show r.Stack (r.SP - 1 - 1) = _; rw [e1], rfl⟩
      · show Function.update (Function.update r.Stack (r.SP - 1 - 1) (r.Stack (r.SP - 1 - 1)))
          (r.SP - 1 - 1 + 1) (r.Stack (r.SP - 1) - 1) (r.SP - 1) = _
        rw [e2, Function.update_same]
      · intro i hi
        show Function.update (Function.update r.Stack (r.SP - 1 - 1) (r.Stack (r.SP - 1 - 1)))
          (r.SP - 1 - 1 + 1) (r.Stack (r.SP - 1) - 1) i = _
        rw [Function.update_noteq (by omega), Function.update_eq_self]
    · intro hs0 hs1 hc1 hc2
      have hw : wrapInt64 (r.Stack (r.SP - 1) - 1) = r.Stack (r.SP - 1) - 1 :=
        wrapInt64_of_range (by omega) (by omega)
      simp only [command, loopCmd]
      rw [Runtime.pop_ok _ (by show 0 < r.SP; omega) (by show r.SP ≤ 256; omega)]
      simp only [hw]
      have hpos : ¬ (r.Stack (r.SP - 1) - 1 > 0) := by omega
      simp only [hpos, if_false]
      rw [Runtime.pop_ok _ (by show 0 < r.SP - 1; omega) (by show r.SP - 1 ≤ 256; omega)]
      exact ⟨rfl, by show r.SP - 1 - 1 = _; omega, rfl, rfl, rfl⟩

theorem Compiler.compile_next_inv {c c1 : Compiler} {p : ProgramStep}
    (h : c.next = (c1, .ok p)) :
    fetch c.Program c.PC = some p ∧ c1 = { c with PC := c.PC + 1 } := by
  unfold Compiler.next at h
  split at h
  · cases h
  · split at h
    · cases h
    · rename_i tok hf
      simp only [Prod.mk.injEq, Res.ok.injEq] at h
      exact ⟨by rw [hf, h.2], h.1.symm⟩

theorem Compiler.compile_getParam_inv {c c1 : Compiler} {q : ProgramStep} {expected : Token}
    (h : c.getParam expected = (c1, .ok q)) :
    fetch c.Program c.PC = some q ∧ q.Token = expected ∧ c1 = { c with PC := c.PC + 1 } := by
  unfold Compiler.getParam at h
  split at h
  · cases h
  · rename_i c2 param hn
    obtain ⟨hf, hc⟩ := Compiler.compile_next_inv hn
    split at h
    · cases h
    · rename_i ht
      simp only [Prod.mk.injEq, Res.ok.injEq] at h
      obtain ⟨h1, h2⟩ := h
      subst h1 h2
      exact ⟨hf, not_not.mp ht, hc⟩

theorem colors_colourName (key : List Char) :
    mapGet colors key = (mapGet COLORS key).map colourName := by
  unfold colors COLORS
  simp only [mapGet]
  split_ifs <;> rfl

theorem drop_of_fetch {prog : List ProgramStep} {pc : Int} {p : ProgramStep}
    (h : fetch prog pc = some p) :
    prog.drop pc.toNat = p :: prog.drop (pc + 1).toNat := by
  have hr := fetch_some_range h
  unfold fetch at h
  rw [if_pos hr.1] at h
  obtain ⟨hlt, hget⟩ := List.getElem?_eq_some_iff.mp h
  have e : (pc + 1).toNat = pc.toNat + 1 := by omega
  rw [e, List.drop_eq_getElem_cons hlt, hget]

theorem commandsOf_plain {p : ProgramStep} {kw : Keyword} {s : Statement}
    (rest : List ProgramStep) (hpt : p.Token = .TkIdent)
    (hk : mapGet KEYWORDS (ToUpper p.String) = some kw) (ht : kw.takesParam = false)
    (hs : plainStatement kw = some s) :
    commandsOf (p :: rest) = (commandsOf rest).map (fun stmts => s :: stmts) := by
  rw [commandsOf]
  simp [hpt, hk, ht, hs]

theorem commandsOf_param {p q : ProgramStep} {kw : Keyword} {s : Statement}
    (rest : List ProgramStep) (hpt : p.Token = .TkIdent)
    (hk : mapGet KEYWORDS (ToUpper p.String) = some kw) (ht : kw.takesParam = true)
    (hs : paramStatement kw q = some s) :
    commandsOf (p :: q :: rest) = (commandsOf rest).map (fun stmts => s :: stmts) := by
  rw [commandsOf]
  simp [hpt, hk, ht, hs]

theorem fmtInt_natCast (n : Nat) : fmtInt (n : Int) = Nat.toDigits 10 n := rfl

theorem Compiler.compile_getColor_inv {c c1 : Compiler} {v : List Char}
    (h : c.getColor = (c1, .ok v)) :
    ∃ q col, fetch c.Program c.PC = some q ∧ q.Token = .TkIdent ∧
      c1 = { c with PC := c.PC + 1 } ∧ mapGet COLORS (ToUpper q.String) = some col ∧
      colourName col = v := by
  unfold Compiler.getColor at h
  split at h
  · cases h
  · rename_i c2 q hg
    obtain ⟨hf, hqt, hc2⟩ := Compiler.compile_getParam_inv hg
    split at h
    · rename_i value hm
      simp only [Prod.mk.injEq, Res.ok.injEq] at h
      obtain ⟨h1, h2⟩ := h
      subst h1 h2
      rw [colors_colourName] at hm
      cases hc : mapGet COLORS (ToUpper q.String) with
      | none => rw [hc] at hm; cases hm
      | some col =>
        rw [hc] at hm
        simp only [Option.map_some', Option.some.injEq] at hm
        exact ⟨q, col, hf, hqt, hc2, hc, hm⟩
    · cases h

/-- What a successful round of the compiler's dispatch does: it reads one
command, writes the text of its statement and counts it if it is a `REPEAT`. -/
theorem Compiler.compile_dispatch_text (c c1 : Compiler) (k : Nat)
    (h : c.dispatch = (c1, none)) (hv : c.vidx = (k : Int))
    (hk : (k : Int) + ((c.Program.length : Int) - c.PC) < 9223372036854775808) :
    ∃ s, c1.Program = c.Program ∧ 0 ≤ c.PC ∧ c.PC < c1.PC ∧
      c1.PC ≤ (c.Program.length : Int) ∧
      c1.writer = c.writer ++ statementText (s.bump k) s ∧ c1.vidx = ((s.bump k : Nat) : Int) ∧
      commandsOf (c.Program.drop c.PC.toNat) =
        (commandsOf (c.Program.drop c1.PC.toNat)).map (fun stmts => s :: stmts) := by
  unfold Compiler.dispatch at h
  split at h
  · cases h
  · rename_i c2 p hn
    obtain ⟨hf, hc2⟩ := Compiler.compile_next_inv hn
    subst hc2
    have hr := fetch_some_range hf
    have hd := drop_of_fetch hf
    split at h
    · cases h
    · rename_i hpt
      have hpt : p.Token = .TkIdent := not_not.mp hpt
      split at h
      swap
      · cases h
      rename_i kw hkw
      -- the commands that take a number and write a call
      have call : ∀ (name : List Char) (mk : Int → Statement),
          kw.takesParam = true →
          (∀ q : ProgramStep, q.Token = .TkNumber → paramStatement kw q = some (mk q.Number)) →
          (∀ n j, statementText j (mk n) = name ++ "(".toList ++ fmtInt n ++ ");".toList) →
          (∀ n j, (mk n).bump j = j) →
          compileCall name ({ c with PC := c.PC + 1 } : Compiler) = (c1, none) →
          ∃ s, c1.Program = c.Program ∧ 0 ≤ c.PC ∧ c.PC < c1.PC ∧
            c1.PC ≤ (c.Program.length : Int) ∧
            c1.writer = c.writer ++ statementText (s.bump k) s ∧
            c1.vidx = ((s.bump k : Nat) : Int) ∧
            commandsOf (c.Program.drop c.PC.toNat) =
              (commandsOf (c.Program.drop c1.PC.toNat)).map (fun stmts => s :: stmts) := by
        intro name mk htp hps htx hb hcall
        unfold compileCall at hcall
        split at hcall
        · cases hcall
        · rename_i c3 q hg
          obtain ⟨hfq, hqt, hc3⟩ := Compiler.compile_getParam_inv hg
          subst hc3
          have hfq : fetch c.Program (c.PC + 1) = some q := hfq
          have hrq := fetch_some_range hfq
          have hdq := drop_of_fetch hfq
          simp only [Prod.mk.injEq, and_true] at hcall
          subst hcall
          refine ⟨mk q.Number, rfl, hr.1, by show c.PC < c.PC + 1 + 1; omega,
            by show c.PC + 1 + 1 ≤ _; omega, ?_, ?_, ?_⟩
          · show c.writer ++ _ = _
            rw [htx]
          · show c.vidx = _
            rw [hb, hv]
          · show _ = (commandsOf (c.Program.drop (c.PC + 1 + 1).toNat)).map _
            rw [hd, hdq]
            exact commandsOf_param _ hpt hkw htp (hps q hqt)
      cases kw with
      | HOME =>
        simp only [compileCommand, compileHomeCmd, Prod.mk.injEq, and_true] at h
        subst h
        refine ⟨.home, rfl, hr.1, by show c.PC < c.PC + 1; omega, by show c.PC + 1 ≤ _; omega,
          rfl, hv, ?_⟩
        show _ = (commandsOf (c.Program.drop (c.PC + 1).toNat)).map _
        rw [hd]
        exact commandsOf_plain _ hpt hkw rfl rfl
      | LOOP =>
        simp only [compileCommand, compileLoopCmd, Prod.mk.injEq, and_true] at h
        subst h
        refine ⟨.loop, rfl, hr.1, by show c.PC < c.PC + 1; omega, by show c.PC + 1 ≤ _; omega,
          rfl, hv, ?_⟩
        show _ = (commandsOf (c.Program.drop (c.PC + 1).toNat)).map _
        rw [hd]
        exact commandsOf_plain _ hpt hkw rfl rfl
      | FORWARD =>
        exact call "forward".toList .forward rfl (fun q hq => by simp [paramStatement, hq])
          (fun _ _ => rfl) (fun _ _ => rfl) h
      | BACK =>
        exact call "back".toList .back rfl (fun q hq => by simp [paramStatement, hq])
          (fun _ _ => rfl) (fun _ _ => rfl) h
      | LEFT =>
        exact call "left".toList .left rfl (fun q hq => by simp [paramStatement, hq])
          (fun _ _ => rfl) (fun _ _ => rfl) h
      | RIGHT =>
        exact call "right".toList .right rfl (fun q hq => by simp [paramStatement, hq])
          (fun _ _ => rfl) (fun _ _ => rfl) h
      | PAPER =>
        simp only [compileCommand, compilePaperCmd] at h
        split at h
        · cases h
        · rename_i c3 color hg
          obtain ⟨q, col, hfq, hqt, hc3, hcol, hname⟩ := Compiler.compile_getColor_inv hg
          subst hc3
          have hfq : fetch c.Program (c.PC + 1) = some q := hfq
          have hrq := fetch_some_range hfq
          have hdq := drop_of_fetch hfq
          simp only [Prod.mk.injEq, and_true] at h
          subst h
          refine ⟨.paper color, rfl, hr.1, by show c.PC < c.PC + 1 + 1; omega,
            by show c.PC + 1 + 1 ≤ _; omega, rfl, hv, ?_⟩
          show _ = (commandsOf (c.Program.drop (c.PC + 1 + 1).toNat)).map _
          rw [hd, hdq]
          exact commandsOf_param _ hpt hkw rfl (by simp [paramStatement, hqt, hcol, hname])
      | INK =>
        simp only [compileCommand, compileInkCmd] at h
        split at h
        · cases h
        · rename_i c3 color hg
          obtain ⟨q, col, hfq, hqt, hc3, hcol, hname⟩ := Compiler.compile_getColor_inv hg
          subst hc3
          have hfq : fetch c.Program (c.PC + 1) = some q := hfq
          have hrq := fetch_some_range hfq
          have hdq := drop_of_fetch hfq
          simp only [Prod.mk.injEq, and_true] at h
          subst h
          refine ⟨.ink color, rfl, hr.1, by show c.PC < c.PC + 1 + 1; omega,
            by show c.PC + 1 + 1 ≤ _; omega, rfl, hv, ?_⟩
          show _ = (commandsOf (c.Program.drop (c.PC + 1 + 1).toNat)).map _
          rw [hd, hdq]
          exact commandsOf_param _ hpt hkw rfl (by simp [paramStatement, hqt, hcol, hname])
      | PEN =>
        simp only [compileCommand, compilePenCmd] at h
        split at h
        · cases h
        · rename_i c3 q hg
          obtain ⟨hfq, hqt, hc3⟩ := Compiler.compile_getParam_inv hg
          subst hc3
          have hfq : fetch c.Program (c.PC + 1) = some q := hfq
          have hrq := fetch_some_range hfq
          have hdq := drop_of_fetch hfq
          split at h
          swap
          · cases h
          rename_i hval
          simp only [Prod.mk.injEq, and_true] at h
          subst h
          refine ⟨.pen (decide (ToUpper q.String = "DOWN".toList)), rfl, hr.1,
            by show c.PC < c.PC + 1 + 1; omega, by show c.PC + 1 + 1 ≤ _; omega, ?_, hv, ?_⟩
          · show c.writer ++ _ = c.writer ++ _
            rcases hval with hu | hdn
            · rw [hu]; rfl
            · rw [hdn]; rfl
          · show _ = (commandsOf (c.Program.drop (c.PC + 1 + 1).toNat)).map _
            rw [hd, hdq]
            refine commandsOf_param _ hpt hkw rfl ?_
            rcases hval with hu | hdn
            · rw [hu]; simp only [paramStatement, hqt, hu]; rfl
            · rw [hdn]; simp only [paramStatement, hqt, hdn]; rfl
      | REPEAT =>
        simp only [compileCommand, compileRepeatCmd] at h
        split at h
        · cases h
        · rename_i c3 q hg
          obtain ⟨hfq, hqt, hc3⟩ := Compiler.compile_getParam_inv hg
          subst hc3
          have hfq : fetch c.Program (c.PC + 1) = some q := hfq
          have hrq := fetch_some_range hfq
          have hdq := drop_of_fetch hfq
          split at h
          · cases h
          rename_i hrange
          have hw : wrapInt64 (c.vidx + 1) = ((k + 1 : Nat) : Int) := by
            rw [hv, wrapInt64_of_range (by omega) (by omega)]; push_cast; rfl
          simp only [Compiler.nextVar, hw, Prod.mk.injEq, and_true, fmtInt_natCast] at h
          subst h
          refine ⟨.repeatN q.Number, rfl, hr.1, by show c.PC < c.PC + 1 + 1; omega,
            by show c.PC + 1 + 1 ≤ _; omega, ?_, rfl, ?_⟩
          · show c.writer ++ _ = c.writer ++ _
            simp [statementText, Statement.bump]
          · show _ = (commandsOf (c.Program.drop (c.PC + 1 + 1).toNat)).map _
            rw [hd, hdq]
            refine commandsOf_param _ hpt hkw rfl ?_
            have : 1 ≤ q.Number ∧ q.Number ≤ 65535 := by omega
            simp [paramStatement, hqt, this]

theorem Statement.bump_le (s : Statement) (k : Nat) : k ≤ s.bump k ∧ s.bump k ≤ k + 1 := by
  cases s <;> simp [Statement.bump]

/-- The text a run of the compiler's dispatch loop writes when it ends without error. -/
theorem Compiler.compileLoop_text (fuel : Nat) (c cf : Compiler) (k : Nat)
    (h : c.compileLoop fuel = (cf, .done)) (hv : c.vidx = (k : Int))
    (hk : (k : Int) + ((c.Program.length : Int) - c.PC) < 9223372036854775808) :
    ∃ stmts, commandsOf (c.Program.drop c.PC.toNat) = some stmts ∧
      cf.writer = c.writer ++ programText k stmts := by
  induction fuel generalizing c k with
  | zero => simp [Compiler.compileLoop] at h
  | succ fuel ih =>
    unfold Compiler.compileLoop at h
    split at h
    · cases h
    · rename_i c1 hdis
      obtain ⟨s, hprog, h0, hlt, hle, hw, hvx, hcmd⟩ :=
        Compiler.compile_dispatch_text c c1 k hdis hv hk
      have hb := s.bump_le k
      split at h
      · rename_i heop
        simp only [Prod.mk.injEq, and_true] at h
        subst h
        have hpc : c1.PC = (c.Program.length : Int) := by
          have := of_decide_eq_true heop
          rw [this, hprog]
        have hdrop : c.Program.drop c1.PC.toNat = [] := by
          rw [hpc, Int.toNat_ofNat, List.drop_length]
        rw [hdrop] at hcmd
        refine ⟨[s], ?_, ?_⟩
        · rw [hcmd]; rfl
        · rw [hw]; simp [programText]
      · obtain ⟨stmts, hc1, hw1⟩ := ih c1 (s.bump k) h hvx (by rw [hprog]; omega)
        rw [hprog] at hc1
        rw [hc1] at hcmd
        refine ⟨s :: stmts, ?_, ?_⟩
        · rw [hcmd]; rfl
        · rw [hw1, hw]; simp [programText]

theorem runtimeBuild_length (program : List Char) (prog : List ProgramStep)
    (h : runtimeBuild program = (prog, .done)) : prog.length ≤ program.length := by
  obtain ⟨hp, hl⟩ := runtimeBuildLoop_stream _ _ _ _ h
  rw [hp]
  simp only [List.nil_append]
  have := List.length_filterMap_le keepStep (tokenStream (program.length + 1) (NewLexer program))
  have hl1 : (tokenStream (program.length + 1) (NewLexer program)).length ≤ program.length := by
    simpa [NewLexer] using hl
  omega

/-- C15. A compiler made afresh (on a writer holding `written`) that
compiles a source text without error: the instruction sequence built from
the text reads, from left to right, as a list of commands, one statement
each, and the text written is the text of these statements one after the
other and nothing else, the k-th `REPEAT` with the loop variable `vk`.  The
length of the source text fits a 64-bit `int`, as the length of every Go
string does. -/
theorem compile_emits_statements (written program : List Char)
    (hlen : (program.length : Int) < 9223372036854775808)
    (h : (Compile (NewCompiler written) program).2 = .done) :
    ∃ stmts, commandsOf (compilerBuild program).1 = some stmts ∧
      (Compile (NewCompiler written) program).1.writer = written ++ programText 0 stmts := by
  rcases hres : compilerBuild program with ⟨prog, out⟩
  have hrt : runtimeBuild program = (prog, out) := by rw [← compilerBuild_eq, hres]
  cases out with
  | done =>
    have hl := runtimeBuild_length program prog hrt
    simp only [Compile, hres] at h ⊢
    rcases hloop : Compiler.compileLoop (prog.length + 1)
      { NewCompiler written with Program := prog, PC := 0 } with ⟨cf, out⟩
    rw [hloop] at h
    simp only at h
    subst h
    obtain ⟨stmts, hc, hw⟩ := Compiler.compileLoop_text _ _ _ 0 hloop rfl
      (by show ((0 : Nat) : Int) + ((prog.length : Int) - 0) < _; omega)
    exact ⟨stmts, hc, hw⟩
  | returned e => simp [Compile, hres] at h
  | panicked e => simp [Compile, hres] at h
  | outOfFuel => simp [Compile, hres] at h

/-- Instance of `compile_emits_statements`: `HOME FORWARD 50` compiles to
exactly `home();forward(50);`, the text of the statements `home` and
`forward 50`; and in `REPEAT 2 REPEAT 3 LOOP LOOP` the two loops get the
variables `v1` and `v2`. -/
theorem compile_emits_statements_witness :
    (∃ stmts, commandsOf (compilerBuild "HOME FORWARD 50".toList).1 = some stmts ∧
      (Compile (NewCompiler []) "HOME FORWARD 50".toList).1.writer =
        [] ++ programText 0 stmts) ∧
    (Compile (NewCompiler []) "HOME FORWARD 50".toList).2 = .done ∧
    (Compile (NewCompiler []) "HOME FORWARD 50".toList).1.writer =
      "home();forward(50);".toList ∧
    programText 0 [.home, .forward 50] = "home();forward(50);".toList ∧
    (Compile (NewCompiler []) "REPEAT 2 REPEAT 3 LOOP LOOP".toList).1.writer =
      "for(let v1=0;v1<2;++v1)\x7bfor(let v2=0;v2<3;++v2)\x7b\x7d\x7d".toList := by
  exact ⟨compile_emits_statements [] "HOME FORWARD 50".toList (by decide) (by decide),
    by decide, by decide, by decide, by decide⟩

/-- A successful call of `NextToken` that returns a string token has moved
the scan position forward. -/
theorem Lexer.NextToken_string_advance {l l1 : Lexer}
    (h : l.NextToken = (l1, .TkString, none)) : l.Position < l1.Position := by
  simp only [Lexer.NextToken, Lexer.isEol, Lexer.isLiteral, Lexer.isQuote, Lexer.isNumeric,
    Lexer.isAlpha, Lexer.isWhiteSpace, Lexer.isEof, Lexer.test, Lexer.cur, Lexer.rest,
    Lexer.advance, Lexer.run, drop_pos_add, drop_length_takeWhile] at h
  generalize hR : List.drop l.Position l.Expr = R at h
  split at h
  · simp at h
  · split at h
    · simp at h
    · split at h
      · simp at h
      · split at h
        · simp at h
        · split at h
          · simp only [Prod.mk.injEq, and_true] at h
            rw [← h]
            show l.Position < _
            simp only []
            omega
          · split at h
            · split at h <;> simp at h
            · split at h
              · split at h <;> simp at h
              · simp at h

/-- Every call of `NextToken` that returns a token other than the end of
file, without error, has moved the scan position forward. -/
theorem Lexer.NextToken_advances {l l1 : Lexer} {tok : Token}
    (h : l.NextToken = (l1, tok, none)) (he : tok ≠ .TkEOF) : l.Position < l1.Position := by
  by_cases hs : tok = .TkString
  · subst hs; exact Lexer.NextToken_string_advance h
  · obtain ⟨_, _, ws, text, _, _, hlt, _⟩ := Lexer.NextToken_ok h hs he
    exact hlt

theorem Runtime.next_inv {r r1 : Runtime} {p : ProgramStep}
    (h : r.next = (r1, .ok p)) :
    fetch r.Program r.PC = some p ∧ r1 = { r with PC := r.PC + 1 } := by
  unfold Runtime.next at h
  split at h
  · cases h
  · split at h
    · cases h
    · rename_i tok hf
      simp only [Prod.mk.injEq, Res.ok.injEq] at h
      exact ⟨by rw [hf, h.2], h.1.symm⟩

theorem Runtime.getParam_inv {r r1 : Runtime} {q : ProgramStep} {expected : Token}
    (h : r.getParam expected = (r1, .ok q)) :
    fetch r.Program r.PC = some q ∧ q.Token = expected ∧ r1 = { r with PC := r.PC + 1 } := by
  unfold Runtime.getParam at h
  split at h
  · cases h
  · rename_i r2 param hn
    obtain ⟨hf, hc⟩ := Runtime.next_inv hn
    split at h
    · cases h
    · rename_i ht
      simp only [Prod.mk.injEq, Res.ok.injEq] at h
      obtain ⟨h1, h2⟩ := h
      subst h1 h2
      exact ⟨hf, not_not.mp ht, hc⟩

theorem Runtime.getColor_inv {r r1 : Runtime} {v : Color}
    (h : r.getColor = (r1, .ok v)) :
    ∃ q, fetch r.Program r.PC = some q ∧ q.Token = .TkIdent ∧
      r1 = { r with PC := r.PC + 1 } ∧ mapGet COLORS (ToUpper q.String) = some v := by
  unfold Runtime.getColor at h
  split at h
  · cases h
  · rename_i r2 q hg
    obtain ⟨hf, hqt, hr2⟩ := Runtime.getParam_inv hg
    split at h
    · rename_i value hm
      simp only [Prod.mk.injEq, Res.ok.injEq] at h
      obtain ⟨h1, h2⟩ := h
      subst h1 h2
      exact ⟨q, hf, hqt, hr2, hm⟩
    · cases h

/-- A command other than `REPEAT` and `LOOP` that succeeds leaves program
and stack as they were and consumes at most one step, its parameter. -/
theorem Runtime.command_plain (M : FloatOps) (kw : Keyword) (r r1 : Runtime)
    (hk1 : kw ≠ .REPEAT) (hk2 : kw ≠ .LOOP) (h : command M kw r = (r1, none)) :
    r1.Program = r.Program ∧ r1.Stack = r.Stack ∧ r1.SP = r.SP ∧ r.PC ≤ r1.PC ∧
    (r1.PC = r.PC ∨ (r1.PC = r.PC + 1 ∧ ∃ q, fetch r.Program r.PC = some q)) := by
  cases kw with
  | REPEAT => exact absurd rfl hk1
  | LOOP => exact absurd rfl hk2
  | HOME =>
    simp only [command, homeCmd, Prod.mk.injEq, and_true] at h
    subst h
    exact ⟨rfl, rfl, rfl, le_refl _, Or.inl rfl⟩
  | PAPER =>
    simp only [command, paperCmd] at h
    split at h
    · cases h
    · rename_i r2 col hg
      obtain ⟨q, hf, _, hr2, _⟩ := Runtime.getColor_inv hg
      subst hr2
      simp only [Prod.mk.injEq, and_true] at h
      subst h
      exact ⟨rfl, rfl, rfl, by show r.PC ≤ r.PC + 1; omega, Or.inr ⟨rfl, q, hf⟩⟩
  | INK =>
    simp only [command, inkCmd] at h
    split at h
    · cases h
    · rename_i r2 col hg
      obtain ⟨q, hf, _, hr2, _⟩ := Runtime.getColor_inv hg
      subst hr2
      simp only [Prod.mk.injEq, and_true] at h
      subst h
      exact ⟨rfl, rfl, rfl, by show r.PC ≤ r.PC + 1; omega, Or.inr ⟨rfl, q, hf⟩⟩
  | PEN =>
    simp only [command, penCmd] at h
    split at h
    · cases h
    · rename_i r2 q hg
      obtain ⟨hf, _, hr2⟩ := Runtime.getParam_inv hg
      subst hr2
      split at h
      · simp only [Prod.mk.injEq, and_true] at h
        subst h
        exact ⟨rfl, rfl, rfl, by show r.PC ≤ r.PC + 1; omega, Or.inr ⟨rfl, q, hf⟩⟩
      · cases h
  | FORWARD =>
    simp only [command, forwardCmd] at h
    split at h
    · cases h
    · rename_i r2 q hg
      obtain ⟨hf, _, hr2⟩ := Runtime.getParam_inv hg
      subst hr2
      simp only [Prod.mk.injEq, and_true] at h
      subst h
      cases hpd : r.PenDown <;>
        exact ⟨by simp [hpd], by simp [hpd], by simp [hpd], by simp [hpd],
          Or.inr ⟨by simp [hpd], q, hf⟩⟩
  | BACK =>
    simp only [command, backCmd] at h
    split at h
    · cases h
    · rename_i r2 q hg
      obtain ⟨hf, _, hr2⟩ := Runtime.getParam_inv hg
      subst hr2
      simp only [Prod.mk.injEq, and_true] at h
      subst h
      cases hpd : r.PenDown <;>
        exact ⟨by simp [hpd], by simp [hpd], by simp [hpd], by simp [hpd],
          Or.inr ⟨by simp [hpd], q, hf⟩⟩
  | LEFT =>
    simp only [command, leftCmd] at h
    split at h
    · cases h
    · rename_i r2 q hg
      obtain ⟨hf, _, hr2⟩ := Runtime.getParam_inv hg
      subst hr2
      simp only [Prod.mk.injEq, and_true] at h
      subst h
      exact ⟨rfl, rfl, rfl, by show r.PC ≤ r.PC + 1; omega, Or.inr ⟨rfl, q, hf⟩⟩
  | RIGHT =>
    simp only [command, rightCmd] at h
    split at h
    · cases h
    · rename_i r2 q hg
      obtain ⟨hf, _, hr2⟩ := Runtime.getParam_inv hg
      subst hr2
      simp only [Prod.mk.injEq, and_true] at h
      subst h
      exact ⟨rfl, rfl, rfl, by show r.PC ≤ r.PC + 1; omega, Or.inr ⟨rfl, q, hf⟩⟩

theorem Runtime.push_inv {r r1 : Runtime} {v : Int} (h : r.push v = (r1, none)) :
    0 ≤ r.SP ∧ r.SP < 256 ∧
    r1 = { r with Stack := Function.update r.Stack r.SP v, SP := r.SP + 1 } := by
  unfold Runtime.push at h
  split at h
  · cases h
  · split at h
    · rename_i hr
      simp only [Prod.mk.injEq, and_true] at h
      exact ⟨hr.1, hr.2, h.symm⟩
    · cases h

theorem Runtime.pop_inv {r r1 : Runtime} {v : Int} (h : r.pop = (r1, .ok v))
    (h1 : -9223372036854775808 ≤ r.SP) (h2 : r.SP < 9223372036854775808) :
    1 ≤ r.SP ∧ r.SP ≤ 256 ∧ r1 = { r with SP := r.SP - 1 } ∧ v = r.Stack (r.SP - 1) := by
  unfold Runtime.pop at h
  split at h
  · cases h
  · rename_i hne
    simp only at h
    split at h
    · rename_i hr
      by_cases hmin : r.SP = -9223372036854775808
      · rw [hmin] at hr
        have : wrapInt64 (-9223372036854775808 - 1) = 9223372036854775807 := by decide
        rw [this] at hr
        omega
      · have hw : wrapInt64 (r.SP - 1) = r.SP - 1 := wrapInt64_of_range (by omega) (by omega)
        rw [hw] at hr h
        simp only [Prod.mk.injEq, Res.ok.injEq] at h
        exact ⟨by omega, by omega, h.1.symm, h.2.symm⟩
    · cases h

/-- What a successful `REPEAT` has done. -/
theorem Runtime.repeat_inv {r r1 : Runtime} (h : repeatCmd r = (r1, none)) :
    ∃ q, fetch r.Program r.PC = some q ∧ 1 ≤ q.Number ∧ q.Number ≤ 65535 ∧
      0 ≤ r.SP ∧ r.SP ≤ 254 ∧ r1.Program = r.Program ∧ r1.PC = r.PC + 1 ∧
      r1.SP = r.SP + 2 ∧ r1.Stack r.SP = r.PC + 1 ∧ r1.Stack (r.SP + 1) = q.Number ∧
      (∀ i, i < r.SP → r1.Stack i = r.Stack i) ∧ r1.observed = r.observed := by
  unfold repeatCmd at h
  split at h
  · cases h
  · rename_i r2 q hg
    obtain ⟨hf, _, hr2⟩ := Runtime.getParam_inv hg
    subst hr2
    split at h
    · cases h
    · rename_i hrange
      split at h
      · cases h
      · rename_i r3 hp1
        obtain ⟨hs0, hs1, hr3⟩ := Runtime.push_inv hp1
        subst hr3
        obtain ⟨ht0, ht1, hr1⟩ := Runtime.push_inv h
        subst hr1
        have hs0 : 0 ≤ r.SP := hs0
        have ht1 : r.SP + 1 < 256 := ht1
        refine ⟨q, hf, by omega, by omega, hs0, by omega, rfl, rfl,
          by show r.SP + 1 + 1 = _; omega, ?_, ?_, ?_, rfl⟩
        · show Function.update (Function.update r.Stack r.SP (r.PC + 1)) (r.SP + 1) q.Number
            r.SP = _
          rw [Function.update_noteq (by omega), Function.update_same]
        · show Function.update (Function.update r.Stack r.SP (r.PC + 1)) (r.SP + 1) q.Number
            (r.SP + 1) = _
          rw [Function.update_same]
        · intro i hi
          show Function.update (Function.update r.Stack r.SP (r.PC + 1)) (r.SP + 1) q.Number
            i = _
          rw [Function.update_noteq (by omega), Function.update_noteq (by omega)]

/-- What a successful `LOOP` has done: a jump or the removal of the frame. -/
theorem Runtime.loop_inv {r r1 : Runtime} (h : loopCmd r = (r1, none))
    (h1 : -9223372036854775808 ≤ r.SP) (h2 : r.SP < 9223372036854775808) :
    2 ≤ r.SP ∧ r.SP ≤ 256 ∧ r1.Program = r.Program ∧ r1.observed = r.observed ∧
    ((0 < wrapInt64 (r.Stack (r.SP - 1) - 1) ∧ r1.SP = r.SP ∧ r1.PC = r.Stack (r.SP - 2) ∧
        r1.Stack (r.SP - 1) = wrapInt64 (r.Stack (r.SP - 1) - 1) ∧
        (∀ i, i ≠ r.SP - 1 → r1.Stack i = r.Stack i)) ∨
      (wrapInt64 (r.Stack (r.SP - 1) - 1) ≤ 0 ∧ r1.SP = r.SP - 2 ∧ r1.PC = r.PC ∧
        r1.Stack = r.Stack)) := by
  unfold loopCmd at h
  split at h
  · cases h
  · rename_i r2 popped hp1
    obtain ⟨hs0, hs1, hr2, hv⟩ := Runtime.pop_inv hp1 h1 h2
    subst hr2 hv
    simp only at h
    split at h
    · rename_i hpos
      split at h
      · cases h
      · rename_i r3 pc hp2
        obtain ⟨ht0, ht1, hr3, hpc⟩ := Runtime.pop_inv hp2 (by show _ ≤ r.SP - 1; omega)
          (by show r.SP - 1 < _; omega)
        subst hr3 hpc
        have ht0 : 1 ≤ r.SP - 1 := ht0
        split at h
        · cases h
        · rename_i r4 hp3
          obtain ⟨_, _, hr4⟩ := Runtime.push_inv hp3
          subst hr4
          split at h
          · cases h
          · rename_i r5 hp4
            obtain ⟨_, _, hr5⟩ := Runtime.push_inv hp4
            subst hr5
            simp only [Prod.mk.injEq, and_true] at h
            subst h
            have e1 : r.SP - 1 - 1 = r.SP - 2 := by omega
            have e2 : r.SP - 1 - 1 + 1 = r.SP - 1 := by omega
            refine ⟨by omega, hs1, rfl, rfl, Or.inl ⟨hpos, by show r.SP - 1 - 1 + 1 + 1 = _; omega,
              by show r.Stack (r.SP - 1 - 1) = _; rw [e1], ?_, ?_⟩⟩
            · show Function.update (Function.update r.Stack (r.SP - 1 - 1)
                (r.Stack (r.SP - 1 - 1))) (r.SP - 1 - 1 + 1)
                (wrapInt64 (r.Stack (r.SP - 1) - 1)) (r.SP - 1) = _
              rw [e2, Function.update_same]
            · intro i hi
              show Function.update (Function.update r.Stack (r.SP - 1 - 1)
                (r.Stack (r.SP - 1 - 1))) (r.SP - 1 - 1 + 1)
                (wrapInt64 (r.Stack (r.SP - 1) - 1)) i = _
              rw [Function.update_noteq (by omega), Function.update_eq_self]
    · rename_i hpos
      split at h
      · cases h
      · rename_i r3 pc hp2
        obtain ⟨ht0, ht1, hr3, hpc⟩ := Runtime.pop_inv hp2 (by show _ ≤ r.SP - 1; omega)
          (by show r.SP - 1 < _; omega)
        subst hr3
        have ht0 : 1 ≤ r.SP - 1 := ht0
        simp only [Prod.mk.injEq, and_true] at h
        subst h
        exact ⟨by omega, hs1, rfl, rfl, Or.inr ⟨by omega, by show r.SP - 1 - 1 = _; omega, rfl,
          rfl⟩⟩

/-- What a successful round of dispatch has done: a command other than
`REPEAT` and `LOOP`, a `REPEAT`, a `LOOP` that jumps or a `LOOP` that removes
its frame. -/
theorem Runtime.dispatch_inv (M : FloatOps) {r r1 : Runtime} (h : r.dispatch M = (r1, none))
    (h1 : -9223372036854775808 ≤ r.SP) (h2 : r.SP < 9223372036854775808) :
    ∃ p kw, fetch r.Program r.PC = some p ∧ p.Token = .TkIdent ∧
      mapGet KEYWORDS (ToUpper p.String) = some kw ∧ r1.Program = r.Program ∧
      ((kw ≠ .REPEAT ∧ kw ≠ .LOOP ∧ r1.Stack = r.Stack ∧ r1.SP = r.SP ∧ r.PC < r1.PC ∧
          r1.PC ≤ (r.Program.length : Int)) ∨
        (kw = .REPEAT ∧ 0 ≤ r.SP ∧ r.SP ≤ 254 ∧ r1.SP = r.SP + 2 ∧ r1.PC = r.PC + 2 ∧
          r1.PC ≤ (r.Program.length : Int) ∧ r1.Stack r.SP = r.PC + 2 ∧
          1 ≤ r1.Stack (r.SP + 1) ∧ r1.Stack (r.SP + 1) ≤ 65535 ∧
          (∀ i, i < r.SP → r1.Stack i = r.Stack i) ∧ r1.observed = r.observed) ∨
        (kw = .LOOP ∧ 2 ≤ r.SP ∧ r.SP ≤ 256 ∧ r1.observed = r.observed ∧
          0 < wrapInt64 (r.Stack (r.SP - 1) - 1) ∧ r1.SP = r.SP ∧
          r1.PC = r.Stack (r.SP - 2) ∧
          r1.Stack (r.SP - 1) = wrapInt64 (r.Stack (r.SP - 1) - 1) ∧
          (∀ i, i ≠ r.SP - 1 → r1.Stack i = r.Stack i)) ∨
        (kw = .LOOP ∧ 2 ≤ r.SP ∧ r.SP ≤ 256 ∧ r1.observed = r.observed ∧
          wrapInt64 (r.Stack (r.SP - 1) - 1) ≤ 0 ∧ r1.SP = r.SP - 2 ∧ r1.PC = r.PC + 1 ∧
          r1.Stack = r.Stack)) := by
  unfold Runtime.dispatch at h
  split at h
  · cases h
  · rename_i r2 p hn
    obtain ⟨hf, hr2⟩ := Runtime.next_inv hn
    subst hr2
    have hr := fetch_some_range hf
    split at h
    · cases h
    · rename_i hpt
      have hpt : p.Token = .TkIdent := not_not.mp hpt
      split at h
      swap
      · cases h
      rename_i kw hkw
      by_cases hrep : kw = .REPEAT
      · subst hrep
        obtain ⟨q, hfq, hn1, hn2, hs0, hs1, hprog, hpc, hsp, hst0, hst1, hbelow, hobs⟩ :=
          Runtime.repeat_inv h
        have hrq := fetch_some_range hfq
        have hrq2 : r.PC + 1 < (r.Program.length : Int) := hrq.2
        have hpc : r1.PC = r.PC + 1 + 1 := hpc
        have hst0 : r1.Stack r.SP = r.PC + 1 + 1 := hst0
        refine ⟨p, .REPEAT, hf, hpt, hkw, hprog, Or.inr (Or.inl ⟨rfl, hs0, hs1, hsp, by omega,
          by omega, by omega, ?_, ?_, hbelow, hobs⟩)⟩
        · have e : r1.Stack (r.SP + 1) = q.Number := hst1
          omega
        · have e : r1.Stack (r.SP + 1) = q.Number := hst1
          omega
      · by_cases hloop : kw = .LOOP
        · subst hloop
          obtain ⟨hs0, hs1, hprog, hobs, hj | hfall⟩ := Runtime.loop_inv h h1 h2
          · exact ⟨p, .LOOP, hf, hpt, hkw, hprog, Or.inr (Or.inr (Or.inl
              ⟨rfl, hs0, hs1, hobs, hj⟩))⟩
          · exact ⟨p, .LOOP, hf, hpt, hkw, hprog, Or.inr (Or.inr (Or.inr
              ⟨rfl, hs0, hs1, hobs, hfall⟩))⟩
        · obtain ⟨hprog, hst, hsp, hle, hpc⟩ := Runtime.command_plain M kw _ r1 hrep hloop h
          have hle : r.PC + 1 ≤ r1.PC := hle
          refine ⟨p, kw, hf, hpt, hkw, hprog, Or.inl ⟨hrep, hloop, hst, hsp, by omega, ?_⟩⟩
          rcases hpc with hpc | ⟨hpc, q, hfq⟩
          · have hpc : r1.PC = r.PC + 1 := hpc
            omega
          · have hrq := fetch_some_range hfq
            have hrq2 : r.PC + 1 < (r.Program.length : Int) := hrq.2
            have hpc : r1.PC = r.PC + 1 + 1 := hpc
            omega

theorem wrapInt64_bounds (x : Int) :
    -9223372036854775808 ≤ wrapInt64 x ∧ wrapInt64 x < 9223372036854775808 := by
  unfold wrapInt64; omega

theorem jumpsLeft_jump (c : Int) (h : 0 < wrapInt64 (c - 1)) :
    jumpsLeft (wrapInt64 (c - 1)) < jumpsLeft c := by
  have hb := wrapInt64_bounds (c - 1)
  unfold jumpsLeft
  by_cases hc : 1 ≤ c ∧ c ≤ 9223372036854775807
  · have hw : wrapInt64 (c - 1) = c - 1 := wrapInt64_of_range (by omega) (by omega)
    rw [hw] at h ⊢
    rw [if_pos (by omega), if_pos hc]
    omega
  · rw [if_pos (by omega), if_neg hc]
    omega

theorem Halts.of_fault (M : FloatOps) {r r1 : Runtime} {e : Fault}
    (h : r.dispatch M = (r1, some e)) : Halts M r :=
  ⟨1, by simp [Runtime.runLoop, h]⟩

theorem Halts.of_eop (M : FloatOps) {r r1 : Runtime}
    (h : r.dispatch M = (r1, none)) (he : r1.isEOP = true) : Halts M r :=
  ⟨1, by simp [Runtime.runLoop, h, he]⟩

theorem Halts.of_rounds (M : FloatOps) {k : Nat} {r r1 : Runtime}
    (h : Runtime.rounds M k r = some r1) (hh : Halts M r1) : Halts M r := by
  obtain ⟨fuel, hf⟩ := hh
  exact ⟨k + fuel, by rw [Runtime.runLoop_rounds M h]; exact hf⟩

/-- The run of the dispatch loop from a state `r` until the frame on top of
the stack is removed: the loop halts before that, or after some rounds it
reaches a state with that frame removed, the stack beneath it untouched,
and, when the saved index of the frame was not past the program counter,
the program counter past that saved index. -/
theorem Runtime.excursion (M : FloatOps) (N : Nat) :
    ∀ (a b : Nat) (r : Runtime), -9223372036854775808 ≤ r.SP → r.SP < 9223372036854775808 →
      (256 - r.SP).toNat < N → jumpsLeft (r.Stack (r.SP - 1)) < a →
      ((r.Program.length : Int) - r.PC).toNat < b →
      Halts M r ∨ ∃ k r1, Runtime.rounds M k r = some r1 ∧ r1.Program = r.Program ∧
        2 ≤ r.SP ∧ r.SP ≤ 256 ∧ r1.SP = r.SP - 2 ∧
        (∀ i, i < r.SP - 2 → r1.Stack i = r.Stack i) ∧
        (r.Stack (r.SP - 2) ≤ r.PC → r.Stack (r.SP - 2) < r1.PC) := by
  induction N with
  | zero => intro a b r _ _ h; omega
  | succ N ihN =>
    intro a
    induction a with
    | zero => intro b r _ _ _ h; omega
    | succ a iha =>
      intro b
      induction b with
      | zero => intro r _ _ _ _ h; omega
      | succ b ihb =>
        intro r h1 h2 hN ha hb
        rcases hd : r.dispatch M with ⟨r1, _ | e⟩
        swap
        · exact Or.inl (Halts.of_fault M hd)
        by_cases he : r1.isEOP = true
        · exact Or.inl (Halts.of_eop M hd he)
        have he : r1.isEOP = false := by simpa using he
        have hone := Runtime.rounds_one M hd he
        obtain ⟨p, kw, hf, hpt, hkw, hprog, hcase⟩ := Runtime.dispatch_inv M hd h1 h2
        have hr := fetch_some_range hf
        rcases hcase with ⟨_, _, hst, hsp, hlt, hle⟩ |
          ⟨_, hs0, hs1, hsp, hpc, hle, hst0, hc1, hc2, hbelow, _⟩ |
          ⟨_, hs0, hs1, _, hpos, hsp, hpc, hst, hother⟩ |
          ⟨_, hs0, hs1, _, hnp, hsp, hpc, hst⟩
        · -- a command other than `REPEAT` and `LOOP`
          have hB := ihb r1 (by rw [hsp]; exact h1) (by rw [hsp]; exact h2)
            (by rw [hsp]; exact hN) (by rw [hst, hsp]; exact ha) (by rw [hprog]; omega)
          rcases hB with hh | ⟨k, r2, hk, hp2, hs0, hs1, hsp2, hbel, hpc2⟩
          · exact Or.inl (Halts.of_rounds M hone hh)
          · rw [hsp, hst] at hbel hpc2
            rw [hsp] at hs0 hs1 hsp2
            refine Or.inr ⟨1 + k, r2, Runtime.rounds_trans M hone hk, by rw [hp2, hprog],
              hs0, hs1, hsp2, hbel, ?_⟩
            intro hs
            exact hpc2 (by omega)
        · -- `REPEAT`: the frame it opens is run until it is removed
          have hB := ihN (jumpsLeft (r1.Stack (r1.SP - 1)) + 1)
            (((r1.Program.length : Int) - r1.PC).toNat + 1) r1 (by omega) (by omega) (by omega)
            (by omega) (by omega)
          rcases hB with hh | ⟨k, r2, hk, hp2, _, _, hsp2, hbel2, hpc2⟩
          · exact Or.inl (Halts.of_rounds M hone hh)
          · have e1 : r1.SP - 2 = r.SP := by omega
            rw [e1] at hsp2 hbel2 hpc2
            have hpc2 := hpc2 (by omega)
            have hB2 := ihb r2 (by omega) (by omega) (by rw [hsp2]; exact hN)
              (by rw [hsp2, hbel2 _ (by omega), hbelow _ (by omega)]; exact ha)
              (by rw [hp2, hprog]; omega)
            rcases hB2 with hh | ⟨k3, r3, hk3, hp3, hs0, hs1, hsp3, hbel3, hpc3⟩
            · exact Or.inl (Halts.of_rounds M (Runtime.rounds_trans M hone hk) hh)
            · rw [hsp2] at hs0 hs1 hsp3 hbel3 hpc3
              rw [hbel2 _ (by omega), hbelow _ (by omega)] at hpc3
              refine Or.inr ⟨1 + k + k3, r3,
                Runtime.rounds_trans M (Runtime.rounds_trans M hone hk) hk3,
                by rw [hp3, hp2, hprog], hs0, hs1, hsp3, ?_, ?_⟩
              · intro i hi
                rw [hbel3 i hi, hbel2 i (by omega), hbelow i (by omega)]
              · intro hs
                exact hpc3 (by omega)
        · -- `LOOP` that jumps
          have hjl := jumpsLeft_jump _ hpos
          have hB := iha (((r1.Program.length : Int) - r1.PC).toNat + 1) r1 (by omega)
            (by omega) (by rw [hsp]; exact hN) (by rw [hsp, hst]; omega) (by omega)
          rcases hB with hh | ⟨k, r2, hk, hp2, _, _, hsp2, hbel2, hpc2⟩
          · exact Or.inl (Halts.of_rounds M hone hh)
          · rw [hsp] at hsp2 hbel2 hpc2
            rw [hother _ (by omega), hpc] at hpc2
            refine Or.inr ⟨1 + k, r2, Runtime.rounds_trans M hone hk, by rw [hp2, hprog],
              hs0, hs1, hsp2, ?_, ?_⟩
            · intro i hi
              rw [hbel2 i hi, hother i (by omega)]
            · intro _
              exact hpc2 (le_refl _)
        · -- `LOOP` that removes the frame
          refine Or.inr ⟨1, r1, hone, hprog, hs0, hs1, hsp, ?_, ?_⟩
          · intro i _; rw [hst]
          · intro hs; omega

/-- The dispatch loop halts from every state. -/
theorem Runtime.halts (M : FloatOps) (r : Runtime)
    (h1 : -9223372036854775808 ≤ r.SP) (h2 : r.SP < 9223372036854775808) : Halts M r := by
  suffices hs : ∀ (n : Nat) (r : Runtime), -9223372036854775808 ≤ r.SP →
      r.SP < 9223372036854775808 → r.SP.toNat < n → Halts M r from
    hs (r.SP.toNat + 1) r h1 h2 (by omega)
  intro n
  induction n with
  | zero => intro r _ _ h; omega
  | succ n ih =>
    intro r h1 h2 hn
    rcases Runtime.excursion M ((256 - r.SP).toNat + 1) (jumpsLeft (r.Stack (r.SP - 1)) + 1)
      (((r.Program.length : Int) - r.PC).toNat + 1) r h1 h2 (by omega) (by omega) (by omega)
      with hh | ⟨k, r1, hk, _, hs0, hs1, hsp, _, _⟩
    · exact hh
    · exact Halts.of_rounds M hk (ih r1 (by omega) (by omega) (by omega))

/-- A handler of the compiler that succeeds leaves the program as it was and
consumes at most one step, its parameter. -/
theorem Compiler.compileCommand_progress (kw : Keyword) (c c1 : Compiler)
    (h : compileCommand kw c = (c1, none)) :
    c1.Program = c.Program ∧
    (c1.PC = c.PC ∨ (c1.PC = c.PC + 1 ∧ ∃ q, fetch c.Program c.PC = some q)) := by
  have call : ∀ name : List Char, compileCall name c = (c1, none) →
      c1.Program = c.Program ∧
      (c1.PC = c.PC ∨ (c1.PC = c.PC + 1 ∧ ∃ q, fetch c.Program c.PC = some q)) := by
    intro name hc
    unfold compileCall at hc
    split at hc
    · cases hc
    · rename_i c2 q hg
      obtain ⟨hf, _, hc2⟩ := Compiler.compile_getParam_inv hg
      subst hc2
      simp only [Prod.mk.injEq, and_true] at hc
      subst hc
      exact ⟨rfl, Or.inr ⟨rfl, q, hf⟩⟩
  cases kw with
  | HOME =>
    simp only [compileCommand, compileHomeCmd, Prod.mk.injEq, and_true] at h
    subst h
    exact ⟨rfl, Or.inl rfl⟩
  | LOOP =>
    simp only [compileCommand, compileLoopCmd, Prod.mk.injEq, and_true] at h
    subst h
    exact ⟨rfl, Or.inl rfl⟩
  | FORWARD => exact call _ h
  | BACK => exact call _ h
  | LEFT => exact call _ h
  | RIGHT => exact call _ h
  | PAPER =>
    simp only [compileCommand, compilePaperCmd] at h
    split at h
    · cases h
    · rename_i c2 color hg
      obtain ⟨q, col, hf, _, hc2, _, _⟩ := Compiler.compile_getColor_inv hg
      subst hc2
      simp only [Prod.mk.injEq, and_true] at h
      subst h
      exact ⟨rfl, Or.inr ⟨rfl, q, hf⟩⟩
  | INK =>
    simp only [compileCommand, compileInkCmd] at h
    split at h
    · cases h
    · rename_i c2 color hg
      obtain ⟨q, col, hf, _, hc2, _, _⟩ := Compiler.compile_getColor_inv hg
      subst hc2
      simp only [Prod.mk.injEq, and_true] at h
      subst h
      exact ⟨rfl, Or.inr ⟨rfl, q, hf⟩⟩
  | PEN =>
    simp only [compileCommand, compilePenCmd] at h
    split at h
    · cases h
    · rename_i c2 q hg
      obtain ⟨hf, _, hc2⟩ := Compiler.compile_getParam_inv hg
      subst hc2
      split at h
      · simp only [Prod.mk.injEq, and_true] at h
        subst h
        exact ⟨rfl, Or.inr ⟨rfl, q, hf⟩⟩
      · cases h
  | REPEAT =>
    simp only [compileCommand, compileRepeatCmd] at h
    split at h
    · cases h
    · rename_i c2 q hg
      obtain ⟨hf, _, hc2⟩ := Compiler.compile_getParam_inv hg
      subst hc2
      split at h
      · cases h
      · simp only [Compiler.nextVar, Prod.mk.injEq, and_true] at h
        subst h
        exact ⟨rfl, Or.inr ⟨rfl, q, hf⟩⟩

/-- A successful round of the compiler's dispatch moves the program counter
forward, at most to the end of the program. -/
theorem Compiler.compile_dispatch_progress {c c1 : Compiler} (h : c.dispatch = (c1, none)) :
    c1.Program = c.Program ∧ 0 ≤ c.PC ∧ c.PC < c1.PC ∧ c1.PC ≤ (c.Program.length : Int) := by
  unfold Compiler.dispatch at h
  split at h
  · cases h
  · rename_i c2 p hn
    obtain ⟨hf, hc2⟩ := Compiler.compile_next_inv hn
    subst hc2
    have hr := fetch_some_range hf
    split at h
    · cases h
    · split at h
      swap
      · cases h
      rename_i kw hkw
      obtain ⟨hprog, hpc⟩ := Compiler.compileCommand_progress kw _ c1 h
      refine ⟨hprog, hr.1, ?_, ?_⟩
      · rcases hpc with hpc | ⟨hpc, _⟩
        · have hpc : c1.PC = c.PC + 1 := hpc
          omega
        · have hpc : c1.PC = c.PC + 1 + 1 := hpc
          omega
      · rcases hpc with hpc | ⟨hpc, q, hfq⟩
        · have hpc : c1.PC = c.PC + 1 := hpc
          omega
        · have hrq := fetch_some_range hfq
          have hrq2 : c.PC + 1 < (c.Program.length : Int) := hrq.2
          have hpc : c1.PC = c.PC + 1 + 1 := hpc
          omega

/-- The dispatch loop of `Compile` ends within one round per step of the
program that is left. -/
theorem Compiler.compileLoop_fuel (fuel : Nat) (c : Compiler)
    (hf : ((c.Program.length : Int) - c.PC).toNat < fuel) :
    (c.compileLoop fuel).2 ≠ .outOfFuel := by
  induction fuel generalizing c with
  | zero => omega
  | succ fuel ih =>
    unfold Compiler.compileLoop
    rcases hd : c.dispatch with ⟨c1, _ | e⟩
    · simp only
      obtain ⟨hprog, h0, hlt, hle⟩ := Compiler.compile_dispatch_progress hd
      split
      · simp
      · exact ih c1 (by rw [hprog]; omega)
    · simp

/-- The call `Compile` ends: the build pass within one round per rune of the
source text and one more, the dispatch loop within one round per step of the
program and one more. -/
theorem Compiler.Compile_fuel (c : Compiler) (program : List Char) :
    (Compile c program).2 ≠ .outOfFuel := by
  rcases hres : compilerBuild program with ⟨prog, out⟩
  have hb : (compilerBuild program).2 ≠ .outOfFuel := by
    rw [compilerBuild_eq]; exact runtimeBuild_fuel program
  rw [hres] at hb
  cases out with
  | done =>
    simp only [Compile, hres]
    exact Compiler.compileLoop_fuel _ _ (by show ((prog.length : Int) - 0).toNat < _; omega)
  | returned e => simp [Compile, hres]
  | panicked e => simp [Compile, hres]
  | outOfFuel => exact absurd rfl hb

/-- A successful round of dispatch keeps the frames of the stack well formed. -/
theorem FramesOk.dispatch (M : FloatOps) {r r1 : Runtime} (hok : FramesOk r)
    (h : r.dispatch M = (r1, none)) : FramesOk r1 := by
  obtain ⟨hs0, hs1, hev, hfr, hord⟩ := hok
  obtain ⟨p, kw, hf, hpt, hkw, hprog, hcase⟩ := Runtime.dispatch_inv M h (by omega) (by omega)
  have hr := fetch_some_range hf
  rcases hcase with ⟨_, _, hst, hsp, hlt, hle⟩ |
    ⟨_, _, hs254, hsp, hpc, hle, hst0, hc1, hc2, hbelow, _⟩ |
    ⟨_, hs2, _, _, hpos, hsp, hpc, hst, hother⟩ |
    ⟨_, hs2, _, _, hnp, hsp, hpc, hst⟩
  · refine ⟨by omega, by omega, by omega, ?_, ?_⟩
    · intro j hj0 hj
      rw [hsp] at hj
      obtain ⟨a1, a2, a3, a4, a5⟩ := hfr j hj0 hj
      rw [hst, hprog]
      exact ⟨a1, a2, a3, by omega, a5⟩
    · intro j k hj0 hjk hk
      rw [hsp] at hk
      rw [hst]
      exact hord j k hj0 hjk hk
  · refine ⟨by omega, by omega, by omega, ?_, ?_⟩
    · intro j hj0 hj
      rw [hsp] at hj
      by_cases hold : 2 * j + 1 < r.SP
      · obtain ⟨a1, a2, a3, a4, a5⟩ := hfr j hj0 hold
        rw [hbelow _ hold, hbelow _ (by omega), hprog]
        exact ⟨a1, a2, a3, by omega, a5⟩
      · have e : 2 * j = r.SP := by omega
        rw [e, hst0, hprog]
        exact ⟨hc1, hc2, by omega, by omega, by omega⟩
    · intro j k hj0 hjk hk
      rw [hsp] at hk
      by_cases hold : 2 * k + 1 < r.SP
      · rw [hbelow _ (by omega), hbelow _ (by omega)]
        exact hord j k hj0 hjk hold
      · have e : 2 * k = r.SP := by omega
        rw [e, hst0]
        by_cases hjk2 : j = k
        · subst hjk2; rw [e, hst0]
        · have hjold : 2 * j + 1 < r.SP := by omega
          rw [hbelow _ (by omega)]
          have := (hfr j hj0 hjold).2.2.2.1
          omega
  · have htop := hfr ((r.SP - 2) / 2) (by omega) (by omega)
    have e0 : 2 * ((r.SP - 2) / 2) = r.SP - 2 := by omega
    have e1 : r.SP - 2 + 1 = r.SP - 1 := by omega
    rw [e0, e1] at htop
    obtain ⟨t1, t2, t3, t4, t5⟩ := htop
    have hw : wrapInt64 (r.Stack (r.SP - 1) - 1) = r.Stack (r.SP - 1) - 1 :=
      wrapInt64_of_range (by omega) (by omega)
    rw [hw] at hpos hst
    refine ⟨by omega, by omega, by omega, ?_, ?_⟩
    · intro j hj0 hj
      rw [hsp] at hj
      obtain ⟨a1, a2, a3, a4, a5⟩ := hfr j hj0 hj
      have hjt := hord j ((r.SP - 2) / 2) hj0 (by omega) (by omega)
      rw [e0] at hjt
      rw [hother (2 * j) (by omega), hprog, hpc]
      refine ⟨?_, ?_, a3, hjt, a5⟩
      · by_cases htopj : 2 * j + 1 = r.SP - 1
        · rw [htopj, hst]; omega
        · rw [hother _ htopj]; exact a1
      · by_cases htopj : 2 * j + 1 = r.SP - 1
        · rw [htopj, hst]; omega
        · rw [hother _ htopj]; exact a2
    · intro j k hj0 hjk hk
      rw [hsp] at hk
      rw [hother (2 * j) (by omega), hother (2 * k) (by omega)]
      exact hord j k hj0 hjk hk
  · refine ⟨by omega, by omega, by omega, ?_, ?_⟩
    · intro j hj0 hj
      rw [hsp] at hj
      obtain ⟨a1, a2, a3, a4, a5⟩ := hfr j hj0 (by omega)
      rw [hst, hprog]
      exact ⟨a1, a2, a3, by omega, a5⟩
    · intro j k hj0 hjk hk
      rw [hsp] at hk
      rw [hst]
      exact hord j k hj0 hjk (by omega)

/-- Rounds of the dispatch loop keep the frames of the stack well formed. -/
theorem FramesOk.rounds (M : FloatOps) (k : Nat) {r r1 : Runtime} (hok : FramesOk r)
    (h : Runtime.rounds M k r = some r1) : FramesOk r1 := by
  induction k generalizing r with
  | zero => simp only [Runtime.rounds, Option.some.injEq] at h; subst h; exact hok
  | succ k ih =>
    simp only [Runtime.rounds] at h
    rcases hd : r.dispatch M with ⟨r2, _ | e⟩
    · rw [hd] at h
      simp only at h
      split at h
      · cases h
      · exact ih (FramesOk.dispatch M hok hd) h
    · rw [hd] at h
      cases h

/-- With an empty stack the frames are well formed. -/
theorem FramesOk.of_empty (r : Runtime) (h : r.SP = 0) : FramesOk r := by
  refine ⟨by omega, by omega, by omega, ?_, ?_⟩
  · intro j hj0 hj; omega
  · intro j k hj0 hjk hk; omega

/-- With well-formed frames a `LOOP` that succeeds either removes its frame
and goes on to the next step, or jumps to the saved index of its frame,
which is not past the `LOOP`, with the count of the frame one less and
still at least 1. -/
theorem FramesOk.loop (M : FloatOps) {r r1 : Runtime} {p : ProgramStep} (hok : FramesOk r)
    (h : r.dispatch M = (r1, none)) (hp : fetch r.Program r.PC = some p)
    (hloop : mapGet KEYWORDS (ToUpper p.String) = some .LOOP) :
    (r1.SP = r.SP - 2 ∧ r1.PC = r.PC + 1) ∨
    (r1.SP = r.SP ∧ r1.PC = r.Stack (r.SP - 2) ∧ r1.PC ≤ r.PC ∧
      r1.Stack (r.SP - 1) = r.Stack (r.SP - 1) - 1 ∧ 1 ≤ r1.Stack (r.SP - 1)) := by
  obtain ⟨hs0, hs1, hev, hfr, hord⟩ := hok
  obtain ⟨p1, kw, hf, hpt, hkw, hprog, hcase⟩ := Runtime.dispatch_inv M h (by omega) (by omega)
  rw [hp] at hf
  simp only [Option.some.injEq] at hf
  subst hf
  rw [hloop] at hkw
  simp only [Option.some.injEq] at hkw
  subst hkw
  rcases hcase with ⟨_, hne, _⟩ | ⟨hne, _⟩ |
    ⟨_, hs2, _, _, hpos, hsp, hpc, hst, hother⟩ |
    ⟨_, hs2, _, _, hnp, hsp, hpc, hst⟩
  · exact absurd rfl hne
  · cases hne
  · have htop := hfr ((r.SP - 2) / 2) (by omega) (by omega)
    have e0 : 2 * ((r.SP - 2) / 2) = r.SP - 2 := by omega
    have e1 : r.SP - 2 + 1 = r.SP - 1 := by omega
    rw [e0, e1] at htop
    obtain ⟨t1, t2, t3, t4, t5⟩ := htop
    have hw : wrapInt64 (r.Stack (r.SP - 1) - 1) = r.Stack (r.SP - 1) - 1 :=
      wrapInt64_of_range (by omega) (by omega)
    rw [hw] at hpos hst
    exact Or.inr ⟨hsp, hpc, by omega, hst, by omega⟩
  · exact Or.inl ⟨hsp, hpc⟩

/-- C19. `Run` and `Compile` end on every source text.  For every runtime
(its stack depth a 64-bit `int`), compiler and source text: some number of
rounds of the dispatch loop is enough for `Run` to end, completing or with
an error; `Compile` ends within its rounds; the build pass of either ends
within one call of `NextToken` per rune of the text and one more; every call
of `NextToken` that returns a token other than the end of file without error
has moved the scan position forward; the dispatch loop halts from every
program counter on every instruction sequence, whatever the stack holds;
and in a run that starts with an empty stack, a `LOOP` that succeeds either
removes its frame and goes on to the next step, or jumps to the saved index,
which is not past the `LOOP`, with the count of its frame one less. -/
theorem run_and_compile_terminate (M : FloatOps) (r : Runtime) (c : Compiler)
    (program : List Char)
    (h1 : -9223372036854775808 ≤ r.SP) (h2 : r.SP < 9223372036854775808) :
    (∃ fuel, (Run M fuel r program).2 ≠ .outOfFuel) ∧
    (Compile c program).2 ≠ .outOfFuel ∧
    (runtimeBuild program).2 ≠ .outOfFuel ∧
    (compilerBuild program).2 ≠ .outOfFuel ∧
    (∀ (l l1 : Lexer) (tok : Token), l.NextToken = (l1, tok, none) → tok ≠ .TkEOF →
      l.Position < l1.Position) ∧
    (∀ (prog : List ProgramStep) (pc : Int), Halts M { r with Program := prog, PC := pc }) ∧
    (r.SP = 0 → ∀ (prog : List ProgramStep) (k : Nat) (r1 r2 : Runtime) (p : ProgramStep),
      Runtime.rounds M k { r with Program := prog, PC := 0 } = some r1 →
      r1.dispatch M = (r2, none) → fetch r1.Program r1.PC = some p →
      mapGet KEYWORDS (ToUpper p.String) = some .LOOP →
      (r2.SP = r1.SP - 2 ∧ r2.PC = r1.PC + 1) ∨
      (r2.SP = r1.SP ∧ r2.PC = r1.Stack (r1.SP - 2) ∧ r2.PC ≤ r1.PC ∧
        r2.Stack (r1.SP - 1) = r1.Stack (r1.SP - 1) - 1 ∧ 1 ≤ r2.Stack (r1.SP - 1))) := by
  have hhalt : ∀ (prog : List ProgramStep) (pc : Int),
      Halts M { r with Program := prog, PC := pc } :=
    fun prog pc => Runtime.halts M _ h1 h2
  refine ⟨?_, Compiler.Compile_fuel c program, runtimeBuild_fuel program,
    by rw [compilerBuild_eq]; exact runtimeBuild_fuel program,
    fun l l1 tok h he => Lexer.NextToken_advances h he, hhalt, ?_⟩
  · rcases hres : runtimeBuild program with ⟨prog, out⟩
    have hb := runtimeBuild_fuel program
    rw [hres] at hb
    cases out with
    | done =>
      obtain ⟨fuel, hf⟩ := hhalt prog 0
      exact ⟨fuel, by simpa only [Run, hres] using hf⟩
    | returned e => exact ⟨0, by simp [Run, hres]⟩
    | panicked e => exact ⟨0, by simp [Run, hres]⟩
    | outOfFuel => exact absurd rfl hb
  · intro hsp prog k r1 r2 p hk hd hp hloop
    have hok : FramesOk ({ r with Program := prog, PC := 0 } : Runtime) :=
      FramesOk.of_empty _ hsp
    exact FramesOk.loop M (FramesOk.rounds M k hok hk) hd hp hloop

/-- Instance of `run_and_compile_terminate`: on `REPEAT 3 FORWARD 10 LOOP`
the fresh runtime ends, in fact within 7 rounds and without error, and the
compiler ends without error. -/
theorem run_and_compile_terminate_witness :
    (∃ fuel, (Run axisFloatOps fuel NewRuntime "REPEAT 3 FORWARD 10 LOOP".toList).2 ≠
      .outOfFuel) ∧
    (Compile (NewCompiler []) "REPEAT 3 FORWARD 10 LOOP".toList).2 ≠ .outOfFuel ∧
    (Run axisFloatOps 7 NewRuntime "REPEAT 3 FORWARD 10 LOOP".toList).2 = .done ∧
    (Compile (NewCompiler []) "REPEAT 3 FORWARD 10 LOOP".toList).2 = .done := by
  have h := run_and_compile_terminate axisFloatOps NewRuntime (NewCompiler [])
    "REPEAT 3 FORWARD 10 LOOP".toList (by decide) (by decide)
  exact ⟨h.1, h.2.1, by decide, by decide⟩

/-- The dispatch loop keeps the frames of the stack well formed: in the
state where it stops for lack of rounds, that is between two dispatches, and
in the state where it ends at the end of the program. -/
theorem Runtime.runLoop_framesOk (M : FloatOps) (fuel : Nat) (r : Runtime) (hok : FramesOk r)
    (hout : (r.runLoop M fuel).2 = .outOfFuel ∨ (r.runLoop M fuel).2 = .done) :
    FramesOk (r.runLoop M fuel).1 := by
  induction fuel generalizing r with
  | zero => exact hok
  | succ fuel ih =>
    unfold Runtime.runLoop at hout ⊢
    rcases hd : r.dispatch M with ⟨r1, _ | e⟩
    · rw [hd] at hout
      simp only at hout ⊢
      have hok1 := FramesOk.dispatch M hok hd
      by_cases he : r1.isEOP = true
      · simp only [he, if_true]
        exact hok1
      · simp only [he] at hout ⊢
        exact ih r1 hok1 hout
    · rw [hd] at hout
      simp at hout

/-- C21. A run on a runtime whose stack is empty, as that of a fresh
runtime is: in every state between two dispatches (after any number of
rounds of the dispatch loop that neither panic nor end it, and where `Run`
stops for lack of rounds) and in the state where `Run` completes, the frames
of the stack are well formed: the depth is even, from 0 to 256; the slots
pair up from the bottom as a saved index under a count; every count is from
1 to 65535; every saved index is at least 0, not past the program counter
and not past the end of the program. -/
theorem stack_frames_invariant (M : FloatOps) (r : Runtime) (program : List Char)
    (hsp : r.SP = 0) :
    (∀ (k : Nat) (r1 : Runtime),
      Runtime.rounds M k { r with Program := (runtimeBuild program).1, PC := 0 } = some r1 →
      FramesOk r1) ∧
    (∀ fuel : Nat, (Run M fuel r program).2 = .outOfFuel ∨ (Run M fuel r program).2 = .done →
      FramesOk (Run M fuel r program).1 ∧
      (Run M fuel r program).1.SP % 2 = 0 ∧ 0 ≤ (Run M fuel r program).1.SP ∧
      (Run M fuel r program).1.SP ≤ 256 ∧
      ∀ j : Int, 0 ≤ j → 2 * j + 1 < (Run M fuel r program).1.SP →
        1 ≤ (Run M fuel r program).1.Stack (2 * j + 1) ∧
        (Run M fuel r program).1.Stack (2 * j + 1) ≤ 65535 ∧
        0 ≤ (Run M fuel r program).1.Stack (2 * j) ∧
        (Run M fuel r program).1.Stack (2 * j) ≤ (Run M fuel r program).1.PC ∧
        (Run M fuel r program).1.Stack (2 * j) ≤
          ((Run M fuel r program).1.Program.length : Int)) := by
  constructor
  · intro k r1 hk
    exact FramesOk.rounds M k
      (FramesOk.of_empty { r with Program := (runtimeBuild program).1, PC := 0 } hsp) hk
  · intro fuel hout
    have hok : FramesOk (Run M fuel r program).1 := by
      rcases hres : runtimeBuild program with ⟨prog, out⟩
      cases out with
      | done =>
        simp only [Run, hres] at hout ⊢
        exact Runtime.runLoop_framesOk M fuel _ (FramesOk.of_empty _ hsp) hout
      | returned e => simp [Run, hres] at hout
      | panicked e => simp [Run, hres] at hout
      | outOfFuel => exact absurd hres (fun h => runtimeBuild_fuel program (by rw [h]))
    exact ⟨hok, hok.2.2.1, hok.1, hok.2.1, hok.2.2.2.1⟩

/-- Instance of `stack_frames_invariant`: after two rounds of
`REPEAT 2 REPEAT 3 LOOP LOOP` on the fresh runtime two frames are open, the
depth is 4 and the frames are well formed. -/
theorem stack_frames_invariant_witness :
    (Run axisFloatOps 2 NewRuntime "REPEAT 2 REPEAT 3 LOOP LOOP".toList).2 = .outOfFuel ∧
    (Run axisFloatOps 2 NewRuntime "REPEAT 2 REPEAT 3 LOOP LOOP".toList).1.SP = 4 ∧
    FramesOk (Run axisFloatOps 2 NewRuntime "REPEAT 2 REPEAT 3 LOOP LOOP".toList).1 := by
  have h := (stack_frames_invariant axisFloatOps NewRuntime
    "REPEAT 2 REPEAT 3 LOOP LOOP".toList rfl).2 2 (Or.inl (by decide))
  exact ⟨by decide, by decide, h.1⟩

theorem headCommand_inv {prog : List ProgramStep} {pc n : Int} {kw : Keyword}
    (h : headCommand prog pc = some (kw, n)) :
    ∃ p, fetch prog pc = some p ∧ p.Token = .TkIdent ∧
      mapGet KEYWORDS (ToUpper p.String) = some kw ∧
      ((kw.takesParam = false ∧ n = pc + 1) ∨
        (kw.takesParam = true ∧ n = pc + 2 ∧
          ∃ q s, fetch prog (pc + 1) = some q ∧ paramStatement kw q = some s)) := by
  unfold headCommand at h
  split at h
  · cases h
  · rename_i p hf
    split at h
    · cases h
    · rename_i hpt
      split at h
      · cases h
      · rename_i kw1 hkw
        split at h
        · rename_i htp
          split at h
          · cases h
          · rename_i q hfq
            split at h
            · rename_i hs
              simp only [Option.some.injEq, Prod.mk.injEq] at h
              obtain ⟨rfl, rfl⟩ := h
              obtain ⟨s, hs⟩ := Option.isSome_iff_exists.mp hs
              exact ⟨p, hf, not_not.mp hpt, hkw, Or.inr ⟨htp, rfl, q, s, hfq, hs⟩⟩
            · cases h
        · rename_i htp
          simp only [Option.some.injEq, Prod.mk.injEq] at h
          obtain ⟨rfl, rfl⟩ := h
          exact ⟨p, hf, not_not.mp hpt, hkw, Or.inl ⟨by simpa using htp, rfl⟩⟩

theorem headCommand_plain {prog : List ProgramStep} {pc : Int} {p : ProgramStep} {kw : Keyword}
    (hf : fetch prog pc = some p) (hpt : p.Token = .TkIdent)
    (hkw : mapGet KEYWORDS (ToUpper p.String) = some kw) (htp : kw.takesParam = false) :
    headCommand prog pc = some (kw, pc + 1) := by
  simp [headCommand, hf, hpt, hkw, htp]

theorem headCommand_param {prog : List ProgramStep} {pc : Int} {p q : ProgramStep}
    {kw : Keyword} {s : Statement}
    (hf : fetch prog pc = some p) (hpt : p.Token = .TkIdent)
    (hkw : mapGet KEYWORDS (ToUpper p.String) = some kw) (htp : kw.takesParam = true)
    (hfq : fetch prog (pc + 1) = some q) (hs : paramStatement kw q = some s) :
    headCommand prog pc = some (kw, pc + 2) := by
  simp [headCommand, hf, hpt, hkw, htp, hfq, hs]

/-- What the parameter step of a command that accepts it is. -/
theorem paramStatement_inv {kw : Keyword} {q : ProgramStep} {s : Statement}
    (h : paramStatement kw q = some s) :
    ((kw = .FORWARD ∨ kw = .BACK ∨ kw = .LEFT ∨ kw = .RIGHT) ∧ q.Token = .TkNumber) ∨
    (kw = .REPEAT ∧ q.Token = .TkNumber ∧ 1 ≤ q.Number ∧ q.Number ≤ 65535) ∨
    ((kw = .PAPER ∨ kw = .INK) ∧ q.Token = .TkIdent ∧
      ∃ col, mapGet COLORS (ToUpper q.String) = some col) ∨
    (kw = .PEN ∧ q.Token = .TkIdent ∧
      (ToUpper q.String = "UP".toList ∨ ToUpper q.String = "DOWN".toList)) := by
  cases kw with
  | HOME => simp [paramStatement] at h
  | LOOP => simp [paramStatement] at h
  | FORWARD =>
    simp only [paramStatement] at h
    split at h
    · rename_i ht; exact Or.inl ⟨Or.inl rfl, ht⟩
    · cases h
  | BACK =>
    simp only [paramStatement] at h
    split at h
    · rename_i ht; exact Or.inl ⟨Or.inr (Or.inl rfl), ht⟩
    · cases h
  | LEFT =>
    simp only [paramStatement] at h
    split at h
    · rename_i ht; exact Or.inl ⟨Or.inr (Or.inr (Or.inl rfl)), ht⟩
    · cases h
  | RIGHT =>
    simp only [paramStatement] at h
    split at h
    · rename_i ht; exact Or.inl ⟨Or.inr (Or.inr (Or.inr rfl)), ht⟩
    · cases h
  | REPEAT =>
    simp only [paramStatement] at h
    split at h
    · rename_i ht; exact Or.inr (Or.inl ⟨rfl, ht⟩)
    · cases h
  | PAPER =>
    simp only [paramStatement] at h
    split at h
    · rename_i ht
      cases hc : mapGet COLORS (ToUpper q.String) with
      | none => rw [hc] at h; cases h
      | some col => exact Or.inr (Or.inr (Or.inl ⟨Or.inl rfl, ht, col, rfl⟩))
    · cases h
  | INK =>
    simp only [paramStatement] at h
    split at h
    · rename_i ht
      cases hc : mapGet COLORS (ToUpper q.String) with
      | none => rw [hc] at h; cases h
      | some col => exact Or.inr (Or.inr (Or.inl ⟨Or.inr rfl, ht, col, rfl⟩))
    · cases h
  | PEN =>
    simp only [paramStatement] at h
    split at h
    · rename_i ht
      split at h
      · rename_i hu; exact Or.inr (Or.inr (Or.inr ⟨rfl, ht, Or.inl hu⟩))
      · split at h
        · rename_i hd; exact Or.inr (Or.inr (Or.inr ⟨rfl, ht, Or.inr hd⟩))
        · cases h
    · cases h

theorem mapGet_some_mem {α : Type} (m : List (List Char × α)) (key : List Char) (v : α)
    (h : mapGet m key = some v) : (key, v) ∈ m := by
  induction m with
  | nil => cases h
  | cons kv rest ih =>
    obtain ⟨k, w⟩ := kv
    simp only [mapGet] at h
    split at h
    · rename_i hk
      simp only [Option.some.injEq] at h
      subst hk h
      exact List.mem_cons_self _ _
    · exact List.mem_cons_of_mem _ (ih h)

theorem keywords_repeat {key : List Char} (h : mapGet KEYWORDS key = some .REPEAT) :
    key = "REPEAT".toList := by
  have hm := mapGet_some_mem _ _ _ h
  simp [KEYWORDS] at hm
  simpa using hm

theorem keywords_loop {key : List Char} (h : mapGet KEYWORDS key = some .LOOP) :
    key = "LOOP".toList := by
  have hm := mapGet_some_mem _ _ _ h
  simp [KEYWORDS] at hm
  simpa using hm

/-- The compiler's dispatch succeeds on every command of the static reading
and ends where the command ends. -/
theorem Compiler.compile_dispatch_of_head {c : Compiler} {kw : Keyword} {n : Int}
    (h : headCommand c.Program c.PC = some (kw, n)) :
    ∃ c1, c.dispatch = (c1, none) ∧ c1.PC = n ∧ c1.Program = c.Program := by
  obtain ⟨p, hf, hpt, hkw, hcase⟩ := headCommand_inv h
  rw [Compiler.compile_dispatch_command hf hpt hkw]
  rcases hcase with ⟨htp, rfl⟩ | ⟨htp, rfl, q, s, hfq, hs⟩
  · cases kw with
    | HOME => exact ⟨_, rfl, rfl, rfl⟩
    | LOOP => exact ⟨_, rfl, rfl, rfl⟩
    | _ => simp [Keyword.takesParam] at htp
  · have hq1 : fetch ({ c with PC := c.PC + 1 } : Compiler).Program
        ({ c with PC := c.PC + 1 } : Compiler).PC = some q := hfq
    have e2 : c.PC + 1 + 1 = c.PC + 2 := by omega
    rcases paramStatement_inv hs with ⟨hk, hqt⟩ | ⟨hk, hqt, hn1, hn2⟩ | ⟨hk, hqt, col, hcol⟩ |
      ⟨hk, hqt, hval⟩
    · rcases hk with rfl | rfl | rfl | rfl <;>
        simp only [compileCommand, compileForwardCmd, compileBackCmd, compileLeftCmd,
          compileRightCmd, compileCall, Compiler.compile_getParam_of_fetch hq1 hqt] <;>
        exact ⟨_, rfl, e2, rfl⟩
    · subst hk
      have hrange : ¬ (q.Number ≤ 0 ∨ q.Number ≥ 65536) := by omega
      simp only [compileCommand, compileRepeatCmd, Compiler.compile_getParam_of_fetch hq1 hqt,
        hrange, if_false, Compiler.nextVar]
      exact ⟨_, rfl, e2, rfl⟩
    · have hc : mapGet colors (ToUpper q.String) = some (colourName col) := by
        rw [colors_colourName, hcol]; rfl
      rcases hk with rfl | rfl <;>
        simp only [compileCommand, compilePaperCmd, compileInkCmd, Compiler.getColor,
          Compiler.compile_getParam_of_fetch hq1 hqt, hc] <;>
        exact ⟨_, rfl, e2, rfl⟩
    · subst hk
      simp only [compileCommand, compilePenCmd, Compiler.compile_getParam_of_fetch hq1 hqt,
        hval, if_true]
      exact ⟨_, rfl, e2, rfl⟩

/-- The interpreter's dispatch succeeds on every command of the static
reading when the stack has room for the frame `REPEAT` opens and holds the
frame `LOOP` closes. -/
theorem Runtime.dispatch_of_head (M : FloatOps) {r : Runtime} {kw : Keyword} {n : Int}
    (h : headCommand r.Program r.PC = some (kw, n))
    (hrep : kw = .REPEAT → 0 ≤ r.SP ∧ r.SP ≤ 254)
    (hloop : kw = .LOOP → 2 ≤ r.SP ∧ r.SP ≤ 256) :
    (r.dispatch M).2 = none := by
  obtain ⟨p, hf, hpt, hkw, hcase⟩ := headCommand_inv h
  rcases hcase with ⟨htp, rfl⟩ | ⟨htp, rfl, q, s, hfq, hs⟩
  · cases kw with
    | HOME =>
      rw [Runtime.dispatch_command M hf hpt hkw]
      rfl
    | LOOP =>
      obtain ⟨hs0, hs1⟩ := hloop rfl
      rw [Runtime.dispatch_command M hf hpt hkw]
      simp only [command, loopCmd]
      rw [Runtime.pop_ok _ (by show 0 < r.SP; omega) (by show r.SP ≤ 256; omega)]
      simp only []
      split
      · rw [Runtime.pop_ok _ (by show 0 < r.SP - 1; omega) (by show r.SP - 1 ≤ 256; omega)]
        simp only []
        rw [Runtime.push_ok _ _ (by show 0 ≤ r.SP - 1 - 1; omega)
          (by show r.SP - 1 - 1 < 256; omega)]
        simp only []
        rw [Runtime.push_ok _ _ (by show 0 ≤ r.SP - 1 - 1 + 1; omega)
          (by show r.SP - 1 - 1 + 1 < 256; omega)]
      · rw [Runtime.pop_ok _ (by show 0 < r.SP - 1; omega) (by show r.SP - 1 ≤ 256; omega)]
    | _ => simp [Keyword.takesParam] at htp
  · have hq1 : fetch ({ r with PC := r.PC + 1 } : Runtime).Program
        ({ r with PC := r.PC + 1 } : Runtime).PC = some q := hfq
    rcases paramStatement_inv hs with ⟨hk, hqt⟩ | ⟨hk, hqt, hn1, hn2⟩ | ⟨hk, hqt, col, hcol⟩ |
      ⟨hk, hqt, hval⟩
    · rw [Runtime.dispatch_command M hf hpt hkw]
      rcases hk with rfl | rfl | rfl | rfl <;>
        simp only [command, forwardCmd, backCmd, leftCmd, rightCmd,
          Runtime.getParam_of_fetch hq1 hqt]
    · subst hk
      obtain ⟨hs0, hs1⟩ := hrep rfl
      have hname : ToUpper p.String = "REPEAT".toList := keywords_repeat hkw
      obtain ⟨r1, hd, _⟩ := Runtime.dispatch_repeat M r p q hf hpt hname hfq hqt hn1 hn2 hs0 hs1
      rw [hd]
    · rw [Runtime.dispatch_command M hf hpt hkw]
      rcases hk with rfl | rfl <;>
        simp only [command, paperCmd, inkCmd, Runtime.getColor,
          Runtime.getParam_of_fetch hq1 hqt, hcol]
    · subst hk
      rw [Runtime.dispatch_command M hf hpt hkw]
      simp only [command, penCmd, Runtime.getParam_of_fetch hq1 hqt, hval, if_true]

/-- A handler of the compiler that succeeds has read a parameter step that
the static reading accepts, or none when the command takes none. -/
theorem Compiler.compileCommand_head (kw : Keyword) (c c1 : Compiler)
    (h : compileCommand kw c = (c1, none)) :
    (kw.takesParam = false ∧ c1.PC = c.PC) ∨
    (kw.takesParam = true ∧ c1.PC = c.PC + 1 ∧
      ∃ q s, fetch c.Program c.PC = some q ∧ paramStatement kw q = some s) := by
  have call : ∀ (name : List Char) (mk : Int → Statement),
      (∀ q : ProgramStep, q.Token = .TkNumber → paramStatement kw q = some (mk q.Number)) →
      compileCall name c = (c1, none) →
      c1.PC = c.PC + 1 ∧ ∃ q s, fetch c.Program c.PC = some q ∧ paramStatement kw q = some s := by
    intro name mk hps hc
    unfold compileCall at hc
    split at hc
    · cases hc
    · rename_i c2 q hg
      obtain ⟨hf, hqt, hc2⟩ := Compiler.compile_getParam_inv hg
      subst hc2
      simp only [Prod.mk.injEq, and_true] at hc
      subst hc
      exact ⟨rfl, q, _, hf, hps q hqt⟩
  cases kw with
  | HOME =>
    simp only [compileCommand, compileHomeCmd, Prod.mk.injEq, and_true] at h
    subst h
    exact Or.inl ⟨rfl, rfl⟩
  | LOOP =>
    simp only [compileCommand, compileLoopCmd, Prod.mk.injEq, and_true] at h
    subst h
    exact Or.inl ⟨rfl, rfl⟩
  | FORWARD =>
    exact Or.inr ⟨rfl, call _ .forward (fun q hq => by simp [paramStatement, hq]) h⟩
  | BACK =>
    exact Or.inr ⟨rfl, call _ .back (fun q hq => by simp [paramStatement, hq]) h⟩
  | LEFT =>
    exact Or.inr ⟨rfl, call _ .left (fun q hq => by simp [paramStatement, hq]) h⟩
  | RIGHT =>
    exact Or.inr ⟨rfl, call _ .right (fun q hq => by simp [paramStatement, hq]) h⟩
  | PAPER =>
    simp only [compileCommand, compilePaperCmd] at h
    split at h
    · cases h
    · rename_i c2 color hg
      obtain ⟨q, col, hf, hqt, hc2, hcol, _⟩ := Compiler.compile_getColor_inv hg
      subst hc2
      simp only [Prod.mk.injEq, and_true] at h
      subst h
      exact Or.inr ⟨rfl, rfl, q, .paper (colourName col), hf,
        by simp [paramStatement, hqt, hcol]⟩
  | INK =>
    simp only [compileCommand, compileInkCmd] at h
    split at h
    · cases h
    · rename_i c2 color hg
      obtain ⟨q, col, hf, hqt, hc2, hcol, _⟩ := Compiler.compile_getColor_inv hg
      subst hc2
      simp only [Prod.mk.injEq, and_true] at h
      subst h
      exact Or.inr ⟨rfl, rfl, q, .ink (colourName col), hf,
        by simp [paramStatement, hqt, hcol]⟩
  | PEN =>
    simp only [compileCommand, compilePenCmd] at h
    split at h
    · cases h
    · rename_i c2 q hg
      obtain ⟨hf, hqt, hc2⟩ := Compiler.compile_getParam_inv hg
      subst hc2
      split at h
      · rename_i hval
        simp only [Prod.mk.injEq, and_true] at h
        subst h
        refine Or.inr ⟨rfl, rfl, q, .pen (decide (ToUpper q.String = "DOWN".toList)), hf, ?_⟩
        rcases hval with hu | hdn
        · rw [hu]; simp only [paramStatement, hqt, hu]; rfl
        · rw [hdn]; simp only [paramStatement, hqt, hdn]; rfl
      · cases h
  | REPEAT =>
    simp only [compileCommand, compileRepeatCmd] at h
    split at h
    · cases h
    · rename_i c2 q hg
      obtain ⟨hf, hqt, hc2⟩ := Compiler.compile_getParam_inv hg
      subst hc2
      split at h
      · cases h
      · rename_i hrange
        simp only [Compiler.nextVar, Prod.mk.injEq, and_true] at h
        subst h
        have : 1 ≤ q.Number ∧ q.Number ≤ 65535 := by omega
        exact Or.inr ⟨rfl, rfl, q, .repeatN q.Number, hf, by simp [paramStatement, hqt, this]⟩

/-- A successful round of the compiler's dispatch has read a command of the
static reading and ends where that command ends. -/
theorem Compiler.compile_dispatch_head {c c1 : Compiler} (h : c.dispatch = (c1, none)) :
    ∃ kw, headCommand c.Program c.PC = some (kw, c1.PC) ∧ c1.Program = c.Program := by
  have hprog := (Compiler.compile_dispatch_progress h).1
  unfold Compiler.dispatch at h
  split at h
  · cases h
  · rename_i c2 p hn
    obtain ⟨hf, hc2⟩ := Compiler.compile_next_inv hn
    subst hc2
    split at h
    · cases h
    · rename_i hpt
      have hpt : p.Token = .TkIdent := not_not.mp hpt
      split at h
      swap
      · cases h
      rename_i kw hkw
      rcases Compiler.compileCommand_head kw _ c1 h with ⟨htp, hpc⟩ | ⟨htp, hpc, q, s, hfq, hs⟩
      · have hpc : c1.PC = c.PC + 1 := hpc
        exact ⟨kw, by rw [hpc]; exact headCommand_plain hf hpt hkw htp, hprog⟩
      · have hpc : c1.PC = c.PC + 1 + 1 := hpc
        have e : c1.PC = c.PC + 2 := by omega
        exact ⟨kw, by rw [e]; exact headCommand_param hf hpt hkw htp hfq hs, hprog⟩

/-- A handler of the interpreter other than `LOOP` that succeeds has read a
parameter step that the static reading accepts, or none when the command
takes none. -/
theorem Runtime.command_head (M : FloatOps) (kw : Keyword) (r r1 : Runtime)
    (hk : kw ≠ .LOOP) (h : command M kw r = (r1, none)) :
    (kw.takesParam = false ∧ r1.PC = r.PC) ∨
    (kw.takesParam = true ∧ r1.PC = r.PC + 1 ∧
      ∃ q s, fetch r.Program r.PC = some q ∧ paramStatement kw q = some s) := by
  cases kw with
  | LOOP => exact absurd rfl hk
  | HOME =>
    simp only [command, homeCmd, Prod.mk.injEq, and_true] at h
    subst h
    exact Or.inl ⟨rfl, rfl⟩
  | PAPER =>
    simp only [command, paperCmd] at h
    split at h
    · cases h
    · rename_i r2 col hg
      obtain ⟨q, hf, hqt, hr2, hcol⟩ := Runtime.getColor_inv hg
      subst hr2
      simp only [Prod.mk.injEq, and_true] at h
      subst h
      exact Or.inr ⟨rfl, rfl, q, .paper (colourName col), hf,
        by simp [paramStatement, hqt, hcol]⟩
  | INK =>
    simp only [command, inkCmd] at h
    split at h
    · cases h
    · rename_i r2 col hg
      obtain ⟨q, hf, hqt, hr2, hcol⟩ := Runtime.getColor_inv hg
      subst hr2
      simp only [Prod.mk.injEq, and_true] at h
      subst h
      exact Or.inr ⟨rfl, rfl, q, .ink (colourName col), hf,
        by simp [paramStatement, hqt, hcol]⟩
  | PEN =>
    simp only [command, penCmd] at h
    split at h
    · cases h
    · rename_i r2 q hg
      obtain ⟨hf, hqt, hr2⟩ := Runtime.getParam_inv hg
      subst hr2
      split at h
      · rename_i hval
        simp only [Prod.mk.injEq, and_true] at h
        subst h
        refine Or.inr ⟨rfl, rfl, q, .pen (decide (ToUpper q.String = "DOWN".toList)), hf, ?_⟩
        rcases hval with hu | hdn
        · rw [hu]; simp only [paramStatement, hqt, hu]; rfl
        · rw [hdn]; simp only [paramStatement, hqt, hdn]; rfl
      · cases h
  | FORWARD =>
    simp only [command, forwardCmd] at h
    split at h
    · cases h
    · rename_i r2 q hg
      obtain ⟨hf, hqt, hr2⟩ := Runtime.getParam_inv hg
      subst hr2
      simp only [Prod.mk.injEq, and_true] at h
      subst h
      refine Or.inr ⟨rfl, ?_, q, .forward q.Number, hf, by simp [paramStatement, hqt]⟩
      cases hpd : r.PenDown <;> simp [hpd]
  | BACK =>
    simp only [command, backCmd] at h
    split at h
    · cases h
    · rename_i r2 q hg
      obtain ⟨hf, hqt, hr2⟩ := Runtime.getParam_inv hg
      subst hr2
      simp only [Prod.mk.injEq, and_true] at h
      subst h
      refine Or.inr ⟨rfl, ?_, q, .back q.Number, hf, by simp [paramStatement, hqt]⟩
      cases hpd : r.PenDown <;> simp [hpd]
  | LEFT =>
    simp only [command, leftCmd] at h
    split at h
    · cases h
    · rename_i r2 q hg
      obtain ⟨hf, hqt, hr2⟩ := Runtime.getParam_inv hg
      subst hr2
      simp only [Prod.mk.injEq, and_true] at h
      subst h
      exact Or.inr ⟨rfl, rfl, q, .left q.Number, hf, by simp [paramStatement, hqt]⟩
  | RIGHT =>
    simp only [command, rightCmd] at h
    split at h
    · cases h
    · rename_i r2 q hg
      obtain ⟨hf, hqt, hr2⟩ := Runtime.getParam_inv hg
      subst hr2
      simp only [Prod.mk.injEq, and_true] at h
      subst h
      exact Or.inr ⟨rfl, rfl, q, .right q.Number, hf, by simp [paramStatement, hqt]⟩
  | REPEAT =>
    simp only [command, repeatCmd] at h
    split at h
    · cases h
    · rename_i r2 q hg
      obtain ⟨hf, hqt, hr2⟩ := Runtime.getParam_inv hg
      subst hr2
      split at h
      · cases h
      · rename_i hrange
        split at h
        · cases h
        · rename_i r3 hp1
          obtain ⟨_, _, hr3⟩ := Runtime.push_inv hp1
          subst hr3
          obtain ⟨_, _, hr1⟩ := Runtime.push_inv h
          subst hr1
          have : 1 ≤ q.Number ∧ q.Number ≤ 65535 := by omega
          exact Or.inr ⟨rfl, rfl, q, .repeatN q.Number, hf,
            by simp [paramStatement, hqt, this]⟩

/-- A successful round of the interpreter's dispatch has read a command of
the static reading; unless the command is a `LOOP`, the round ends where
the command ends. -/
theorem Runtime.dispatch_head (M : FloatOps) {r r1 : Runtime}
    (h : r.dispatch M = (r1, none)) :
    ∃ kw n, headCommand r.Program r.PC = some (kw, n) ∧ (kw ≠ .LOOP → r1.PC = n) ∧
      (kw = .LOOP → n = r.PC + 1) := by
  unfold Runtime.dispatch at h
  split at h
  · cases h
  · rename_i r2 p hn
    obtain ⟨hf, hr2⟩ := Runtime.next_inv hn
    subst hr2
    split at h
    · cases h
    · rename_i hpt
      have hpt : p.Token = .TkIdent := not_not.mp hpt
      split at h
      swap
      · cases h
      rename_i kw hkw
      by_cases hl : kw = .LOOP
      · subst hl
        exact ⟨.LOOP, r.PC + 1, headCommand_plain hf hpt hkw rfl, fun hne => absurd rfl hne,
          fun _ => rfl⟩
      · rcases Runtime.command_head M kw _ r1 hl h with ⟨htp, hpc⟩ | ⟨htp, hpc, q, s, hfq, hs⟩
        · have hpc : r1.PC = r.PC + 1 := hpc
          exact ⟨kw, r.PC + 1, headCommand_plain hf hpt hkw htp, fun _ => hpc,
            fun he => absurd he hl⟩
        · have hpc : r1.PC = r.PC + 1 + 1 := hpc
          exact ⟨kw, r.PC + 2, headCommand_param hf hpt hkw htp hfq hs, fun _ => by omega,
            fun he => absurd he hl⟩

theorem headCommand_keyword {prog : List ProgramStep} {pc n : Int} {kw kw1 : Keyword}
    {p : ProgramStep} (h : headCommand prog pc = some (kw, n)) (hf : fetch prog pc = some p)
    (hkw : mapGet KEYWORDS (ToUpper p.String) = some kw1) : kw = kw1 := by
  obtain ⟨p1, hf1, _, hkw1, _⟩ := headCommand_inv h
  rw [hf] at hf1
  simp only [Option.some.injEq] at hf1
  subst hf1
  rw [hkw] at hkw1
  simpa using hkw1.symm

/-- A successful round of dispatch keeps the interpreter on the static reading. -/
theorem ReadSoFar.keep_step (M : FloatOps) {prog : List ProgramStep} {r r1 : Runtime}
    (hJ : ReadSoFar prog r) (h : r.dispatch M = (r1, none)) : ReadSoFar prog r1 := by
  obtain ⟨hok, hP, hpc, hfr⟩ := hJ
  have hok1 := FramesOk.dispatch M hok h
  obtain ⟨hs0, hs1, hev, _, _⟩ := hok
  obtain ⟨p, kw, hf, hpt, hkw, hprog, hcase⟩ := Runtime.dispatch_inv M h (by omega) (by omega)
  obtain ⟨kw1, n, hhead, hn1, hn2⟩ := Runtime.dispatch_head M h
  have hk : kw1 = kw := headCommand_keyword hhead hf hkw
  subst hk
  rw [hP] at hhead
  have hnext : StaticPath prog 0 n := Relation.ReflTransGen.tail hpc ⟨kw1, hhead⟩
  refine ⟨hok1, by rw [hprog, hP], ?_, ?_⟩
  · rcases hcase with ⟨_, hne, _⟩ | ⟨hk, _⟩ | ⟨hk, hs2, _, _, _, hsp, hpc1, _, _⟩ |
      ⟨hk, _, _, _, _, _, hpc1, _⟩
    · rw [hn1 hne]; exact hnext
    · rw [hn1 (by rw [hk]; decide)]; exact hnext
    · rw [hpc1]
      have := hfr ((r.SP - 2) / 2) (by omega) (by omega)
      have e0 : 2 * ((r.SP - 2) / 2) = r.SP - 2 := by omega
      rw [e0] at this
      exact this
    · rw [hpc1, ← hn2 hk]; exact hnext
  · intro j hj0 hj
    rcases hcase with ⟨_, hne, hst, hsp, _⟩ |
      ⟨hk, _, _, hsp, hpc1, _, hst0, _, _, hbelow, _⟩ |
      ⟨hk, hs2, _, _, _, hsp, _, _, hother⟩ |
      ⟨hk, _, _, _, _, hsp, _, hst⟩
    · rw [hst]; rw [hsp] at hj; exact hfr j hj0 hj
    · rw [hsp] at hj
      by_cases hold : 2 * j + 1 < r.SP
      · rw [hbelow _ (by omega)]; exact hfr j hj0 hold
      · have e : 2 * j = r.SP := by omega
        rw [e, hst0, ← hpc1, hn1 (by rw [hk]; decide)]
        exact hnext
    · rw [hsp] at hj
      rw [hother _ (by omega)]
      exact hfr j hj0 hj
    · rw [hst]; rw [hsp] at hj; exact hfr j hj0 (by omega)

/-- A run of the dispatch loop that completes has read the whole program as
commands of the static reading, and the program is not empty. -/
theorem ReadSoFar.of_run (M : FloatOps) {prog : List ProgramStep} (fuel : Nat)
    {r rf : Runtime} (hJ : ReadSoFar prog r) (h : r.runLoop M fuel = (rf, .done)) :
    StaticPath prog 0 (prog.length : Int) ∧ r.PC < (prog.length : Int) := by
  induction fuel generalizing r with
  | zero => simp [Runtime.runLoop] at h
  | succ fuel ih =>
    unfold Runtime.runLoop at h
    rcases hd : r.dispatch M with ⟨r1, _ | e⟩
    · rw [hd] at h
      simp only at h
      have hJ1 := ReadSoFar.keep_step M hJ hd
      obtain ⟨hs0, hs1, _⟩ := hJ.1
      obtain ⟨p, kw, hf, _⟩ := Runtime.dispatch_inv M hd (by omega) (by omega)
      have hr := fetch_some_range hf
      rw [hJ.2.1] at hr
      by_cases he : r1.isEOP = true
      · have hpc : r1.PC = (r1.Program.length : Int) := of_decide_eq_true he
        rw [hJ1.2.1] at hpc
        have := hJ1.2.2.1
        rw [hpc] at this
        exact ⟨this, hr.2⟩
      · simp only [he] at h
        exact ⟨(ih hJ1 h).1, hr.2⟩
    · rw [hd] at h
      simp at h

/-- The compiler's dispatch loop completes when the program from its
program counter on reads as commands of the static reading up to the end. -/
theorem Compiler.compileLoop_of_path (prog : List ProgramStep) (fuel : Nat) (c : Compiler)
    (hprog : c.Program = prog) (hpath : StaticPath prog c.PC (prog.length : Int))
    (hne : c.PC ≠ (prog.length : Int)) (hfuel : ((prog.length : Int) - c.PC).toNat < fuel) :
    (c.compileLoop fuel).2 = .done := by
  induction fuel generalizing c with
  | zero => omega
  | succ fuel ih =>
    rcases Relation.ReflTransGen.cases_head hpath with heq | ⟨b, ⟨kw, hhead⟩, hrest⟩
    · exact absurd heq hne
    · rw [← hprog] at hhead
      obtain ⟨c1, hd, hpc, hp1⟩ := Compiler.compile_dispatch_of_head hhead
      obtain ⟨_, h0, hlt, hle⟩ := Compiler.compile_dispatch_progress hd
      unfold Compiler.compileLoop
      rw [hd]
      simp only
      split
      · rfl
      · rename_i he
        have hne1 : c1.PC ≠ (prog.length : Int) := by
          intro hc
          apply he
          simp [Compiler.isEOP, hc, hp1, hprog]
        rw [hprog] at hle
        exact ih c1 (by rw [hp1, hprog]) (by rw [hpc]; exact hrest) hne1 (by omega)

theorem openAt_succ {prog : List ProgramStep} {i : Nat} {p : ProgramStep}
    (h : prog[i]? = some p) : openAt prog (i + 1) = openAt prog i + stepDelta p := by
  unfold openAt
  rw [List.take_succ, h]
  simp

theorem fetch_getElem {prog : List ProgramStep} {pc : Int} {p : ProgramStep}
    (h : fetch prog pc = some p) : prog[pc.toNat]? = some p := by
  have hr := fetch_some_range h
  unfold fetch at h
  rw [if_pos hr.1] at h
  exact h

theorem stepDelta_command {p : ProgramStep} {kw : Keyword} (hpt : p.Token = .TkIdent)
    (hkw : mapGet KEYWORDS (ToUpper p.String) = some kw) :
    stepDelta p = if kw = .REPEAT then 1 else if kw = .LOOP then -1 else 0 := by
  unfold stepDelta
  by_cases h1 : ToUpper p.String = "REPEAT".toList
  · have : kw = .REPEAT := by
      rw [h1] at hkw
      have h2 : mapGet KEYWORDS "REPEAT".toList = some .REPEAT := by decide
      rw [h2] at hkw
      simpa using hkw.symm
    subst this
    simp [hpt, h1]
  · have hne : kw ≠ .REPEAT := fun hk => h1 (keywords_repeat (hk ▸ hkw))
    by_cases h2 : ToUpper p.String = "LOOP".toList
    · have : kw = .LOOP := by
        rw [h2] at hkw
        have h3 : mapGet KEYWORDS "LOOP".toList = some .LOOP := by decide
        rw [h3] at hkw
        simpa using hkw.symm
      subst this
      simp [hpt, h1, h2]
    · have hne2 : kw ≠ .LOOP := fun hk => h2 (keywords_loop (hk ▸ hkw))
      rw [if_neg (fun hc => h1 hc.2), if_neg (fun hc => h2 hc.2), if_neg hne, if_neg hne2]

theorem stepDelta_param {kw : Keyword} {q : ProgramStep} {s : Statement}
    (h : paramStatement kw q = some s) : stepDelta q = 0 := by
  unfold stepDelta
  rcases paramStatement_inv h with ⟨_, hqt⟩ | ⟨_, hqt, _, _⟩ | ⟨_, hqt, col, hcol⟩ |
    ⟨_, hqt, hval⟩
  · simp [hqt]
  · simp [hqt]
  · have h1 : ToUpper q.String ≠ "REPEAT".toList := by
      intro hc
      rw [hc] at hcol
      have : mapGet COLORS "REPEAT".toList = none := by decide
      rw [this] at hcol
      cases hcol
    have h2 : ToUpper q.String ≠ "LOOP".toList := by
      intro hc
      rw [hc] at hcol
      have : mapGet COLORS "LOOP".toList = none := by decide
      rw [this] at hcol
      cases hcol
    rw [if_neg (fun hc => h1 hc.2), if_neg (fun hc => h2 hc.2)]
  · have h1 : ToUpper q.String ≠ "REPEAT".toList := by
      rcases hval with hv | hv <;> rw [hv] <;> decide
    have h2 : ToUpper q.String ≠ "LOOP".toList := by
      rcases hval with hv | hv <;> rw [hv] <;> decide
    rw [if_neg (fun hc => h1 hc.2), if_neg (fun hc => h2 hc.2)]

/-- Where a command of the static reading ends, and the number of `REPEAT`s
open there. -/
theorem openAt_next {prog : List ProgramStep} {pc n : Int} {kw : Keyword}
    (h : headCommand prog pc = some (kw, n)) :
    0 ≤ pc ∧ pc < n ∧ n ≤ (prog.length : Int) ∧
    openAt prog n.toNat = openAt prog pc.toNat +
      (if kw = .REPEAT then 1 else if kw = .LOOP then -1 else 0) := by
  obtain ⟨p, hf, hpt, hkw, hcase⟩ := headCommand_inv h
  have hr := fetch_some_range hf
  have hd := stepDelta_command hpt hkw
  have h1 := openAt_succ (fetch_getElem hf)
  rcases hcase with ⟨_, rfl⟩ | ⟨_, rfl, q, s, hfq, hs⟩
  · have e : (pc + 1).toNat = pc.toNat + 1 := by omega
    rw [e, h1, hd]
    exact ⟨hr.1, by omega, by omega, rfl⟩
  · have hrq := fetch_some_range hfq
    have h2 := openAt_succ (fetch_getElem hfq)
    have e1 : (pc + 1).toNat = pc.toNat + 1 := by omega
    have e2 : (pc + 2).toNat = pc.toNat + 1 + 1 := by omega
    rw [e1] at h2
    rw [e2, h2, h1, hd, stepDelta_param hs]
    exact ⟨hr.1, by omega, by omega, by omega⟩

theorem nestingOk_at {prog : List ProgramStep} (h : nestingOk prog = true) {i : Nat}
    {p : ProgramStep} (hp : prog[i]? = some p) :
    (stepDelta p = 1 → openAt prog i < 128) ∧ (stepDelta p = -1 → 1 ≤ openAt prog i) := by
  unfold nestingOk at h
  rw [List.all_eq_true] at h
  have hi : i < prog.length := (List.getElem?_eq_some_iff.mp hp).1
  have := h i (List.mem_range.mpr hi)
  rw [hp] at this
  simp only [decide_eq_true_eq] at this
  exact this

theorem StaticPath.le {prog : List ProgramStep} {a b : Int} (h : StaticPath prog a b) :
    a ≤ b := by
  induction h with
  | refl => exact le_refl _
  | tail _ hstep ih =>
    obtain ⟨kw, hh⟩ := hstep
    have := openAt_next hh
    omega

/-- On a program whose loops nest properly, an interpreter that is on track
and not at the end of the program dispatches the next command without a
panic and stays on track. -/
theorem OnTrack.next_round (M : FloatOps) {prog : List ProgramStep} {r : Runtime}
    (hK : OnTrack prog r) (hnest : nestingOk prog = true)
    (hne : r.PC ≠ (prog.length : Int)) :
    ∃ r1, r.dispatch M = (r1, none) ∧ OnTrack prog r1 := by
  obtain ⟨hP, hs0, hs1, hpc0, hpath, hsp, hfr⟩ := hK
  rcases Relation.ReflTransGen.cases_head hpath with heq | ⟨n, ⟨kw, hhead⟩, hrest⟩
  · exact absurd heq hne
  obtain ⟨p, hf, hpt, hkw, _⟩ := headCommand_inv hhead
  obtain ⟨_, hlt, hle, hopen⟩ := openAt_next hhead
  have hdelta := stepDelta_command hpt hkw
  obtain ⟨hn1, hn2⟩ := nestingOk_at hnest (fetch_getElem hf)
  rw [← hP] at hhead hf
  have hnone := Runtime.dispatch_of_head M hhead
    (fun hk => by
      have := hn1 (by rw [hdelta, if_pos hk])
      omega)
    (fun hk => by
      have := hn2 (by rw [hdelta, hk]; decide)
      omega)
  rcases hd : r.dispatch M with ⟨r1, e⟩
  rw [hd] at hnone
  simp only at hnone
  subst hnone
  refine ⟨r1, rfl, ?_⟩
  obtain ⟨p1, kw1, hf1, _, hkw1, hprog, hcase⟩ := Runtime.dispatch_inv M hd (by omega) (by omega)
  have hk1 : kw = kw1 := headCommand_keyword hhead hf1 hkw1
  subst hk1
  obtain ⟨kw2, n2, hhead2, hpcn, _⟩ := Runtime.dispatch_head M hd
  rw [hhead] at hhead2
  simp only [Option.some.injEq, Prod.mk.injEq] at hhead2
  obtain ⟨hk2, hnn⟩ := hhead2
  subst hk2 hnn
  rcases hcase with ⟨hnr, hnl, hst, hsp1, _, _⟩ |
    ⟨hk, _, hs254, hsp1, hpc1, _, hst0, _, _, hbelow, _⟩ |
    ⟨hk, hs2, _, _, _, hsp1, hpc1, _, hother⟩ |
    ⟨hk, hs2, _, _, _, hsp1, hpc1, hst⟩
  · -- a command other than `REPEAT` and `LOOP`
    have hpc1 := hpcn hnl
    rw [if_neg hnr, if_neg hnl] at hopen
    refine ⟨by rw [hprog, hP], by omega, by omega, by omega, by rw [hpc1]; exact hrest,
      by rw [hpc1, hsp1, hopen]; omega, ?_⟩
    intro j hj0 hj
    rw [hsp1] at hj
    rw [hst]
    exact hfr j hj0 hj
  · -- `REPEAT`
    have hpcn1 := hpcn (by rw [hk]; decide)
    rw [if_pos hk] at hopen
    refine ⟨by rw [hprog, hP], by omega, by omega, by omega, by rw [hpcn1]; exact hrest,
      by rw [hpcn1, hsp1, hopen]; omega, ?_⟩
    intro j hj0 hj
    rw [hsp1] at hj
    by_cases hold : 2 * j + 1 < r.SP
    · rw [hbelow _ (by omega)]
      exact hfr j hj0 hold
    · have e : 2 * j = r.SP := by omega
      rw [e, hst0, ← hpc1, hpcn1]
      exact ⟨by omega, hrest, by rw [hopen]; omega⟩
  · -- `LOOP` that jumps
    have htop := hfr ((r.SP - 2) / 2) (by omega) (by omega)
    have e0 : 2 * ((r.SP - 2) / 2) = r.SP - 2 := by omega
    rw [e0] at htop
    obtain ⟨t0, tpath, topen⟩ := htop
    refine ⟨by rw [hprog, hP], by omega, by omega, by rw [hpc1]; exact t0,
      by rw [hpc1]; exact tpath, by rw [hpc1, hsp1, topen]; omega, ?_⟩
    intro j hj0 hj
    rw [hsp1] at hj
    rw [hother _ (by omega)]
    exact hfr j hj0 hj
  · -- `LOOP` that removes its frame
    rw [if_neg (by rw [hk]; decide), if_pos hk] at hopen
    have hpcn1 : r1.PC = n := by
      have := openAt_next hhead
      obtain ⟨_, _, _, _, hc⟩ := headCommand_inv hhead
      rcases hc with ⟨_, hn⟩ | ⟨htp, _⟩
      · rw [hpc1, hn]
      · rw [hk] at htp; cases htp
    refine ⟨by rw [hprog, hP], by omega, by omega, by omega, by rw [hpcn1]; exact hrest,
      by rw [hpcn1, hsp1, hopen]; omega, ?_⟩
    intro j hj0 hj
    rw [hsp1] at hj
    rw [hst]
    exact hfr j hj0 (by omega)

/-- On a program whose loops nest properly, the dispatch loop of an
interpreter that is on track never panics. -/
theorem OnTrack.never_panics (M : FloatOps) {prog : List ProgramStep} (fuel : Nat) {r : Runtime}
    (hK : OnTrack prog r) (hnest : nestingOk prog = true)
    (hne : r.PC ≠ (prog.length : Int)) :
    (r.runLoop M fuel).2 = .done ∨ (r.runLoop M fuel).2 = .outOfFuel := by
  induction fuel generalizing r with
  | zero => exact Or.inr rfl
  | succ fuel ih =>
    obtain ⟨r1, hd, hK1⟩ := OnTrack.next_round M hK hnest hne
    unfold Runtime.runLoop
    rw [hd]
    simp only
    split
    · exact Or.inl rfl
    · rename_i he
      have hne1 : r1.PC ≠ (prog.length : Int) := by
        intro hc
        apply he
        simp [Runtime.isEOP, hc, hK1.1]
      exact ih hK1 hne1

/-- A run of the compiler's dispatch loop that completes has read the
program from its program counter to the end as commands of the static
reading, and has read at least one. -/
theorem Compiler.compileLoop_path (fuel : Nat) (c : Compiler)
    (h : (c.compileLoop fuel).2 = .done) :
    StaticPath c.Program c.PC (c.Program.length : Int) ∧ 0 ≤ c.PC ∧
    c.PC < (c.Program.length : Int) := by
  induction fuel generalizing c with
  | zero => simp [Compiler.compileLoop] at h
  | succ fuel ih =>
    unfold Compiler.compileLoop at h
    rcases hd : c.dispatch with ⟨c1, _ | e⟩
    · rw [hd] at h
      simp only at h
      obtain ⟨kw, hhead, hprog⟩ := Compiler.compile_dispatch_head hd
      obtain ⟨_, h0, hlt, hle⟩ := Compiler.compile_dispatch_progress hd
      by_cases he : c1.isEOP = true
      · have hpc : c1.PC = (c1.Program.length : Int) := of_decide_eq_true he
        rw [hprog] at hpc
        rw [hpc] at hhead
        exact ⟨Relation.ReflTransGen.single ⟨kw, hhead⟩, h0, by omega⟩
      · simp only [he] at h
        obtain ⟨hp1, _, _⟩ := ih c1 h
        rw [hprog] at hp1
        exact ⟨Relation.ReflTransGen.head ⟨kw, hhead⟩ hp1, h0, by omega⟩
    · rw [hd] at h
      simp at h

theorem openAt_zero (prog : List ProgramStep) : openAt prog 0 = 0 := by
  simp [openAt]

/-- C22. On a runtime whose stack is empty, as that of a fresh runtime is,
and any compiler: when `Run` completes a source text without error (within
some number of rounds), `Compile` completes it without error; and when in
the program built from the text every `LOOP` closes an open `REPEAT` and at
most 128 `REPEAT`s are open at once, `Run` completes without error if and
only if `Compile` does. -/
theorem backends_accept_same (M : FloatOps) (r : Runtime) (c : Compiler)
    (program : List Char) (hsp : r.SP = 0) :
    ((∃ fuel, (Run M fuel r program).2 = .done) → (Compile c program).2 = .done) ∧
    (nestingOk (runtimeBuild program).1 = true →
      ((∃ fuel, (Run M fuel r program).2 = .done) ↔ (Compile c program).2 = .done)) := by
  have part1 : (∃ fuel, (Run M fuel r program).2 = .done) → (Compile c program).2 = .done := by
    rintro ⟨fuel, h⟩
    rcases hres : runtimeBuild program with ⟨prog, out⟩
    cases out with
    | done =>
      simp only [Run, hres] at h
      rcases hloop : Runtime.runLoop M fuel { r with Program := prog, PC := 0 } with ⟨rf, out2⟩
      rw [hloop] at h
      simp only at h
      subst h
      have hJ : ReadSoFar prog ({ r with Program := prog, PC := 0 } : Runtime) :=
        ⟨FramesOk.of_empty _ hsp, rfl, Relation.ReflTransGen.refl, fun j hj0 hj => by
          have hj : 2 * j + 1 < r.SP := hj
          omega⟩
      obtain ⟨hpath, hpos⟩ := ReadSoFar.of_run M fuel hJ hloop
      have hpos : (0 : Int) < (prog.length : Int) := hpos
      simp only [Compile, compilerBuild_eq, hres]
      exact Compiler.compileLoop_of_path prog _ _ rfl hpath
        (by show (0 : Int) ≠ _; omega) (by show ((prog.length : Int) - 0).toNat < _; omega)
    | returned e => simp [Run, hres] at h
    | panicked e => simp [Run, hres] at h
    | outOfFuel => simp [Run, hres] at h
  refine ⟨part1, fun hnest => ⟨part1, ?_⟩⟩
  intro h
  rcases hres : runtimeBuild program with ⟨prog, out⟩
  rw [hres] at hnest
  simp only at hnest
  cases out with
  | done =>
    simp only [Compile, compilerBuild_eq, hres] at h
    obtain ⟨hpath, _, hpos⟩ := Compiler.compileLoop_path _ _ h
    have hpath : StaticPath prog 0 (prog.length : Int) := hpath
    have hpos : (0 : Int) < (prog.length : Int) := hpos
    have hK : OnTrack prog ({ r with Program := prog, PC := 0 } : Runtime) :=
      ⟨rfl, by show 0 ≤ r.SP; omega, by show r.SP ≤ 256; omega, le_refl _, hpath,
        by show r.SP = 2 * openAt prog (0 : Int).toNat; rw [Int.toNat_zero, openAt_zero]; omega,
        fun j hj0 hj => by
          have hj : 2 * j + 1 < r.SP := hj
          omega⟩
    obtain ⟨fuel, hf⟩ := Runtime.halts M ({ r with Program := prog, PC := 0 } : Runtime)
      (by show _ ≤ r.SP; omega) (by show r.SP < _; omega)
    refine ⟨fuel, ?_⟩
    simp only [Run, hres]
    rcases OnTrack.never_panics M fuel hK hnest (by show (0 : Int) ≠ _; omega) with hdone | hout
    · exact hdone
    · exact absurd hout hf
  | returned e => simp [Compile, compilerBuild_eq, hres] at h
  | panicked e => simp [Compile, compilerBuild_eq, hres] at h
  | outOfFuel => simp [Compile, compilerBuild_eq, hres] at h

/-- Instance of `backends_accept_same`: `REPEAT 2 FORWARD 10 LOOP` nests
properly, both backends complete it; `LOOP` alone does not nest properly,
the compiler completes it and the interpreter panics with an empty stack. -/
theorem backends_accept_same_witness :
    ((∃ fuel, (Run axisFloatOps fuel NewRuntime "REPEAT 2 FORWARD 10 LOOP".toList).2 = .done) ↔
      (Compile (NewCompiler []) "REPEAT 2 FORWARD 10 LOOP".toList).2 = .done) ∧
    (Compile (NewCompiler []) "REPEAT 2 FORWARD 10 LOOP".toList).2 = .done ∧
    (Run axisFloatOps 5 NewRuntime "REPEAT 2 FORWARD 10 LOOP".toList).2 = .done ∧
    nestingOk (runtimeBuild "LOOP".toList).1 = false ∧
    (Compile (NewCompiler []) "LOOP".toList).2 = .done ∧
    (Run axisFloatOps 1 NewRuntime "LOOP".toList).2 = .panicked .stackEmpty := by
  have hb : (runtimeBuild "REPEAT 2 FORWARD 10 LOOP".toList).1 =
      [mkIdent "REPEAT".toList 1, mkNumber 2 1, mkIdent "FORWARD".toList 1, mkNumber 10 1,
        mkIdent "LOOP".toList 1] := by decide
  have hn : nestingOk (runtimeBuild "REPEAT 2 FORWARD 10 LOOP".toList).1 = true := by
    rw [hb]; decide
  have hl : (runtimeBuild "LOOP".toList).1 = [mkIdent "LOOP".toList 1] := by decide
  exact ⟨(backends_accept_same axisFloatOps NewRuntime (NewCompiler [])
    "REPEAT 2 FORWARD 10 LOOP".toList rfl).2 hn, by decide, by decide, by rw [hl]; decide,
    by decide, by decide⟩

/-- C20, the claim as worded fails: 129 nested `REPEAT 1` run on the fresh
runtime.  After 128 rounds the stack is 256 deep and the program counter is
on the 129th `REPEAT`, index 256, whose count 1 is valid; its dispatch
pushes nothing, neither the index 258 nor the count: it panics with "stack
overflow", the stack as it was, and so does the dispatch loop. -/
theorem repeat_on_full_stack_panics :
    ∃ r1, Runtime.rounds axisFloatOps 128 sampleDeepState = some r1 ∧
      r1.SP = 256 ∧ r1.PC = 256 ∧
      fetch r1.Program r1.PC = some (mkIdent "REPEAT".toList 1) ∧
      fetch r1.Program (r1.PC + 1) = some (mkNumber 1 1) ∧
      (r1.dispatch axisFloatOps).2 = some .stackOverflow ∧
      (r1.dispatch axisFloatOps).1.SP = 256 ∧
      (r1.dispatch axisFloatOps).1.Stack = r1.Stack ∧
      (Runtime.runLoop axisFloatOps 129 sampleDeepState).2 = .panicked .stackOverflow := by
  have hmem : ∀ n ∈ List.replicate 129 (1 : Int), 1 ≤ n ∧ n ≤ 65535 := by
    intro n hn
    rw [List.eq_of_mem_replicate hn]
    decide
  obtain ⟨r1, hk, hP, hPC, hSP⟩ := nest_opens axisFloatOps (List.replicate 129 1) hmem
    sampleDeepState rfl rfl rfl 128 (by simp) (le_refl _)
  have hPC : r1.PC = 256 := by rw [hPC]; rfl
  have hSP : r1.SP = 256 := by rw [hSP]; rfl
  obtain ⟨hr, hc⟩ := nestProgram_fetch_repeat (List.replicate 129 1) 128 1 (by simp)
  have hr : fetch r1.Program r1.PC = some (mkIdent "REPEAT".toList 1) := by
    rw [hP, hPC]; exact hr
  have hc : fetch r1.Program (r1.PC + 1) = some (mkNumber 1 1) := by
    rw [hP, hPC]; exact hc
  have hd := Runtime.dispatch_repeat_overflow axisFloatOps r1 _ _ hr rfl (by decide) hc rfl
    (by decide) (by decide) hSP
  refine ⟨r1, hk, hSP, hPC, hr, hc, by rw [hd], by rw [hd]; exact hSP, by rw [hd], ?_⟩
  have := Runtime.runLoop_rounds axisFloatOps hk 1
  rw [this, Runtime.runLoop_fault axisFloatOps hd 0]

/-- C20, amended.  Dispatch of `REPEAT` and `LOOP` in the interpreter, the
command being the identifier step `p` at index `r.PC`.  `REPEAT` with a
number parameter from 1 to 65535: when two stack slots are free it writes
the index two past the command into the first free slot and the count into
the slot above it, the depth going up by two, no other slot changing and the
program counter going two further; when the stack is full, 256 deep, it
pushes nothing and fails with the stack-overflow error.  `LOOP` on an empty
stack fails with the stack-empty error.  `LOOP` in a state whose frames are
well formed, as they are in every state of a run from an empty stack, with
the count `c` on top and the saved index beneath it: when 1 < c, the depth
is unchanged, the top count becomes c - 1, no other slot changes and the
program counter goes to the saved index; when c is at most 1, the depth goes
down by two, no slot changes and the program counter is on the step after
`LOOP`.  On a stack built by hand, 2 to 256 deep, the same holds of every
count that is a 64-bit `int` other than the least. -/
theorem repeat_loop_stack_effect (M : FloatOps) (r : Runtime) (p : ProgramStep)
    (hp : fetch r.Program r.PC = some p) (hpt : p.Token = .TkIdent) :
    (ToUpper p.String = "REPEAT".toList →
      ∀ q, fetch r.Program (r.PC + 1) = some q → q.Token = .TkNumber →
        1 ≤ q.Number → q.Number ≤ 65535 →
        (0 ≤ r.SP → r.SP ≤ 254 →
          (r.dispatch M).2 = none ∧ (r.dispatch M).1.SP = r.SP + 2 ∧
          (r.dispatch M).1.Stack r.SP = r.PC + 2 ∧
          (r.dispatch M).1.Stack (r.SP + 1) = q.Number ∧
          (∀ i, i ≠ r.SP → i ≠ r.SP + 1 → (r.dispatch M).1.Stack i = r.Stack i) ∧
          (r.dispatch M).1.PC = r.PC + 2 ∧ (r.dispatch M).1.observed = r.observed) ∧
        (r.SP = 256 →
          (r.dispatch M).2 = some .stackOverflow ∧ (r.dispatch M).1.SP = r.SP ∧
          (r.dispatch M).1.Stack = r.Stack)) ∧
    (ToUpper p.String = "LOOP".toList →
      (r.SP = 0 → (r.dispatch M).2 = some .stackEmpty) ∧
      (FramesOk r → 2 ≤ r.SP →
        (1 < r.Stack (r.SP - 1) →
          (r.dispatch M).2 = none ∧ (r.dispatch M).1.SP = r.SP ∧
          (r.dispatch M).1.Stack (r.SP - 1) = r.Stack (r.SP - 1) - 1 ∧
          (∀ i, i ≠ r.SP - 1 → (r.dispatch M).1.Stack i = r.Stack i) ∧
          (r.dispatch M).1.PC = r.Stack (r.SP - 2) ∧
          (r.dispatch M).1.observed = r.observed) ∧
        (r.Stack (r.SP - 1) ≤ 1 →
          (r.dispatch M).2 = none ∧ (r.dispatch M).1.SP = r.SP - 2 ∧
          (r.dispatch M).1.Stack = r.Stack ∧
          (r.dispatch M).1.PC = r.PC + 1 ∧ (r.dispatch M).1.observed = r.observed)) ∧
      (2 ≤ r.SP → r.SP ≤ 256 → 1 < r.Stack (r.SP - 1) →
        r.Stack (r.SP - 1) ≤ 9223372036854775807 →
        (r.dispatch M).2 = none ∧ (r.dispatch M).1.SP = r.SP ∧
        (r.dispatch M).1.Stack (r.SP - 1) = r.Stack (r.SP - 1) - 1 ∧
        (∀ i, i ≠ r.SP - 1 → (r.dispatch M).1.Stack i = r.Stack i) ∧
        (r.dispatch M).1.PC = r.Stack (r.SP - 2) ∧ (r.dispatch M).1.observed = r.observed) ∧
      (2 ≤ r.SP → r.SP ≤ 256 → r.Stack (r.SP - 1) ≤ 1 →
        -9223372036854775808 < r.Stack (r.SP - 1) →
        (r.dispatch M).2 = none ∧ (r.dispatch M).1.SP = r.SP - 2 ∧
        (r.dispatch M).1.Stack = r.Stack ∧
        (r.dispatch M).1.PC = r.PC + 1 ∧ (r.dispatch M).1.observed = r.observed)) := by
  obtain ⟨hrep, hloop⟩ := Runtime.repeat_loop_effect M r p hp hpt
  constructor
  · intro hcmd q hq hqt hn1 hn2
    refine ⟨fun hs0 hs1 => hrep hcmd q hq hqt hn1 hn2 hs0 hs1, ?_⟩
    intro hfull
    rw [Runtime.dispatch_repeat_overflow M r p q hp hpt hcmd hq hqt hn1 hn2 hfull]
    exact ⟨rfl, rfl, rfl⟩
  · intro hcmd
    obtain ⟨hempty, hjump, hfall⟩ := hloop hcmd
    refine ⟨hempty, ?_, hjump, hfall⟩
    intro hok hs2
    obtain ⟨hs0, hs1, hev, hfr, _⟩ := hok
    have htop := hfr ((r.SP - 2) / 2) (by omega) (by omega)
    have e0 : 2 * ((r.SP - 2) / 2) = r.SP - 2 := by omega
    have e1 : r.SP - 2 + 1 = r.SP - 1 := by omega
    rw [e0, e1] at htop
    obtain ⟨t1, t2, _⟩ := htop
    exact ⟨fun hc => hjump hs2 hs1 hc (by omega), fun hc => hfall hs2 hs1 hc (by omega)⟩

/-- Instance of `repeat_loop_stack_effect`: in the run of
`REPEAT 3 FORWARD 10 LOOP` on the fresh runtime with the pen down, two rounds
reach the `LOOP` with the saved index 2 beneath the count 3; its dispatch
leaves the count 2 on top of the same frame and jumps to index 2. -/
theorem repeat_loop_stack_effect_witness :
    Runtime.rounds axisFloatOps 2 sampleLoopState = some sampleAtLoopState ∧
    sampleAtLoopState.SP = 2 ∧ sampleAtLoopState.Stack 0 = 2 ∧ sampleAtLoopState.Stack 1 = 3 ∧
    (sampleAtLoopState.dispatch axisFloatOps).2 = none ∧
    (sampleAtLoopState.dispatch axisFloatOps).1.SP = 2 ∧
    (sampleAtLoopState.dispatch axisFloatOps).1.Stack 1 = 2 ∧
    (sampleAtLoopState.dispatch axisFloatOps).1.PC = 2 := by
  have hreach : Runtime.rounds axisFloatOps 2 sampleLoopState = some sampleAtLoopState := rfl
  have hok : FramesOk sampleAtLoopState :=
    FramesOk.rounds axisFloatOps 2 (FramesOk.of_empty sampleLoopState rfl) hreach
  have h := ((repeat_loop_stack_effect axisFloatOps sampleAtLoopState
    (mkIdent "LOOP".toList 1) (by decide) (by decide)).2 (by decide)).2.1 hok (by decide)
  have hj := h.1 (by decide)
  exact ⟨hreach, by decide, by decide, by decide, hj.1, hj.2.1, hj.2.2.1.trans (by decide),
    hj.2.2.2.2.1.trans (by decide)⟩

end Logo
